import Mathlib

/-!
# Search and pattern analysis pipeline of `src/extensions/vscodeAPI.js`

A shallow embedding of the text matcher (`findMatchesInText`, `getLineContext`) and of the
pattern extractor (`findCodePatterns`) together with the fragment of the ECMAScript
`String` / `RegExp` built-ins these functions call.

* A JavaScript string is a sequence of UTF-16 code units (`JSString`).
* The Unicode case tables of the host (`String.prototype.toUpperCase`,
  `String.prototype.toLowerCase`) are parameters `U`, `L` of the definitions that use them;
  `asciiToUpperCase` / `asciiToLowerCase` are the instances used on concrete ASCII inputs.
* A `RegExp` object is a pattern, its flags and the mutable `lastIndex`; `exec` threads the
  object through explicitly.
-/

namespace Shindary

/-! ## JavaScript strings -/

/-- A JavaScript string: a finite sequence of UTF-16 code units, each a natural number. -/
abbrev JSString := List Nat

/-- UTF-16 encoding of a string literal (surrogate pairs above the BMP). -/
def utf16 (s : String) : JSString :=
  s.toList.flatMap fun c =>
    if c.toNat < 0x10000 then [c.toNat]
    else [0xD800 + (c.toNat - 0x10000) / 0x400, 0xDC00 + (c.toNat - 0x10000) % 0x400]

/-- ASCII upper-casing of one code unit. -/
def asciiUpper (c : Nat) : Nat :=
  if 97 ≤ c ∧ c ≤ 122 then c - 32 else c

/-- ASCII lower-casing of one code unit. -/
def asciiLower (c : Nat) : Nat :=
  if 65 ≤ c ∧ c ≤ 90 then c + 32 else c

/-- The restriction of `String.prototype.toUpperCase` to ASCII case pairs. -/
def asciiToUpperCase (s : JSString) : JSString := s.map asciiUpper

/-- The restriction of `String.prototype.toLowerCase` to ASCII case pairs. -/
def asciiToLowerCase (s : JSString) : JSString := s.map asciiLower

/-- ECMAScript `WhiteSpace` and `LineTerminator` code points: what `trim` strips and what
`\s` matches. -/
def isWhiteSpace (c : Nat) : Bool :=
  c == 0x09 || c == 0x0A || c == 0x0B || c == 0x0C || c == 0x0D || c == 0x20 || c == 0xA0 ||
  c == 0x1680 || (0x2000 ≤ c && c ≤ 0x200A) || c == 0x2028 || c == 0x2029 || c == 0x202F ||
  c == 0x205F || c == 0x3000 || c == 0xFEFF

/-- The class `\w` (no `u` flag): `[A-Za-z0-9_]`. -/
def isWordChar (c : Nat) : Bool :=
  (65 ≤ c && c ≤ 90) || (97 ≤ c && c ≤ 122) || (48 ≤ c && c ≤ 57) || c == 95

/-- `String.prototype.trim`. -/
def trim (s : JSString) : JSString :=
  ((s.dropWhile isWhiteSpace).reverse.dropWhile isWhiteSpace).reverse

/-- Worker of `splitLF`: `cur` is the current piece, reversed. -/
def splitLFAux : JSString → JSString → List JSString
  | [], cur => [cur.reverse]
  | c :: cs, cur => if c = 10 then cur.reverse :: splitLFAux cs [] else splitLFAux cs (c :: cur)

/-- `text.split('\n')`. -/
def splitLF (text : JSString) : List JSString := splitLFAux text []

/-- `s.startsWith(p)` on code units. -/
def startsWith : JSString → JSString → Bool
  | _, [] => true
  | [], _ :: _ => false
  | c :: cs, p :: ps => c == p && startsWith cs ps

/-- `s.includes(p)`: `p` occurs in `s` as a contiguous run of code units. -/
def includes : JSString → JSString → Bool
  | [], p => p.isEmpty
  | c :: cs, p => startsWith (c :: cs) p || includes cs p

/-- `Array.prototype.slice(start, end)` with its treatment of negative and oversized
indices. -/
def slice {α : Type} (xs : List α) (start stop : Int) : List α :=
  let len : Int := xs.length
  let k := if start < 0 then max (len + start) 0 else min start len
  let fin := if stop < 0 then max (len + stop) 0 else min stop len
  (xs.drop k.toNat).take (fin - k).toNat

/-! ## Regular expressions -/

/-- The fourteen ECMAScript `SyntaxCharacter`s `^ $ \ . * + ? ( ) [ ] { } |`; the same set
is the character class `[.*+?^${}()|[\]\\]` of `findMatchesInText`. -/
def isSyntaxChar (c : Nat) : Bool :=
  c == 46 || c == 42 || c == 43 || c == 63 || c == 94 || c == 36 || c == 123 || c == 125 ||
  c == 40 || c == 41 || c == 124 || c == 91 || c == 93 || c == 92

/-- A one-character matcher. -/
inductive CharSet where
  | lit (c : Nat)
  | space
  | word
  deriving DecidableEq, Repr

/-- Greedy quantifiers. -/
inductive Quant where
  | one
  | plus
  | star
  deriving DecidableEq, Repr

/-- A quantified one-character matcher, possibly wrapped in the capture group. -/
structure Node where
  set : CharSet
  quant : Quant
  capture : Bool
  deriving DecidableEq, Repr

/-- A `RegExp` object. -/
structure RegExp where
  nodes : List Node
  ignoreCase : Bool
  global : Bool
  lastIndex : Nat
  deriving DecidableEq, Repr

/-- ECMAScript `Canonicalize(ch)` without the `u` flag, over the host upper-casing `U`. -/
def Canonicalize (U : JSString → JSString) (ch : Nat) : Nat :=
  match U [ch] with
  | [cu] => if 128 ≤ ch ∧ cu < 128 then ch else cu
  | _ => ch

/-- Does the one-character matcher accept `c`? -/
def CharSet.test (U : JSString → JSString) (ignoreCase : Bool) : CharSet → Nat → Bool
  | .lit a, c => if ignoreCase then Canonicalize U c == Canonicalize U a else c == a
  | .space, c => isWhiteSpace c
  | .word, c => isWordChar c

/-- A match of the node list on a prefix of the input: number of code units consumed and
the content of the capture group. -/
structure PrefixMatch where
  len : Nat
  cap : Option JSString
  deriving DecidableEq, Repr

/-- Account for `taken`, the code units a node consumed in front of the match `m` of the
remaining nodes. -/
def PrefixMatch.push (capture : Bool) (taken : JSString) (m : PrefixMatch) : PrefixMatch :=
  { len := taken.length + m.len, cap := if capture then some taken else m.cap }

/-- Greedy backtracking over a quantified node: try to consume `k`, `k - 1`, ..., `lo` code
units before continuing with `rest`. -/
def tryCounts (rest : JSString → Option PrefixMatch) (capture : Bool) (s : JSString) (lo : Nat) :
    Nat → Option PrefixMatch
  | 0 => if lo = 0 then (rest s).map (PrefixMatch.push capture []) else none
  | k + 1 =>
    if k + 1 < lo then none
    else
      match (rest (s.drop (k + 1))).map (PrefixMatch.push capture (s.take (k + 1))) with
      | some m => some m
      | none => tryCounts rest capture s lo k

/-- Match the node list at the start of `s`. -/
def matchNodes (U : JSString → JSString) (ignoreCase : Bool) :
    List Node → JSString → Option PrefixMatch
  | [], _ => some { len := 0, cap := none }
  | n :: ns, s =>
    match n.quant with
    | .one =>
      match s with
      | [] => none
      | c :: cs =>
        if n.set.test U ignoreCase c then
          (matchNodes U ignoreCase ns cs).map (PrefixMatch.push n.capture [c])
        else none
    | .plus =>
      tryCounts (matchNodes U ignoreCase ns) n.capture s 1
        (s.takeWhile (n.set.test U ignoreCase)).length
    | .star =>
      tryCounts (matchNodes U ignoreCase ns) n.capture s 0
        (s.takeWhile (n.set.test U ignoreCase)).length

/-- The result array of a successful `exec`: `index`, and the capture `[1]`. -/
structure MatchResult where
  index : Nat
  stop : Nat
  group1 : Option JSString
  deriving DecidableEq, Repr

/-- Scan of `RegExpBuiltinExec`: try the start positions `i`, `i + 1`, ... where `s` is the
input from position `i` on. -/
def search (U : JSString → JSString) (ignoreCase : Bool) (nodes : List Node) :
    JSString → Nat → Option MatchResult
  | [], i =>
    (matchNodes U ignoreCase nodes []).map fun m => ⟨i, i + m.len, m.cap⟩
  | c :: cs, i =>
    match matchNodes U ignoreCase nodes (c :: cs) with
    | some m => some ⟨i, i + m.len, m.cap⟩
    | none => search U ignoreCase nodes cs (i + 1)

/-- `RegExp.prototype.exec(S)`: the match, if any, and the object with its new `lastIndex`.
Without the `g` flag the scan starts at 0 and `lastIndex` is left alone. -/
def RegExp.exec (U : JSString → JSString) (re : RegExp) (S : JSString) :
    Option MatchResult × RegExp :=
  let start := if re.global then re.lastIndex else 0
  if S.length < start then (none, { re with lastIndex := 0 })
  else
    match search U re.ignoreCase re.nodes (S.drop start) start with
    | none => (none, if re.global then { re with lastIndex := 0 } else re)
    | some m => (some m, if re.global then { re with lastIndex := m.stop } else re)

/-- `query.replace(/[.*+?^${}()|[\]\\]/g, '\\$&')`: a backslash in front of every syntax
character. -/
def escapeRegExp (query : JSString) : JSString :=
  query.flatMap fun c => if isSyntaxChar c then [92, c] else [c]

/-- Pattern parser for the fragment `findMatchesInText` produces: pattern characters and
identity escapes of syntax characters. Any other pattern text is rejected, which covers
every pattern `new RegExp` throws a `SyntaxError` on. -/
def parsePattern : JSString → Option (List Node)
  | [] => some []
  | [c] => if isSyntaxChar c then none else some [⟨.lit c, .one, false⟩]
  | c :: d :: rest =>
    if c = 92 then
      if isSyntaxChar d then (parsePattern rest).map (⟨.lit d, .one, false⟩ :: ·) else none
    else if isSyntaxChar c then none
    else (parsePattern (d :: rest)).map (⟨.lit c, .one, false⟩ :: ·)

/-- The constructor call `new RegExp(pattern, 'gi')`; `none` is a thrown `SyntaxError`.
The limit of the engine on the size of a pattern, which shows at the first `exec`, is
part of `execAt`. -/
def newRegExpGI (pattern : JSString) : Option RegExp :=
  (parsePattern pattern).map fun ns =>
    { nodes := ns, ignoreCase := true, global := true, lastIndex := 0 }

/-! ## Text matcher -/

/-- The object returned by `getLineContext`. -/
structure LineContext where
  before : List JSString
  current : Option JSString
  after : List JSString
  deriving DecidableEq, Repr

/-- The records pushed by `findMatchesInText`. -/
structure MatchRecord where
  line : Nat
  column : Nat
  text : JSString
  context : LineContext
  deriving DecidableEq, Repr

/-- Context lines around a match (`getLineContext`). -/
def getLineContext (lines : List JSString) (lineIndex : Nat) (contextSize : Nat) :
    LineContext :=
  let start : Int := max 0 ((lineIndex : Int) - contextSize)
  let stop : Int := min (lines.length : Int) ((lineIndex : Int) + contextSize + 1)
  { before := slice lines start lineIndex
    current := lines[lineIndex]?
    after := slice lines ((lineIndex : Int) + 1) stop }

/-- The `lines.forEach` loop of `findMatchesInText`: `rest` are the lines still to visit,
`index` the index of the first of them, `re` the shared `RegExp` object. The call
`getLineContext(lines, index)` leaves `contextSize` at its default 2. -/
def forEachLine (U : JSString → JSString) (lines : List JSString) :
    List JSString → Nat → RegExp → List MatchRecord
  | [], _, _ => []
  | line :: rest, index, re =>
    match re.exec U line with
    | (some m, re') =>
      { line := index + 1, column := m.index, text := trim line,
        context := getLineContext lines index 2 } :: forEachLine U lines rest (index + 1) re'
    | (none, re') => forEachLine U lines rest (index + 1) re'

/-- Find matches in text with context (`findMatchesInText`); `none` is a thrown exception.
The `RegExp` object is a value handed along the loop; `findMatchesInTextOn` is the same
function with the objects on a heap and with the compile limit of the engine. -/
def findMatchesInText (U : JSString → JSString) (text query : JSString) :
    Option (List MatchRecord) :=
  let lines := splitLF text
  match newRegExpGI (escapeRegExp query) with
  | none => none
  | some searchPattern => some (forEachLine U lines lines 0 searchPattern)

/-- Line and column of each record, in order. -/
def positions (rs : Option (List MatchRecord)) : Option (List (Nat × Nat)) :=
  rs.map fun l => l.map fun r => (r.line, r.column)


/-! ## Specification-level notions for the text matcher -/

/-- The string as the case-insensitive matcher sees it: every code unit canonicalised. -/
def canonStr (U : JSString → JSString) (s : JSString) : JSString := s.map (Canonicalize U)

/-- Offset of the leftmost occurrence of `p` in `s`, counted from `i`. -/
def indexOfFrom (p : JSString) : JSString → Nat → Option Nat
  | [], i => if startsWith [] p then some i else none
  | c :: cs, i => if startsWith (c :: cs) p then some i else indexOfFrom p cs (i + 1)

/-- The node of a literal pattern character. -/
def litNode (c : Nat) : Node := ⟨.lit c, .one, false⟩

/-- The object `new RegExp(escaped query, 'gi')` with `lastIndex` at `li`. -/
def litRegExp (query : JSString) (li : Nat) : RegExp :=
  { nodes := query.map litNode, ignoreCase := true, global := true, lastIndex := li }

/-- The host table upper-cases ASCII code units the ASCII way, as Unicode does. -/
def AsciiFaithful (U : JSString → JSString) : Prop :=
  ∀ c : Nat, c < 128 → U [c] = [asciiUpper c]

/-- The document of the end-to-end scenario. -/
def scenarioText : JSString :=
  utf16 "local function getScore(player)\n    local score = 0\n    return score\nend"

/-- The query of the end-to-end scenario. -/
def scenarioQuery : JSString := utf16 "score"

/-! ## Pattern extractor -/

/-- Host functions the pattern extractor calls: the Unicode case conversions of `String`
and `path.basename`. -/
structure Host where
  toUpperCase : JSString → JSString
  toLowerCase : JSString → JSString
  basename : JSString → JSString

/-- The host restricted to ASCII case pairs, with the POSIX `basename` of a path without
trailing slash. -/
def asciiHost : Host where
  toUpperCase := asciiToUpperCase
  toLowerCase := asciiToLowerCase
  basename := fun p => (p.reverse.takeWhile fun c => c != 47).reverse

/-- The keys of the `patterns` object. -/
inductive PatternType where
  | functions
  /-- The key `variables`; the bare word is reserved in Lean. -/
  | variables_
  | services
  | events
  | structures
  deriving DecidableEq, Repr

/-- The objects pushed by `findCodePatterns`. -/
structure PatternHit where
  name : JSString
  file : JSString
  fullPath : JSString
  deriving DecidableEq, Repr

/-- The `patterns` object. -/
structure Patterns where
  functions : List PatternHit
  /-- The array `patterns.variables`. -/
  variables_ : List PatternHit
  services : List PatternHit
  events : List PatternHit
  structures : List PatternHit
  deriving DecidableEq, Repr

/-- The initial `patterns` object: five empty arrays. -/
def Patterns.empty : Patterns := ⟨[], [], [], [], []⟩

/-- The array `patterns[type]`. -/
def Patterns.get (p : Patterns) : PatternType → List PatternHit
  | .functions => p.functions
  | .variables_ => p.variables_
  | .services => p.services
  | .events => p.events
  | .structures => p.structures

/-- The update `patterns[type].push(hit)`. -/
def Patterns.push (p : Patterns) (t : PatternType) (hit : PatternHit) : Patterns :=
  match t with
  | .functions => { p with functions := p.functions ++ [hit] }
  | .variables_ => { p with variables_ := p.variables_ ++ [hit] }
  | .services => { p with services := p.services ++ [hit] }
  | .events => { p with events := p.events ++ [hit] }
  | .structures => { p with structures := p.structures ++ [hit] }

/-- An entry of `searchPatterns`. -/
structure SearchPattern where
  type : PatternType
  regex : RegExp
  deriving DecidableEq, Repr

/-- The nodes of a run of literal pattern characters. -/
def lits (s : String) : List Node := (utf16 s).map litNode

/-- The array `searchPatterns`, its five regex literals written out as node lists, all
with the `g` flag only and `lastIndex` 0:
`/function\s+(\w+)/g`, `/local\s+(\w+)/g`, `/game:GetService\("(\w+)"\)/g`,
`/(\w+):Connect\(/g`, `/(\w+)\s*=\s*{/g`. -/
def searchPatterns : List SearchPattern :=
  [ { type := .functions
      regex := ⟨lits "function" ++ [⟨.space, .plus, false⟩, ⟨.word, .plus, true⟩],
        false, true, 0⟩ },
    { type := .variables_
      regex := ⟨lits "local" ++ [⟨.space, .plus, false⟩, ⟨.word, .plus, true⟩],
        false, true, 0⟩ },
    { type := .services
      regex := ⟨lits "game:GetService(\"" ++ [⟨.word, .plus, true⟩] ++ lits "\")",
        false, true, 0⟩ },
    { type := .events
      regex := ⟨[⟨.word, .plus, true⟩] ++ lits ":Connect(", false, true, 0⟩ },
    { type := .structures
      regex := ⟨[⟨.word, .plus, true⟩, ⟨.space, .star, false⟩] ++ lits "=" ++
        [⟨.space, .star, false⟩] ++ lits "\x7b", false, true, 0⟩ } ]

/-- A file returned by `findFiles`: its path and the text `openTextDocument(file)`
yields, `none` when opening it rejects. -/
structure WorkspaceFile where
  fsPath : JSString
  document : Option JSString
  deriving DecidableEq, Repr

/-- The loop `while ((match = regex.exec(text)) !== null) { ... }` for one entry of
`searchPatterns`. The result is `none` when the fuel runs out; otherwise the flag tells
whether the body threw (`match[1]` undefined), next to the regex and the `patterns`
object as the loop leaves them. -/
def whileExec (H : Host) (query : JSString) (file : WorkspaceFile) (text : JSString)
    (type : PatternType) : Nat → RegExp → Patterns → Option (Bool × RegExp × Patterns)
  | 0, _, _ => none
  | fuel + 1, regex, patterns =>
    match regex.exec H.toUpperCase text with
    | (none, regex') => some (false, regex', patterns)
    | (some m, regex') =>
      match m.group1 with
      | none => some (true, regex', patterns)
      | some name =>
        if includes (H.toLowerCase name) (H.toLowerCase query) then
          whileExec H query file text type fuel regex'
            (patterns.push type
              { name := name, file := H.basename file.fsPath, fullPath := file.fsPath })
        else whileExec H query file text type fuel regex' patterns

/-- The call `searchPatterns.forEach(({ type, regex }) => { ... })` on one document; an
exception thrown by the callback ends the iteration. -/
def forEachPattern (H : Host) (query : JSString) (file : WorkspaceFile) (text : JSString) :
    List SearchPattern → Patterns → Option (Bool × List SearchPattern × Patterns)
  | [], patterns => some (false, [], patterns)
  | sp :: rest, patterns =>
    match whileExec H query file text sp.type (text.length + 2) sp.regex patterns with
    | none => none
    | some (true, regex', patterns') => some (true, { sp with regex := regex' } :: rest, patterns')
    | some (false, regex', patterns') =>
      match forEachPattern H query file text rest patterns' with
      | none => none
      | some (thrown, rest', patterns'') =>
        some (thrown, { sp with regex := regex' } :: rest', patterns'')

/-- The body of `for (const file of luaFiles)`: the `try` block and its `catch`, which
only logs. -/
def scanFile (H : Host) (query : JSString) (sps : List SearchPattern) (patterns : Patterns)
    (file : WorkspaceFile) : Option (List SearchPattern × Patterns) :=
  match file.document with
  | none => some (sps, patterns)
  | some text =>
    if includes (H.toLowerCase text) (H.toLowerCase query) then
      match forEachPattern H query file text sps patterns with
      | none => none
      | some (_, sps', patterns') => some (sps', patterns')
    else some (sps, patterns)

/-- The loop `for (const file of luaFiles)`. -/
def forFiles (H : Host) (query : JSString) :
    List WorkspaceFile → List SearchPattern → Patterns → Option (List SearchPattern × Patterns)
  | [], sps, patterns => some (sps, patterns)
  | file :: rest, sps, patterns =>
    match scanFile H query sps patterns file with
    | none => none
    | some (sps', patterns') => forFiles H query rest sps' patterns'

/-- Find code patterns related to query (`findCodePatterns`): `workspaceFolder` tells
whether a workspace folder is open, `luaFiles` is what `findFiles` returns. `none` stands
for a run that does not finish. -/
def findCodePatterns (H : Host) (query : JSString) (workspaceFolder : Bool)
    (luaFiles : List WorkspaceFile) : Option Patterns :=
  if !workspaceFolder then some Patterns.empty
  else (forFiles H query luaFiles searchPatterns Patterns.empty).map fun r => r.2

/-- The successive results of `regex.exec(text)` until the first `null`. -/
def allMatches (U : JSString → JSString) (text : JSString) : Nat → RegExp → List MatchResult
  | 0, _ => []
  | fuel + 1, regex =>
    match regex.exec U text with
    | (none, _) => []
    | (some m, regex') => m :: allMatches U text fuel regex'

/-- The identifiers a rule captures in a document: group 1 of each successive match. -/
def captures (H : Host) (regex : RegExp) (text : JSString) : List JSString :=
  (allMatches H.toUpperCase text (text.length + 2) regex).filterMap fun m => m.group1

/-- Least number of code units a node list consumes. -/
def minLen : List Node → Nat
  | [] => 0
  | n :: ns => (if n.quant = .star then 0 else 1) + minLen ns

/-- The hits one rule contributes for a document with text `text`. -/
def hitsInText (H : Host) (query : JSString) (file : WorkspaceFile) (text : JSString)
    (sp : SearchPattern) : List PatternHit :=
  ((captures H sp.regex text).filter fun name =>
    includes (H.toLowerCase name) (H.toLowerCase query)).map fun name =>
      { name := name, file := H.basename file.fsPath, fullPath := file.fsPath }

/-- The hits one rule contributes for one file: none when the file cannot be opened or
fails the whole-document check. -/
def hitsFor (H : Host) (query : JSString) (file : WorkspaceFile) (sp : SearchPattern) :
    List PatternHit :=
  match file.document with
  | none => []
  | some text =>
    if includes (H.toLowerCase text) (H.toLowerCase query) then hitsInText H query file text sp
    else []

/-- What the extraction needs of a rule: the `g` flag, `lastIndex` at 0, a match that
consumes at least one code unit, and a capture group. -/
def GoodRule (sp : SearchPattern) : Prop :=
  sp.regex.global = true ∧ sp.regex.lastIndex = 0 ∧ 1 ≤ minLen sp.regex.nodes ∧
    sp.regex.nodes.any (fun n => n.capture) = true

/-- The file of the end-to-end scenario. -/
def scenarioFile : WorkspaceFile :=
  { fsPath := utf16 "/ws/src/Score.lua", document := some scenarioText }

/-- The host lower-cases ASCII code units the ASCII way and independently of their
neighbours, as the Unicode default case conversion does. -/
def LowerFaithful (H : Host) : Prop :=
  ∀ pre mid post : JSString, (∀ c ∈ mid, c < 128) →
    ∃ pre' post', H.toLowerCase (pre ++ mid ++ post) = pre' ++ mid.map asciiLower ++ post' ∧
      (pre = [] → pre' = []) ∧ (post = [] → post' = [])

/-- Every capture group of the node list is `(\w+)`. -/
def WordCapture (nodes : List Node) : Prop :=
  ∀ n ∈ nodes, n.capture = true → n.set = .word ∧ n.quant = .plus

/-- A document that declares the same local twice. -/
def twoLocalsText : JSString := utf16 "local score = 1\nlocal score = 2"

/-! ## Usage analyzer -/

/-- Own numeric properties of a plain object used as a counter (`{}` filled by
`obj[key] = (obj[key] || 0) + n`), in creation order. `Object.entries` lists them in this
order as long as no key is an array index. -/
abbrev Counter := List (JSString × Nat)

/-- The value `x || 0` for `x` a number or `undefined`. -/
def orZero : Option Nat → Nat
  | none => 0
  | some 0 => 0
  | some (n + 1) => n + 1

/-- The read `obj[key]` of a key that is not inherited: the own property or `undefined`. -/
def getProp : Counter → JSString → Option Nat
  | [], _ => none
  | (k, x) :: rest, key => if k = key then some x else getProp rest key

/-- The assignment `obj[key] = value`: overwrite the own property or create it last. -/
def setProp : Counter → JSString → Nat → Counter
  | [], key, value => [(key, value)]
  | (k, x) :: rest, key, value =>
    if k = key then (k, value) :: rest else (k, x) :: setProp rest key value

/-- The property names a plain object inherits from `Object.prototype`. Reading one of
them from `{}` yields a function or an object, not `undefined`. -/
def objectPrototypeKeys : List JSString :=
  [utf16 "constructor", utf16 "__defineGetter__", utf16 "__defineSetter__",
    utf16 "hasOwnProperty", utf16 "__lookupGetter__", utf16 "__lookupSetter__",
    utf16 "isPrototypeOf", utf16 "propertyIsEnumerable", utf16 "toString", utf16 "valueOf",
    utf16 "__proto__", utf16 "toLocaleString"]

/-- Is the key the name of an inherited property? -/
def isInheritedKey (key : JSString) : Bool := decide (key ∈ objectPrototypeKeys)

/-- The shape of what `path.extname` returns: empty, or starting with a dot. -/
def isExtname (s : JSString) : Bool := s.isEmpty || s.head? == some 46

/-- A location returned by the reference provider. -/
structure Location where
  uri : JSString
  line : Nat
  character : Nat
  deriving DecidableEq, Repr

/-- An entry of `textUsages`, as pushed by `findTextUsages`. -/
structure TextUsage where
  file : JSString
  /-- The array `usage.matches`; the bare word is reserved in Lean. -/
  matches_ : List MatchRecord
  fileType : JSString
  deriving DecidableEq, Repr

/-- The objects returned by `findCommonPatterns`. -/
structure CommonPattern where
  pattern : JSString
  count : Nat
  deriving DecidableEq, Repr

/-- The array `commonWords`. -/
def commonWords : List JSString :=
  [utf16 "function", utf16 "local", utf16 "return", utf16 "if", utf16 "then", utf16 "end",
    utf16 "for", utf16 "while"]

/-- The inner loop `commonWords.forEach(word => { if (context.includes(word)) ... })`. -/
def forEachWord (context : JSString) : List JSString → Counter → Counter
  | [], patterns => patterns
  | word :: rest, patterns =>
    forEachWord context rest
      (if includes context word then
        setProp patterns word (orZero (getProp patterns word) + 1)
      else patterns)

/-- The outer loop `contexts.forEach(context => ...)`. -/
def forEachContext : List JSString → Counter → Counter
  | [], patterns => patterns
  | context :: rest, patterns => forEachContext rest (forEachWord context commonWords patterns)

/-- The order the comparator `([,a], [,b]) => b - a` asks for: larger counts first. -/
def countGE (x y : JSString × Nat) : Prop := y.2 ≤ x.2

instance : DecidableRel countGE := fun x y => inferInstanceAs (Decidable (y.2 ≤ x.2))

/-- The call `.sort(([,a], [,b]) => b - a)`: `Array.prototype.sort` is stable, as is this
insertion sort. -/
def sortByCountDesc (entries : Counter) : Counter := entries.insertionSort countGE

/-- Find common patterns in text contexts (`findCommonPatterns`). -/
def findCommonPatterns (contexts : List JSString) : List CommonPattern :=
  (slice (sortByCountDesc (forEachContext contexts [])) 0 5).map fun e =>
    { pattern := e.1, count := e.2 }

/-- The object returned by `analyzeUsagePatterns`. `fileTypes` is `none` when a file type
names an inherited property: the stored value is then a string, not a count. -/
structure UsageAnalysis where
  searchTerm : JSString
  totalUsages : Nat
  fileTypes : Option Counter
  patterns : List CommonPattern
  suggestions : List JSString
  deriving DecidableEq, Repr

/-- The loop `textUsages.forEach(usage => { ... })` that fills `analysis.fileTypes`. -/
def forEachUsage : List TextUsage → Counter → Option Counter
  | [], fileTypes => some fileTypes
  | usage :: rest, fileTypes =>
    if isInheritedKey usage.fileType then none
    else
      forEachUsage rest
        (setProp fileTypes usage.fileType
          (orZero (getProp fileTypes usage.fileType) + usage.matches_.length))

/-- The first suggestion text. -/
def noUsagesMessage : JSString :=
  utf16 "No usages found. Consider checking spelling or searching for related terms."

/-- The second suggestion text. -/
def highUsageMessage : JSString :=
  utf16 "High usage detected. Consider refactoring for better maintainability."

/-- Analyze usage patterns for insights (`analyzeUsagePatterns`); `references` is `none`
for `null` or `undefined`. -/
def analyzeUsagePatterns (H : Host) (references : Option (List Location))
    (textUsages : List TextUsage) (searchTerm : JSString) : UsageAnalysis :=
  let totalUsages := orZero (references.map List.length) +
    textUsages.foldl (fun sum file => sum + file.matches_.length) 0
  let allMatches := textUsages.flatMap fun usage => usage.matches_
  let contexts := allMatches.map fun m => H.toLowerCase m.text
  let contextPatterns := findCommonPatterns contexts
  { searchTerm := searchTerm
    totalUsages := totalUsages
    fileTypes := forEachUsage textUsages []
    patterns := contextPatterns
    suggestions :=
      if totalUsages = 0 then [noUsagesMessage]
      else if 50 < totalUsages then [highUsageMessage]
      else [] }

/-- The keywords of the contexts in the order the loops meet them. -/
def occurrences (contexts : List JSString) : List JSString :=
  contexts.flatMap fun context => commonWords.filter fun word => includes context word

/-- The distinct elements of a list in the order of their first occurrence. -/
def firstEncounterOrder (ws : List JSString) : List JSString :=
  ws.foldl (fun seen w => if w ∈ seen then seen else seen ++ [w]) []

/-- A match record with the given line text, for examples. -/
def recordOf (n : Nat) (text : String) : MatchRecord :=
  { line := n, column := 0, text := utf16 text, context := ⟨[], some (utf16 text), []⟩ }

/-! ## Insight generator -/

/-- The `summary` object of a text analysis; a field is `none` when it is `undefined`, as
in the `summary: {}` that `analyzeTextDocuments` returns without a workspace folder. -/
structure Summary where
  totalFiles : Option Nat
  matchingFiles : Option Nat
  totalMatches : Option Nat
  deriving DecidableEq, Repr

/-- An entry of `analysis.files`. -/
structure FileEntry where
  path : JSString
  name : JSString
  /-- The count `matches`; the bare word is reserved in Lean. -/
  matches_ : Nat
  fileSize : Nat
  lines : Nat
  deriving DecidableEq, Repr

/-- The object `analyzeTextDocuments` returns. -/
structure TextAnalysis where
  files : List FileEntry
  summary : Summary
  deriving DecidableEq, Repr

/-- The object `insights.codeQuality`, each property absent or a string. -/
structure CodeQuality where
  functions : Option JSString
  services : Option JSString
  deriving DecidableEq, Repr

/-- The object returned by `generateAIInsights`. -/
structure Insights where
  summary : JSString
  recommendations : List JSString
  codeQuality : CodeQuality
  opportunities : List JSString
  deriving DecidableEq, Repr

/-- Decimal digits of a count, as a template literal prints a number below `1e21`. -/
def numberToString (n : Nat) : JSString := (Nat.toDigits 10 n).map Char.toNat

/-- The text a template literal substitutes for a count or for `undefined`. -/
def templateValue : Option Nat → JSString
  | none => utf16 "undefined"
  | some n => numberToString n

/-- The elements of `[...new Set(xs)]`: first occurrences, in order. -/
def uniqueInOrder : List JSString → List JSString → List JSString
  | [], seen => seen
  | x :: xs, seen => uniqueInOrder xs (if x ∈ seen then seen else seen ++ [x])

/-- The call `xs.join(sep)`. -/
def join (sep : JSString) : List JSString → JSString
  | [] => []
  | [x] => x
  | x :: y :: rest => x ++ sep ++ join sep (y :: rest)

/-- The comparison `x > n` for `x` a count or `undefined`. -/
def greaterThan (x : Option Nat) (n : Nat) : Bool :=
  match x with
  | none => false
  | some v => decide (n < v)

/-- The recommendation pushed when more than 10 functions are found. -/
def modularizationMessage : JSString :=
  utf16 "Consider organizing functions into modules for better maintainability"

/-- The fixed head of the services recommendation. -/
def servicesInUse : JSString := utf16 "Services in use: "

/-- The opportunity pushed when more than 5 files match. -/
def coreComponentMessage : JSString :=
  utf16 "High usage suggests this is a core component - consider documentation"

/-- The opportunity pushed when an event hit exists. -/
def eventDrivenMessage : JSString :=
  utf16 "Event-driven architecture detected - good for maintainability"

/-- Index of the first occurrence of `a` in the list, or its length. -/
def firstIndexOf (a : JSString) : List JSString → Nat
  | [] => 0
  | x :: xs => if x = a then 0 else firstIndexOf a xs + 1

/-! ## Per-file scan loops -/

/-- The objects pushed by `performFileContentSearch`; `uri` holds the path of the file. -/
structure FileResult where
  uri : JSString
  fileName : JSString
  /-- The array `matches`; the bare word is reserved in Lean. -/
  matches_ : List MatchRecord
  deriving DecidableEq, Repr

/-- The loop `for (const file of luaFiles)` of `performFileContentSearch`; a rejected
`openTextDocument` or a throwing `findMatchesInText` lands in the `catch`, which only
logs. -/
def contentSearchLoop (H : Host) (query : JSString) :
    List WorkspaceFile → List FileResult → List FileResult
  | [], results => results
  | file :: rest, results =>
    match file.document with
    | none => contentSearchLoop H query rest results
    | some text =>
      match findMatchesInText H.toUpperCase text query with
      | none => contentSearchLoop H query rest results
      | some found =>
        if 0 < found.length then
          contentSearchLoop H query rest
            (results ++ [{ uri := file.fsPath, fileName := H.basename file.fsPath,
                           matches_ := found }])
        else contentSearchLoop H query rest results

/-- Helper function to search file content (`performFileContentSearch`). -/
def performFileContentSearch (H : Host) (workspaceFolder : Bool)
    (luaFiles : List WorkspaceFile) (query : JSString) : List FileResult :=
  if !workspaceFolder then [] else contentSearchLoop H query luaFiles []

/-- The loop `for (const file of files)` of `findTextUsages`; `extname` is
`path.extname`. -/
def textUsagesLoop (H : Host) (extname : JSString → JSString) (searchTerm : JSString) :
    List WorkspaceFile → List TextUsage → List TextUsage
  | [], usages => usages
  | file :: rest, usages =>
    match file.document with
    | none => textUsagesLoop H extname searchTerm rest usages
    | some text =>
      match findMatchesInText H.toUpperCase text searchTerm with
      | none => textUsagesLoop H extname searchTerm rest usages
      | some found =>
        if 0 < found.length then
          textUsagesLoop H extname searchTerm rest
            (usages ++ [{ file := file.fsPath, matches_ := found,
                          fileType := extname file.fsPath }])
        else textUsagesLoop H extname searchTerm rest usages

/-- Find text usages across workspace (`findTextUsages`). -/
def findTextUsages (H : Host) (extname : JSString → JSString) (workspaceFolder : Bool)
    (files : List WorkspaceFile) (searchTerm : JSString) : List TextUsage :=
  if !workspaceFolder then [] else textUsagesLoop H extname searchTerm files []

/-- The loop `for (const file of luaFiles)` of `analyzeTextDocuments` on the `analysis`
object. -/
def textDocumentsLoop (H : Host) (query : JSString) :
    List WorkspaceFile → TextAnalysis → TextAnalysis
  | [], analysis => analysis
  | file :: rest, analysis =>
    match file.document with
    | none => textDocumentsLoop H query rest analysis
    | some text =>
      match findMatchesInText H.toUpperCase text query with
      | none => textDocumentsLoop H query rest analysis
      | some found =>
        if 0 < found.length then
          textDocumentsLoop H query rest
            { files := analysis.files ++
                [{ path := file.fsPath, name := H.basename file.fsPath,
                   matches_ := found.length, fileSize := text.length,
                   lines := (splitLF text).length }]
              summary :=
                { totalFiles := analysis.summary.totalFiles
                  matchingFiles := analysis.summary.matchingFiles.map fun n => n + 1
                  totalMatches := analysis.summary.totalMatches.map fun n => n + found.length } }
        else textDocumentsLoop H query rest analysis

/-- Analyze text documents for patterns (`analyzeTextDocuments`). The constant property
`patterns: []` of the returned object is left out of `TextAnalysis`. -/
def analyzeTextDocuments (H : Host) (workspaceFolder : Bool) (luaFiles : List WorkspaceFile)
    (query : JSString) : TextAnalysis :=
  if !workspaceFolder then { files := [], summary := ⟨none, none, none⟩ }
  else
    textDocumentsLoop H query luaFiles
      { files := [], summary := ⟨some luaFiles.length, some 0, some 0⟩ }

/-- Can the file be opened? -/
def readable (file : WorkspaceFile) : Bool := file.document.isSome

/-- Number of offsets of `s` at which `w` occurs. -/
def countOccurrences (w : JSString) : JSString → Nat
  | [] => if startsWith [] w then 1 else 0
  | c :: cs => (if startsWith (c :: cs) w then 1 else 0) + countOccurrences w cs

/-! ## The extraction without the whole-document check -/

/-- The loop body of `findCodePatterns` with the check
`text.toLowerCase().includes(query.toLowerCase())` left out: the five rules and the
per-identifier filter run on every readable document. -/
def scanFileUnchecked (H : Host) (query : JSString) (sps : List SearchPattern)
    (patterns : Patterns) (file : WorkspaceFile) : Option (List SearchPattern × Patterns) :=
  match file.document with
  | none => some (sps, patterns)
  | some text =>
    match forEachPattern H query file text sps patterns with
    | none => none
    | some (_, sps', patterns') => some (sps', patterns')

/-- The file loop over `scanFileUnchecked`. -/
def forFilesUnchecked (H : Host) (query : JSString) :
    List WorkspaceFile → List SearchPattern → Patterns → Option (List SearchPattern × Patterns)
  | [], sps, patterns => some (sps, patterns)
  | file :: rest, sps, patterns =>
    match scanFileUnchecked H query sps patterns file with
    | none => none
    | some (sps', patterns') => forFilesUnchecked H query rest sps' patterns'

/-- The extraction of `findCodePatterns` without the whole-document check. -/
def findCodePatternsUnchecked (H : Host) (query : JSString) (workspaceFolder : Bool)
    (luaFiles : List WorkspaceFile) : Option Patterns :=
  if !workspaceFolder then some Patterns.empty
  else (forFilesUnchecked H query luaFiles searchPatterns Patterns.empty).map fun r => r.2

/-! ## Service-name validator -/

/-- A term of a pattern made of character classes and assertions. -/
inductive Item where
  | cls (ranges : List (Nat × Nat)) (quant : Quant)
  | lineStart
  | lineEnd
  deriving DecidableEq, Repr

/-- Does the class, given by its inclusive ranges, contain the code unit? -/
def inRanges (ranges : List (Nat × Nat)) (c : Nat) : Bool :=
  ranges.any fun r => decide (r.1 ≤ c) && decide (c ≤ r.2)

/-- Greedy backtracking over a quantified class: try to consume `k`, `k - 1`, ..., `lo`
code units before continuing with `rest` at the new position. -/
def tryCountsAt (rest : Nat → JSString → Bool) (pos : Nat) (s : JSString) (lo : Nat) :
    Nat → Bool
  | 0 => decide (lo = 0) && rest pos s
  | k + 1 =>
    if k + 1 < lo then false
    else rest (pos + (k + 1)) (s.drop (k + 1)) || tryCountsAt rest pos s lo k

/-- Match the items at position `pos` of the input, `s` being the input from there on.
Without the `m` flag `^` holds at position 0 only and `$` at the end of the input only. -/
def matchItems : List Item → Nat → JSString → Bool
  | [], _, _ => true
  | .lineStart :: rest, pos, s => decide (pos = 0) && matchItems rest pos s
  | .lineEnd :: rest, pos, s => s.isEmpty && matchItems rest pos s
  | .cls ranges .one :: rest, pos, s =>
    match s with
    | [] => false
    | c :: cs => inRanges ranges c && matchItems rest (pos + 1) cs
  | .cls ranges .plus :: rest, pos, s =>
    tryCountsAt (matchItems rest) pos s 1 (s.takeWhile (inRanges ranges)).length
  | .cls ranges .star :: rest, pos, s =>
    tryCountsAt (matchItems rest) pos s 0 (s.takeWhile (inRanges ranges)).length

/-- The call `regex.test(S)` for a regex without flags: is there a match starting at
`pos` or later? -/
def testFrom (items : List Item) : Nat → JSString → Bool
  | pos, [] => matchItems items pos []
  | pos, c :: cs => matchItems items pos (c :: cs) || testFrom items (pos + 1) cs

/-- The regex literal `/^[A-Z][a-zA-Z0-9]*$/`. -/
def serviceNamePattern : List Item :=
  [.lineStart, .cls [(65, 90)] .one, .cls [(97, 122), (65, 90), (48, 57)] .star, .lineEnd]

/-- The message the validator returns for a rejected value. -/
def serviceNameError : JSString :=
  utf16 "Service name must start with uppercase letter and be alphanumeric"

/-- The `validateInput` callback of `createRobloxService`; the argument `none` is
`undefined`, the result `none` is `null`. -/
def validateInput : Option JSString → Option JSString
  | none => some serviceNameError
  | some value =>
    if value.isEmpty || !(testFrom serviceNamePattern 0 value) then some serviceNameError
    else none

/-! ## Insights and the two searches that ask for them -/

/-- The value handed over as `textAnalysis`: the object of `analyzeTextDocuments`, as
`performEnhancedSearch` passes it, or the array of `performFileContentSearch`, as
`performSemanticSearch` passes it. -/
inductive TextAnalysisArg where
  | analysis (value : TextAnalysis)
  | fileResults (value : List FileResult)
  deriving DecidableEq, Repr

/-- The property read `textAnalysis.summary`; an array has no such property and the read
gives `undefined`, here `none`. -/
def TextAnalysisArg.summary : TextAnalysisArg → Option Summary
  | .analysis value => some value.summary
  | .fileResults _ => none

set_option linter.unusedVariables false in
/-- Generate AI insights from search results (`generateAIInsights`); `none` is the
`TypeError` of the first template literal, which reads `totalMatches` of
`textAnalysis.summary`, when that is `undefined`. -/
def generateAIInsights (query : JSString) (symbols : Option (List JSString))
    (textAnalysis : TextAnalysisArg) (patterns : Patterns) : Option Insights :=
  match textAnalysis.summary with
  | none => none
  | some textAnalysisSummary =>
    let summary := utf16 "Found " ++ templateValue textAnalysisSummary.totalMatches ++
      utf16 " matches across " ++ templateValue textAnalysisSummary.matchingFiles ++
      utf16 " files"
    let functionsFound := 0 < patterns.functions.length
    let servicesFound := 0 < patterns.services.length
    let uniqueServices := uniqueInOrder (patterns.services.map fun s => s.name) []
    some
      { summary := summary
        recommendations :=
          (if functionsFound ∧ 10 < patterns.functions.length then
            [utf16 "Consider organizing functions into modules for better maintainability"]
          else []) ++
          (if servicesFound then
            [utf16 "Services in use: " ++ join (utf16 ", ") uniqueServices]
          else [])
        codeQuality :=
          { functions :=
              if functionsFound then
                some (utf16 "Found " ++ numberToString patterns.functions.length ++
                  utf16 " related functions")
              else none
            services :=
              if servicesFound then
                some (utf16 "Using " ++ numberToString patterns.services.length ++
                  utf16 " Roblox services")
              else none }
        opportunities :=
          (if greaterThan textAnalysisSummary.matchingFiles 5 then
            [utf16 "High usage suggests this is a core component - consider documentation"]
          else []) ++
          (if 0 < patterns.events.length then
            [utf16 "Event-driven architecture detected - good for maintainability"]
          else []) }

/-- The progress callback of `performSemanticSearch`, up to the `insights` it computes for
`showEnhancedSearchResults`; `none` when a call throws before. Both `findFiles` calls use
the same glob and give `luaFiles`; `symbols` is what the symbol provider returned. -/
def performSemanticSearch (H : Host) (workspaceFolder : Bool) (luaFiles : List WorkspaceFile)
    (symbols : Option (List JSString)) (searchQuery : JSString) : Option Insights :=
  let fileResults := performFileContentSearch H workspaceFolder luaFiles searchQuery
  match findCodePatterns H searchQuery workspaceFolder luaFiles with
  | none => none
  | some patterns =>
    generateAIInsights searchQuery symbols (.fileResults fileResults) patterns

/-- The progress callback of `performEnhancedSearch`, up to the `aiInsights` it computes
for `showEnhancedSearchResults`; `none` when a call throws before. -/
def performEnhancedSearch (H : Host) (workspaceFolder : Bool) (luaFiles : List WorkspaceFile)
    (symbols : Option (List JSString)) (searchQuery : JSString) : Option Insights :=
  let textAnalysis := analyzeTextDocuments H workspaceFolder luaFiles searchQuery
  match findCodePatterns H searchQuery workspaceFolder luaFiles with
  | none => none
  | some patterns => generateAIInsights searchQuery symbols (.analysis textAnalysis) patterns

/-- A `patterns` object with eleven function hits, one service hit and one event hit. -/
def elevenFunctions : Patterns :=
  { functions := List.replicate 11 ⟨utf16 "getScore", utf16 "Score.lua", utf16 "/ws/Score.lua"⟩
    variables_ := []
    services := [⟨utf16 "Players", utf16 "Score.lua", utf16 "/ws/Score.lua"⟩]
    events := [⟨utf16 "ScoreChanged", utf16 "Score.lua", utf16 "/ws/Score.lua"⟩]
    structures := [] }

/-! ## The matcher on the engine: `RegExp` objects on a heap, and the compile limit -/

/-- Longest literal pattern, in code units, that V8, the engine of the extension host,
compiles; with a longer one the first `exec` throws `SyntaxError: Regular expression too
large`. -/
def maxLiteralRun : Nat := 32767

/-- The `RegExp` objects that exist between calls; a reference is an index. -/
abbrev Heap := List RegExp

/-- The constructor call `new RegExp(pattern, 'gi')` on a heap: the reference of the new
object, or `none` for a thrown `SyntaxError`, and the heap after the call. -/
def allocRegExpGI (pattern : JSString) (heap : Heap) : Option Nat × Heap :=
  match newRegExpGI pattern with
  | none => (none, heap)
  | some re => (some heap.length, heap ++ [re])

/-- The call `ref.exec(S)` on a heap, on an engine that compiles literal patterns of at
most `limit` code units: `none` is a thrown exception, otherwise the result of `exec`; the
object behind `ref` is updated in place. -/
def execAt (limit : Nat) (U : JSString → JSString) (ref : Nat) (S : JSString) (heap : Heap) :
    Option (Option MatchResult) × Heap :=
  match heap[ref]? with
  | none => (none, heap)
  | some re =>
    if limit < re.nodes.length then (none, heap)
    else (some (re.exec U S).1, heap.set ref (re.exec U S).2)

/-- The `lines.forEach` loop of `findMatchesInText` on a heap; `ref` is `searchPattern`.
An exception of `exec` ends the loop and the call. -/
def forEachLineOn (limit : Nat) (U : JSString → JSString) (lines : List JSString) (ref : Nat) :
    List JSString → Nat → Heap → Option (List MatchRecord) × Heap
  | [], _, heap => (some [], heap)
  | line :: rest, index, heap =>
    match execAt limit U ref line heap with
    | (none, heap') => (none, heap')
    | (some none, heap') => forEachLineOn limit U lines ref rest (index + 1) heap'
    | (some (some m), heap') =>
      match forEachLineOn limit U lines ref rest (index + 1) heap' with
      | (none, heap'') => (none, heap'')
      | (some found, heap'') =>
        (some ({ line := index + 1, column := m.index, text := trim line,
                 context := getLineContext lines index 2 } :: found), heap'')

/-- Find matches in text with context (`findMatchesInText`) as a step on the heap: the
records, or `none` for a thrown exception, and the heap the call leaves behind. -/
def findMatchesInTextOn (limit : Nat) (U : JSString → JSString) (text query : JSString)
    (heap : Heap) : Option (List MatchRecord) × Heap :=
  let lines := splitLF text
  match allocRegExpGI (escapeRegExp query) heap with
  | (none, heap') => (none, heap')
  | (some searchPattern, heap') => forEachLineOn limit U lines searchPattern lines 0 heap'

/-- A sequence of calls `findMatchesInText(text, query)`, each on the heap the one before
left; the results in order and the final heap. -/
def callsOn (limit : Nat) (U : JSString → JSString) :
    List (JSString × JSString) → Heap → List (Option (List MatchRecord)) × Heap
  | [], heap => ([], heap)
  | call :: rest, heap =>
    ((findMatchesInTextOn limit U call.1 call.2 heap).1 ::
        (callsOn limit U rest (findMatchesInTextOn limit U call.1 call.2 heap).2).1,
      (callsOn limit U rest (findMatchesInTextOn limit U call.1 call.2 heap).2).2)

/-! ## Lemmas on strings -/

theorem startsWith_nil (s : JSString) : startsWith s [] = true := by
  cases s <;> rfl

theorem startsWith_iff_take (s p : JSString) :
    startsWith s p = true ↔ s.take p.length = p ∧ p.length ≤ s.length := by
  induction p generalizing s with
  | nil => simp [startsWith_nil]
  | cons a p ih =>
    cases s with
    | nil => simp [startsWith]
    | cons c s =>
      simp only [startsWith, Bool.and_eq_true, beq_iff_eq, ih, List.length_cons, List.take_succ_cons,
        List.cons.injEq, Nat.add_le_add_iff_right]
      tauto

theorem includes_false_drop (p : JSString) :
    ∀ (s : JSString), includes s p = false → ∀ j, startsWith (s.drop j) p = false
  | [], h, j => by
    cases p with
    | nil => simp [includes] at h
    | cons a p => simp [startsWith]
  | c :: cs, h, j => by
    simp only [includes, Bool.or_eq_false_iff] at h
    cases j with
    | zero => simpa using h.1
    | succ j => simpa using includes_false_drop p cs h.2 j

theorem includes_of_startsWith_drop (p : JSString) :
    ∀ (s : JSString) (j : Nat), startsWith (s.drop j) p = true → includes s p = true
  | [], j, h => by
    cases p with
    | nil => rfl
    | cons a p => simp [startsWith] at h
  | c :: cs, 0, h => by
    simp only [List.drop_zero] at h
    simp [includes, h]
  | c :: cs, j + 1, h => by
    simp only [List.drop_succ_cons] at h
    simp [includes, includes_of_startsWith_drop p cs j h]

theorem indexOfFrom_none (p : JSString) :
    ∀ (s : JSString) (i : Nat), indexOfFrom p s i = none ↔ includes s p = false
  | [], i => by
    cases p <;> simp [indexOfFrom, includes, startsWith]
  | c :: cs, i => by
    by_cases h : startsWith (c :: cs) p = true
    · simp [indexOfFrom, includes, h]
    · simp only [Bool.not_eq_true] at h
      simp [indexOfFrom, includes, h, indexOfFrom_none p cs (i + 1)]

theorem indexOfFrom_some (p : JSString) :
    ∀ (s : JSString) (i k : Nat), indexOfFrom p s i = some k →
      i ≤ k ∧ k - i ≤ s.length ∧ startsWith (s.drop (k - i)) p = true ∧
        ∀ j, j < k - i → startsWith (s.drop j) p = false
  | [], i, k, h => by
    by_cases hp : startsWith [] p = true
    · simp only [indexOfFrom, hp, if_true, Option.some.injEq] at h
      subst h
      simp [hp]
    · simp [indexOfFrom, hp] at h
  | c :: cs, i, k, h => by
    by_cases hp : startsWith (c :: cs) p = true
    · simp only [indexOfFrom, hp, if_true, Option.some.injEq] at h
      subst h
      simp [hp]
    · have hp' : startsWith (c :: cs) p = false := by simpa using hp
      simp only [indexOfFrom, hp', Bool.false_eq_true, if_false] at h
      obtain ⟨h1, h2, h3, h4⟩ := indexOfFrom_some p cs (i + 1) k h
      have hk : k - i = (k - (i + 1)) + 1 := by omega
      refine ⟨by omega, by simp only [List.length_cons]; omega, ?_, ?_⟩
      · rw [hk, List.drop_succ_cons]; exact h3
      · intro j hj
        cases j with
        | zero => simpa using hp'
        | succ j =>
          rw [List.drop_succ_cons]
          exact h4 j (by omega)

/-! ## Lemmas on the literal pattern -/

theorem parsePattern_escapeRegExp (q : JSString) :
    parsePattern (escapeRegExp q) = some (q.map litNode) := by
  induction q with
  | nil => rfl
  | cons c q ih =>
    have hcons : escapeRegExp (c :: q) =
        (if isSyntaxChar c then [92, c] else [c]) ++ escapeRegExp q := by
      simp [escapeRegExp]
    rw [hcons]
    by_cases h : isSyntaxChar c = true
    · simp [h, parsePattern, ih, litNode]
    · have hc : c ≠ 92 := by
        intro h92
        subst h92
        exact h (by decide)
      simp only [h, Bool.false_eq_true, if_false, List.singleton_append]
      cases hq : escapeRegExp q with
      | nil =>
        rw [hq] at ih
        simp only [parsePattern, Option.some.injEq] at ih
        simp [parsePattern, h, ← ih, litNode]
      | cons d rest =>
        rw [hq] at ih
        simp [parsePattern, h, hc, ih, litNode]

theorem newRegExpGI_escapeRegExp (q : JSString) :
    newRegExpGI (escapeRegExp q) = some (litRegExp q 0) := by
  simp [newRegExpGI, parsePattern_escapeRegExp, litRegExp]

theorem matchNodes_lits (U : JSString → JSString) (q : JSString) :
    ∀ s : JSString, matchNodes U true (q.map litNode) s =
      if startsWith (canonStr U s) (canonStr U q) then some ⟨q.length, none⟩ else none := by
  induction q with
  | nil => intro s; simp [matchNodes, canonStr, startsWith_nil]
  | cons a q ih =>
    intro s
    cases s with
    | nil => simp [matchNodes, litNode, canonStr, startsWith]
    | cons c s =>
      simp only [List.map_cons, matchNodes, litNode, CharSet.test, if_true, canonStr, startsWith]
      have ih' := ih s
      simp only [litNode, canonStr] at ih'
      by_cases hc : Canonicalize U c = Canonicalize U a
      · simp only [hc, beq_self_eq_true, if_true, ih', Bool.true_and]
        split <;> simp [PrefixMatch.push, Nat.add_comm]
      · simp [hc]

theorem search_lits (U : JSString → JSString) (q : JSString) :
    ∀ (s : JSString) (i : Nat), search U true (q.map litNode) s i =
      (indexOfFrom (canonStr U q) (canonStr U s) i).map fun k => ⟨k, k + q.length, none⟩
  | [], i => by
    simp only [search, matchNodes_lits, indexOfFrom, canonStr, List.map_nil]
    split <;> simp
  | c :: cs, i => by
    simp only [search, matchNodes_lits]
    by_cases h : startsWith (canonStr U (c :: cs)) (canonStr U q) = true
    · have h' := h
      simp only [canonStr, List.map_cons] at h'
      simp [h, indexOfFrom, canonStr, h']
    · have h' := h
      simp only [canonStr, List.map_cons] at h'
      simp [h, indexOfFrom, canonStr, h', search_lits U q cs (i + 1)]

theorem exec_lits (U : JSString → JSString) (q line : JSString) (li : Nat) :
    (litRegExp q li).exec U line =
      if line.length < li then (none, litRegExp q 0)
      else
        match indexOfFrom (canonStr U q) ((canonStr U line).drop li) li with
        | none => (none, litRegExp q 0)
        | some k => (some ⟨k, k + q.length, none⟩, litRegExp q (k + q.length)) := by
  simp only [RegExp.exec, litRegExp, if_true, search_lits]
  split
  · rfl
  · have hd : canonStr U (List.drop li line) = List.drop li (canonStr U line) := by
      simp [canonStr, List.map_drop]
    rw [hd]
    cases indexOfFrom (canonStr U q) (List.drop li (canonStr U line)) li <;> simp

/-! ## Lemmas on canonicalisation -/

theorem canonicalize_ascii {U : JSString → JSString} (hU : AsciiFaithful U) {c : Nat}
    (hc : c < 128) : Canonicalize U c = asciiUpper c := by
  have h : ¬ (128 ≤ c) := by omega
  simp [Canonicalize, hU c hc, h]

theorem canonicalize_ge (U : JSString → JSString) {c : Nat} (hc : 128 ≤ c) :
    128 ≤ Canonicalize U c := by
  unfold Canonicalize
  split
  · split <;> omega
  · exact hc

theorem canonicalize_asciiToUpperCase (c : Nat) :
    Canonicalize asciiToUpperCase c = asciiUpper c := by
  simp only [Canonicalize, asciiToUpperCase, List.map_cons, List.map_nil]
  unfold asciiUpper
  split <;> split <;> first | rfl | omega

theorem asciiFaithful_asciiToUpperCase : AsciiFaithful asciiToUpperCase := by
  intro c _
  rfl

theorem canonicalize_eq_of_asciiUpper_eq {U : JSString → JSString} (hU : AsciiFaithful U)
    {a b : Nat} (h : asciiUpper a = asciiUpper b) : Canonicalize U a = Canonicalize U b := by
  by_cases hab : a = b
  · rw [hab]
  · have ha : a < 128 := by unfold asciiUpper at h; split at h <;> split at h <;> omega
    have hb : b < 128 := by unfold asciiUpper at h; split at h <;> split at h <;> omega
    rw [canonicalize_ascii hU ha, canonicalize_ascii hU hb, h]

theorem canonStr_eq_of_asciiUpper_eq {U : JSString → JSString} (hU : AsciiFaithful U) :
    ∀ {s t : JSString}, s.map asciiUpper = t.map asciiUpper → canonStr U s = canonStr U t
  | [], [], _ => rfl
  | [], _ :: _, h => by simp at h
  | _ :: _, [], h => by simp at h
  | a :: s, b :: t, h => by
    simp only [List.map_cons, List.cons.injEq] at h
    simp only [canonStr, List.map_cons, List.cons.injEq]
    exact ⟨canonicalize_eq_of_asciiUpper_eq hU h.1, canonStr_eq_of_asciiUpper_eq hU h.2⟩

theorem canonStr_ascii {U : JSString → JSString} (hU : AsciiFaithful U) (s : JSString)
    (hs : ∀ c ∈ s, c < 128) : canonStr U s = canonStr asciiToUpperCase s := by
  simp only [canonStr]
  apply List.map_congr_left
  intro c hc
  rw [canonicalize_ascii hU (hs c hc), canonicalize_asciiToUpperCase]

theorem canonicalize_eq_syntaxChar {U : JSString → JSString} (hU : AsciiFaithful U)
    {a m : Nat} (hm : isSyntaxChar m = true) (h : Canonicalize U a = Canonicalize U m) :
    a = m := by
  have hm' : m = 46 ∨ m = 42 ∨ m = 43 ∨ m = 63 ∨ m = 94 ∨ m = 36 ∨ m = 123 ∨ m = 125 ∨
      m = 40 ∨ m = 41 ∨ m = 124 ∨ m = 91 ∨ m = 93 ∨ m = 92 := by
    simpa [isSyntaxChar, or_assoc] using hm
  have hm128 : m < 128 := by omega
  have hmu : asciiUpper m = m := by unfold asciiUpper; split <;> omega
  rw [canonicalize_ascii hU hm128, hmu] at h
  by_cases ha : a < 128
  · rw [canonicalize_ascii hU ha] at h
    unfold asciiUpper at h
    split at h <;> omega
  · have := canonicalize_ge U (c := a) (by omega)
    omega

theorem canonStr_eq_syntaxChars {U : JSString → JSString} (hU : AsciiFaithful U) :
    ∀ {x q : JSString}, (∀ c ∈ q, isSyntaxChar c = true) → canonStr U x = canonStr U q → x = q
  | [], [], _, _ => rfl
  | [], _ :: _, _, h => by simp [canonStr] at h
  | _ :: _, [], _, h => by simp [canonStr] at h
  | a :: x, m :: q, hq, h => by
    simp only [canonStr, List.map_cons, List.cons.injEq] at h
    have h1 := canonicalize_eq_syntaxChar hU (hq m (by simp)) h.1
    have h2 := canonStr_eq_syntaxChars hU (fun c hc => hq c (by simp [hc])) h.2
    rw [h1, h2]

/-! ## Lemmas on `split('\n')` -/

theorem splitLFAux_map (f : Nat → Nat) (hf : ∀ c, f c = 10 ↔ c = 10) :
    ∀ (text cur : JSString),
      splitLFAux (text.map f) (cur.map f) = (splitLFAux text cur).map (List.map f)
  | [], cur => by simp [splitLFAux]
  | c :: cs, cur => by
    by_cases h : c = 10
    · have h' : f c = 10 := (hf c).2 h
      have := splitLFAux_map f hf cs []
      simp only [List.map_nil] at this
      subst h
      simp [splitLFAux, h', this]
    · have h' : ¬ f c = 10 := fun e => h ((hf c).1 e)
      have := splitLFAux_map f hf cs (c :: cur)
      simp only [List.map_cons] at this
      simp [splitLFAux, h, h', this]

theorem splitLF_map (f : Nat → Nat) (hf : ∀ c, f c = 10 ↔ c = 10) (text : JSString) :
    splitLF (text.map f) = (splitLF text).map (List.map f) := by
  simpa [splitLF] using splitLFAux_map f hf text []

theorem asciiUpper_eq_ten (c : Nat) : asciiUpper c = 10 ↔ c = 10 := by
  unfold asciiUpper
  split <;> omega

theorem splitLFAux_all (P : Nat → Prop) :
    ∀ (text cur : JSString), (∀ c ∈ text, P c) → (∀ c ∈ cur, P c) →
      ∀ l ∈ splitLFAux text cur, ∀ c ∈ l, P c
  | [], cur, _, hc, l, hl, c, hcl => by
    simp only [splitLFAux, List.mem_singleton] at hl
    subst hl
    exact hc c (by simpa using hcl)
  | a :: cs, cur, ht, hc, l, hl, c, hcl => by
    have hcs : ∀ c ∈ cs, P c := fun c h => ht c (by simp [h])
    by_cases h : a = 10
    · simp only [splitLFAux, h, if_true, List.mem_cons] at hl
      rcases hl with hl | hl
      · subst hl
        exact hc c (by simpa using hcl)
      · exact splitLFAux_all P cs [] hcs (by simp) l hl c hcl
    · simp only [splitLFAux, h, if_false] at hl
      refine splitLFAux_all P cs (a :: cur) hcs ?_ l hl c hcl
      intro c hc'
      rcases List.mem_cons.1 hc' with e | e
      · rw [e]; exact ht a (by simp)
      · exact hc c e

theorem splitLF_all (P : Nat → Prop) (text : JSString) (h : ∀ c ∈ text, P c) :
    ∀ l ∈ splitLF text, ∀ c ∈ l, P c :=
  splitLFAux_all P text [] h (by simp)

theorem splitLFAux_ne_nil : ∀ (text cur : JSString), splitLFAux text cur ≠ []
  | [], cur => by simp [splitLFAux]
  | c :: cs, cur => by
    by_cases h : c = 10
    · simp [splitLFAux, h]
    · simpa [splitLFAux, h] using splitLFAux_ne_nil cs (c :: cur)

/-! ## Lemmas on the `forEach` loop -/

theorem forEachLine_lits_cons (U : JSString → JSString) (lines : List JSString)
    (line : JSString) (rest : List JSString) (idx : Nat) (q : JSString) (li : Nat) :
    forEachLine U lines (line :: rest) idx (litRegExp q li) =
      if line.length < li then forEachLine U lines rest (idx + 1) (litRegExp q 0)
      else
        match indexOfFrom (canonStr U q) ((canonStr U line).drop li) li with
        | none => forEachLine U lines rest (idx + 1) (litRegExp q 0)
        | some k =>
          { line := idx + 1, column := k, text := trim line,
            context := getLineContext lines idx 2 } ::
            forEachLine U lines rest (idx + 1) (litRegExp q (k + q.length)) := by
  simp only [forEachLine, exec_lits]
  by_cases hlen : line.length < li
  · simp only [hlen, if_true]
  · simp only [hlen, if_false]
    cases indexOfFrom (canonStr U q) (List.drop li (canonStr U line)) li <;> rfl

theorem findMatchesInText_eq (U : JSString → JSString) (text query : JSString) :
    findMatchesInText U text query =
      some (forEachLine U (splitLF text) (splitLF text) 0 (litRegExp query 0)) := by
  simp [findMatchesInText, newRegExpGI_escapeRegExp]

theorem forEachLine_line_gt (U : JSString → JSString) (lines : List JSString) :
    ∀ (rest : List JSString) (idx : Nat) (re : RegExp),
      ∀ r ∈ forEachLine U lines rest idx re, idx < r.line ∧ r.line ≤ idx + rest.length
  | [], _, _, r, hr => by simp [forEachLine] at hr
  | line :: rest, idx, re, r, hr => by
    rcases h : re.exec U line with ⟨o, re'⟩
    cases o with
    | none =>
      simp only [forEachLine, h] at hr
      have := forEachLine_line_gt U lines rest (idx + 1) re' r hr
      simp only [List.length_cons]
      omega
    | some m =>
      simp only [forEachLine, h, List.mem_cons] at hr
      rcases hr with hr | hr
      · subst hr
        simp
      · have := forEachLine_line_gt U lines rest (idx + 1) re' r hr
        simp only [List.length_cons]
        omega

theorem forEachLine_pairwise (U : JSString → JSString) (lines : List JSString) :
    ∀ (rest : List JSString) (idx : Nat) (re : RegExp),
      (forEachLine U lines rest idx re).Pairwise fun a b => a.line < b.line
  | [], _, _ => by simp [forEachLine]
  | line :: rest, idx, re => by
    rcases h : re.exec U line with ⟨o, re'⟩
    cases o with
    | none =>
      simp only [forEachLine, h]
      exact forEachLine_pairwise U lines rest (idx + 1) re'
    | some m =>
      simp only [forEachLine, h, List.pairwise_cons]
      refine ⟨?_, forEachLine_pairwise U lines rest (idx + 1) re'⟩
      intro r hr
      have := forEachLine_line_gt U lines rest (idx + 1) re' r hr
      show idx + 1 < r.line
      omega

theorem forEachLine_length_le (U : JSString → JSString) (lines : List JSString) :
    ∀ (rest : List JSString) (idx : Nat) (re : RegExp),
      (forEachLine U lines rest idx re).length ≤ rest.length
  | [], _, _ => by simp [forEachLine]
  | line :: rest, idx, re => by
    rcases h : re.exec U line with ⟨o, re'⟩
    have := forEachLine_length_le U lines rest (idx + 1) re'
    cases o with
    | none =>
      simp only [forEachLine, h, List.length_cons]
      omega
    | some m =>
      simp only [forEachLine, h, List.length_cons]
      omega

theorem forEachLine_sound (U : JSString → JSString) (lines : List JSString) (q : JSString) :
    ∀ (rest : List JSString) (idx li : Nat),
      ∀ r ∈ forEachLine U lines rest idx (litRegExp q li),
        ∃ j line, rest[j]? = some line ∧ r.line = idx + j + 1 ∧ r.text = trim line ∧
          r.context = getLineContext lines (idx + j) 2 ∧
          r.column + q.length ≤ line.length ∧
          canonStr U ((line.drop r.column).take q.length) = canonStr U q
  | [], _, _, r, hr => by simp [forEachLine] at hr
  | line :: rest, idx, li, r, hr => by
    have tail : ∀ li', r ∈ forEachLine U lines rest (idx + 1) (litRegExp q li') →
        ∃ j line', (line :: rest)[j]? = some line' ∧ r.line = idx + j + 1 ∧
          r.text = trim line' ∧ r.context = getLineContext lines (idx + j) 2 ∧
          r.column + q.length ≤ line'.length ∧
          canonStr U ((line'.drop r.column).take q.length) = canonStr U q := by
      intro li' h
      obtain ⟨j, line', h1, h2, h3, h4, h5⟩ := forEachLine_sound U lines q rest (idx + 1) li' r h
      refine ⟨j + 1, line', by simpa using h1, by omega, h3, ?_, h5⟩
      rw [h4]
      congr 1
      omega
    rw [forEachLine_lits_cons] at hr
    split at hr
    · exact tail _ hr
    · rename_i hlen
      split at hr
      · exact tail _ hr
      · rename_i k hk
        rcases List.mem_cons.1 hr with hr | hr
        · subst hr
          obtain ⟨h1, h2, h3, -⟩ := indexOfFrom_some _ _ _ _ hk
          rw [List.drop_drop] at h3
          have hk' : li + (k - li) = k := by omega
          have e : k - li + li = k := by omega
          simp only [Nat.add_comm, hk', e] at h3
          obtain ⟨h3a, h3b⟩ := (startsWith_iff_take _ _).1 h3
          simp only [canonStr, List.length_map, List.length_drop] at h3a h3b h2
          refine ⟨0, line, by simp, rfl, rfl, rfl, ?_, ?_⟩
          · show k + q.length ≤ line.length
            omega
          · show canonStr U ((line.drop k).take q.length) = canonStr U q
            simp only [canonStr, List.map_take, List.map_drop]
            exact h3a
        · exact tail _ hr

theorem includes_drop_false (p s : JSString) (h : includes s p = false) (n : Nat) :
    includes (s.drop n) p = false := by
  cases hd : includes (s.drop n) p with
  | false => rfl
  | true =>
    have key : ∀ t : JSString, includes t p = true → ∃ j, startsWith (t.drop j) p = true := by
      intro t ht
      by_contra hne
      have hall : ∀ j, startsWith (t.drop j) p = false := by
        intro j
        cases hj : startsWith (t.drop j) p with
        | false => rfl
        | true => exact absurd ⟨j, hj⟩ hne
      have h0 : indexOfFrom p t 0 ≠ none := by
        rw [Ne, indexOfFrom_none]
        simp [ht]
      cases hk : indexOfFrom p t 0 with
      | none => exact h0 hk
      | some k =>
        obtain ⟨-, -, h3, -⟩ := indexOfFrom_some p t 0 k hk
        rw [hall] at h3
        exact Bool.false_ne_true h3
    obtain ⟨j, hj⟩ := key _ hd
    rw [List.drop_drop] at hj
    rw [includes_false_drop p s h] at hj
    exact absurd hj Bool.false_ne_true

theorem forEachLine_eq_nil (U : JSString → JSString) (lines : List JSString) (q : JSString) :
    ∀ (rest : List JSString) (idx li : Nat),
      (∀ l ∈ rest, includes (canonStr U l) (canonStr U q) = false) →
        forEachLine U lines rest idx (litRegExp q li) = []
  | [], _, _, _ => rfl
  | line :: rest, idx, li, h => by
    have hrest : ∀ li', forEachLine U lines rest (idx + 1) (litRegExp q li') = [] :=
      fun li' => forEachLine_eq_nil U lines q rest (idx + 1) li' fun l hl => h l (by simp [hl])
    have hnone : indexOfFrom (canonStr U q) ((canonStr U line).drop li) li = none :=
      (indexOfFrom_none _ _ _).2 (includes_drop_false _ _ (h line (by simp)) li)
    rw [forEachLine_lits_cons, hnone]
    simp [hrest]

theorem forEachLine_congr (U U' : JSString → JSString) (lines : List JSString) (q q' : JSString)
    (hq : canonStr U q = canonStr U' q') :
    ∀ (rest : List JSString) (idx li : Nat), (∀ l ∈ rest, canonStr U l = canonStr U' l) →
      forEachLine U lines rest idx (litRegExp q li) =
        forEachLine U' lines rest idx (litRegExp q' li)
  | [], _, _, _ => rfl
  | line :: rest, idx, li, h => by
    have hrest : ∀ li', forEachLine U lines rest (idx + 1) (litRegExp q li') =
        forEachLine U' lines rest (idx + 1) (litRegExp q' li') :=
      fun li' => forEachLine_congr U U' lines q q' hq rest (idx + 1) li'
        fun l hl => h l (by simp [hl])
    have hlen : q.length = q'.length := by
      have := congrArg List.length hq
      simpa [canonStr] using this
    rw [forEachLine_lits_cons, forEachLine_lits_cons, hq, h line (by simp), hlen]
    simp only [hrest]

theorem forEachLine_congr_positions (U U' : JSString → JSString) (lines lines' : List JSString)
    (q q' : JSString) (hq : canonStr U q = canonStr U' q') :
    ∀ (rest rest' : List JSString) (idx li : Nat),
      List.Forall₂ (fun a b => canonStr U a = canonStr U' b) rest rest' →
        (forEachLine U lines rest idx (litRegExp q li)).map (fun r => (r.line, r.column)) =
          (forEachLine U' lines' rest' idx (litRegExp q' li)).map (fun r => (r.line, r.column))
  | [], [], _, _, _ => rfl
  | [], _ :: _, _, _, h => by cases h
  | _ :: _, [], _, _, h => by cases h
  | line :: rest, line' :: rest', idx, li, h => by
    rw [List.forall₂_cons] at h
    have hrest := fun li' =>
      forEachLine_congr_positions U U' lines lines' q q' hq rest rest' (idx + 1) li' h.2
    have hlen : q.length = q'.length := by
      have := congrArg List.length hq
      simpa [canonStr] using this
    have hl : line.length = line'.length := by
      have := congrArg List.length h.1
      simpa [canonStr] using this
    rw [forEachLine_lits_cons, forEachLine_lits_cons, hq, h.1, hlen, hl]
    split
    · exact hrest _
    · split
      · exact hrest _
      · simp only [List.map_cons, hrest]

/-! ## Lemmas on `getLineContext` -/

theorem slice_nat {α : Type} (xs : List α) (a b : Nat) (hab : a ≤ b) (hb : b ≤ xs.length) :
    slice xs (a : Int) (b : Int) = (xs.drop a).take (b - a) := by
  have h1 : ¬ ((a : Int) < 0) := by omega
  have h2 : ¬ ((b : Int) < 0) := by omega
  have h3 : min (a : Int) (xs.length : Int) = (a : Int) := by omega
  have h4 : min (b : Int) (xs.length : Int) = (b : Int) := by omega
  simp only [slice, h1, h2, if_false, h3, h4, Int.toNat_ofNat]
  congr 1
  omega

theorem getLineContext_spec (lines : List JSString) (i : Nat) (hi : i < lines.length) :
    (getLineContext lines i 2).current = lines[i]? ∧
      (getLineContext lines i 2).before = (lines.drop (i - 2)).take (min i 2) ∧
      (getLineContext lines i 2).after =
        (lines.drop (i + 1)).take (min 2 (lines.length - 1 - i)) := by
  have e1 : max (0 : Int) ((i : Int) - ((2 : Nat) : Int)) = ((i - 2 : Nat) : Int) := by omega
  have e2 : min (lines.length : Int) ((i : Int) + ((2 : Nat) : Int) + 1) =
      ((min lines.length (i + 3) : Nat) : Int) := by omega
  have e3 : (i : Int) + 1 = ((i + 1 : Nat) : Int) := by omega
  refine ⟨rfl, ?_, ?_⟩
  · show slice lines (max (0 : Int) ((i : Int) - ((2 : Nat) : Int))) (i : Int) = _
    rw [e1, slice_nat lines (i - 2) i (by omega) (by omega)]
    congr 1
    omega
  · show slice lines ((i : Int) + 1) (min (lines.length : Int) ((i : Int) + ((2 : Nat) : Int) + 1))
      = _
    rw [e2, e3, slice_nat lines (i + 1) (min lines.length (i + 3)) (by omega) (by omega)]
    congr 1
    omega

/-! ## The text matcher: shared facts -/

theorem findMatchesInText_ascii {U : JSString → JSString} (hU : AsciiFaithful U)
    (text query : JSString) (ht : ∀ c ∈ text, c < 128) (hq : ∀ c ∈ query, c < 128) :
    findMatchesInText U text query = findMatchesInText asciiToUpperCase text query := by
  rw [findMatchesInText_eq, findMatchesInText_eq]
  congr 1
  apply forEachLine_congr U asciiToUpperCase _ query query (canonStr_ascii hU query hq)
  intro l hl
  exact canonStr_ascii hU l (splitLF_all (fun c => c < 128) text ht l hl)

theorem findMatchesInText_records (U : JSString → JSString) (text query : JSString) :
    ∃ rs, findMatchesInText U text query = some rs ∧
      ∀ r ∈ rs, ∃ j line, (splitLF text)[j]? = some line ∧ r.line = j + 1 ∧
        r.text = trim line ∧ r.context = getLineContext (splitLF text) j 2 ∧
        r.column + query.length ≤ line.length ∧
        canonStr U ((line.drop r.column).take query.length) = canonStr U query := by
  refine ⟨_, findMatchesInText_eq U text query, ?_⟩
  intro r hr
  obtain ⟨j, line, h1, h2, h3, h4, h5⟩ :=
    forEachLine_sound U (splitLF text) query (splitLF text) 0 0 r hr
  refine ⟨j, line, h1, by omega, h3, ?_, h5⟩
  rw [h4]
  congr 1
  omega

/-! ## Claims on the text matcher -/

/-- C1 (the code breaks the claim). Line 2 of `"a score\nscore"` contains the query
`"score"`, but the match on line 1 leaves `lastIndex = 7` in the shared global `RegExp`;
that is beyond the end of line 2, so `exec` returns `null` there and only resets
`lastIndex`. The only record is the one of line 1. -/
theorem findMatchesInText_misses_line_after_match :
    (splitLF (utf16 "a score\nscore"))[1]? = some (utf16 "score") ∧
      includes (utf16 "score") (utf16 "score") = true ∧
      positions (findMatchesInText asciiToUpperCase (utf16 "a score\nscore") (utf16 "score")) =
        some [(1, 2)] := by
  decide

/-- C2 (the code breaks the claim). In `"score\nscore score"` the leftmost occurrence of
`"score"` in line 2 is at offset 0, but `exec` resumes at the `lastIndex = 5` left by
line 1 and reports column 6. -/
theorem findMatchesInText_column_not_leftmost :
    (splitLF (utf16 "score\nscore score"))[1]? = some (utf16 "score score") ∧
      indexOfFrom (canonStr asciiToUpperCase (utf16 "score"))
        (canonStr asciiToUpperCase (utf16 "score score")) 0 = some 0 ∧
      positions (findMatchesInText asciiToUpperCase (utf16 "score\nscore score")
        (utf16 "score")) = some [(1, 0), (2, 6)] := by
  decide

set_option maxRecDepth 100000 in
/-- C3, counterexample. On the scenario document the records of `findMatchesInText` for
`"score"` are not on lines 2 and 3: they are on lines 1 and 3. -/
theorem scenario_lines_not_two_three :
    (findMatchesInText asciiToUpperCase scenarioText scenarioQuery).map
        (fun rs => rs.map fun r => r.line) = some [1, 3] ∧
      (findMatchesInText asciiToUpperCase scenarioText scenarioQuery).map
        (fun rs => rs.map fun r => r.line) ≠ some [2, 3] := by
  decide

set_option maxRecDepth 100000 in
/-- C3, amended. On the scenario document and query `"score"`, `findMatchesInText` returns a
record for line 1 at column 18 (the `Score` of `getScore`, matched case-insensitively) and
a record for line 3 at column 11, and no record for line 4. -/
theorem scenario_matches (U : JSString → JSString) (hU : AsciiFaithful U) :
    ∃ ps, positions (findMatchesInText U scenarioText scenarioQuery) = some ps ∧
      (1, 18) ∈ ps ∧ (3, 11) ∈ ps ∧ ∀ p ∈ ps, p.1 ≠ 4 := by
  rw [findMatchesInText_ascii hU scenarioText scenarioQuery (by decide) (by decide)]
  exact ⟨[(1, 18), (3, 11)], by decide, by decide, by decide, by decide⟩

/-- C3, amended: the statement at the ASCII case table. -/
theorem scenario_matches_witness :
    AsciiFaithful asciiToUpperCase ∧
      ∃ ps, positions (findMatchesInText asciiToUpperCase scenarioText scenarioQuery) = some ps ∧
        (1, 18) ∈ ps ∧ (3, 11) ∈ ps ∧ ∀ p ∈ ps, p.1 ≠ 4 :=
  ⟨asciiFaithful_asciiToUpperCase, scenario_matches asciiToUpperCase asciiFaithful_asciiToUpperCase⟩

/-- C4. The query is matched as a literal string. Every record for the query `"."` has a
literal `.` at its column in its line; `"abc"` gives no record and `"a.b.c"` gives one
record, line 1 column 1; and for every query made of regex metacharacters each record
points at an exact occurrence of the query in its line. -/
theorem findMatchesInText_literal (U : JSString → JSString) (hU : AsciiFaithful U) :
    (∀ text, ∃ rs, findMatchesInText U text (utf16 ".") = some rs ∧
        ∀ r ∈ rs, ∃ ln, (splitLF text)[r.line - 1]? = some ln ∧ ln[r.column]? = some 46) ∧
      findMatchesInText U (utf16 "abc") (utf16 ".") = some [] ∧
      positions (findMatchesInText U (utf16 "a.b.c") (utf16 ".")) = some [(1, 1)] ∧
      ∀ query, (∀ c ∈ query, isSyntaxChar c = true) →
        ∀ text, ∃ rs, findMatchesInText U text query = some rs ∧
          ∀ r ∈ rs, ∃ line, (splitLF text)[r.line - 1]? = some line ∧
            (line.drop r.column).take query.length = query ∧ includes line query = true := by
  have general : ∀ query, (∀ c ∈ query, isSyntaxChar c = true) →
      ∀ text, ∃ rs, findMatchesInText U text query = some rs ∧
        ∀ r ∈ rs, ∃ line, (splitLF text)[r.line - 1]? = some line ∧
          (line.drop r.column).take query.length = query ∧ includes line query = true := by
    intro query hq text
    obtain ⟨rs, hrs, h⟩ := findMatchesInText_records U text query
    refine ⟨rs, hrs, ?_⟩
    intro r hr
    obtain ⟨j, line, h1, h2, -, -, h5, h6⟩ := h r hr
    have hx := canonStr_eq_syntaxChars hU hq h6
    refine ⟨line, by rw [h2]; simpa using h1, hx, ?_⟩
    apply includes_of_startsWith_drop query line r.column
    rw [startsWith_iff_take]
    refine ⟨hx, ?_⟩
    rw [List.length_drop]
    omega
  refine ⟨?_, ?_, ?_, general⟩
  · intro text
    have hdot : utf16 "." = [46] := by decide
    obtain ⟨rs, hrs, h⟩ := general [46] (by decide) text
    refine ⟨rs, by rw [hdot]; exact hrs, ?_⟩
    intro r hr
    obtain ⟨line, h1, h2, -⟩ := h r hr
    refine ⟨line, h1, ?_⟩
    have h3 := congrArg (fun l : List Nat => l[0]?) h2
    simpa [List.getElem?_take, List.getElem?_drop] using h3
  · rw [findMatchesInText_ascii hU _ _ (by decide) (by decide)]
    decide
  · rw [findMatchesInText_ascii hU _ _ (by decide) (by decide)]
    decide

/-- C4 at the ASCII case table and the query `"$("`. -/
theorem findMatchesInText_literal_witness :
    AsciiFaithful asciiToUpperCase ∧ (∀ c ∈ utf16 "$(", isSyntaxChar c = true) ∧
      ∃ rs, findMatchesInText asciiToUpperCase (utf16 "a$(b\nxy") (utf16 "$(") = some rs ∧
        ∀ r ∈ rs, ∃ line, (splitLF (utf16 "a$(b\nxy"))[r.line - 1]? = some line ∧
          (line.drop r.column).take (utf16 "$(").length = utf16 "$(" ∧
          includes line (utf16 "$(") = true :=
  ⟨asciiFaithful_asciiToUpperCase, by decide,
    (findMatchesInText_literal asciiToUpperCase asciiFaithful_asciiToUpperCase).2.2.2
      (utf16 "$(") (by decide) (utf16 "a$(b\nxy")⟩

/-- C5. Case-insensitivity: a query that differs only in ASCII letter case gives the same
records; a text that differs only in ASCII letter case gives records with the same lines
and columns; and `"hello"` is found in `"Hello World"` once, on line 1 at column 0. -/
theorem findMatchesInText_case_insensitive (U : JSString → JSString) (hU : AsciiFaithful U) :
    (∀ text query query', query.map asciiUpper = query'.map asciiUpper →
        findMatchesInText U text query = findMatchesInText U text query') ∧
      (∀ text text' query, text.map asciiUpper = text'.map asciiUpper →
        positions (findMatchesInText U text query) =
          positions (findMatchesInText U text' query)) ∧
      positions (findMatchesInText U (utf16 "Hello World") (utf16 "hello")) = some [(1, 0)] := by
  refine ⟨?_, ?_, ?_⟩
  · intro text query query' h
    rw [findMatchesInText_eq, findMatchesInText_eq]
    congr 1
    exact forEachLine_congr U U _ query query' (canonStr_eq_of_asciiUpper_eq hU h) _ 0 0
      (fun _ _ => rfl)
  · intro text text' query h
    rw [findMatchesInText_eq, findMatchesInText_eq]
    simp only [positions, Option.map_some']
    congr 1
    apply forEachLine_congr_positions U U _ _ query query rfl
    have hmap : (splitLF text).map (List.map asciiUpper) =
        (splitLF text').map (List.map asciiUpper) := by
      rw [← splitLF_map asciiUpper asciiUpper_eq_ten, ← splitLF_map asciiUpper asciiUpper_eq_ten, h]
    have hf : List.Forall₂ (fun a b : JSString => a.map asciiUpper = b.map asciiUpper)
        (splitLF text) (splitLF text') := by
      rw [← List.forall₂_eq_eq_eq, List.forall₂_map_left_iff, List.forall₂_map_right_iff] at hmap
      exact hmap
    exact hf.imp fun _ _ hab => canonStr_eq_of_asciiUpper_eq hU hab
  · rw [findMatchesInText_ascii hU _ _ (by decide) (by decide)]
    decide

/-- C5 at the ASCII case table, the queries `"hello"` / `"HeLLo"` and the texts
`"Hello World"` / `"hELLO wORLD"`. -/
theorem findMatchesInText_case_insensitive_witness :
    AsciiFaithful asciiToUpperCase ∧
      (utf16 "hello").map asciiUpper = (utf16 "HeLLo").map asciiUpper ∧
      (utf16 "Hello World").map asciiUpper = (utf16 "hELLO wORLD").map asciiUpper ∧
      findMatchesInText asciiToUpperCase (utf16 "Hello World") (utf16 "hello") =
        findMatchesInText asciiToUpperCase (utf16 "Hello World") (utf16 "HeLLo") ∧
      positions (findMatchesInText asciiToUpperCase (utf16 "Hello World") (utf16 "hello")) =
        positions (findMatchesInText asciiToUpperCase (utf16 "hELLO wORLD") (utf16 "hello")) :=
  ⟨asciiFaithful_asciiToUpperCase, by decide, by decide,
    (findMatchesInText_case_insensitive asciiToUpperCase asciiFaithful_asciiToUpperCase).1
      (utf16 "Hello World") (utf16 "hello") (utf16 "HeLLo") (by decide),
    (findMatchesInText_case_insensitive asciiToUpperCase asciiFaithful_asciiToUpperCase).2.1
      (utf16 "Hello World") (utf16 "hELLO wORLD") (utf16 "hello") (by decide)⟩

/-- C6. Match records are sound and in bounds: every record's line number is between 1 and
the number of lines, its column plus the query length stays within that line, the code
units at the column equal the query case-insensitively, and `text` is the trimmed line. -/
theorem findMatchesInText_records_in_bounds (U : JSString → JSString) (text query : JSString) :
    ∃ rs, findMatchesInText U text query = some rs ∧
      ∀ r ∈ rs, 1 ≤ r.line ∧ r.line ≤ (splitLF text).length ∧ 0 ≤ r.column ∧
        ∃ ln, (splitLF text)[r.line - 1]? = some ln ∧
          r.column + query.length ≤ ln.length ∧
          canonStr U ((ln.drop r.column).take query.length) = canonStr U query ∧
          r.text = trim ln := by
  obtain ⟨rs, hrs, h⟩ := findMatchesInText_records U text query
  refine ⟨rs, hrs, ?_⟩
  intro r hr
  obtain ⟨j, ln, h1, h2, h3, -, h5, h6⟩ := h r hr
  have hj : j < (splitLF text).length := (List.getElem?_eq_some_iff.1 h1).1
  exact ⟨by omega, by omega, Nat.zero_le _, ln, by rw [h2]; simpa using h1, h5, h6, h3⟩

/-- C7. One record per line, in document order: the line numbers of the records are
strictly increasing, hence pairwise distinct, and there are at most as many records as
lines. -/
theorem findMatchesInText_lines_increasing (U : JSString → JSString) (text query : JSString) :
    ∃ rs, findMatchesInText U text query = some rs ∧
      (rs.map fun r => r.line).Pairwise (fun a b => a < b) ∧
      (rs.map fun r => r.line).Nodup ∧
      rs.length ≤ (splitLF text).length := by
  refine ⟨_, findMatchesInText_eq U text query, ?_, ?_, ?_⟩
  · rw [List.pairwise_map]
    exact forEachLine_pairwise U _ _ 0 _
  · rw [List.Nodup, List.pairwise_map]
    exact (forEachLine_pairwise U _ _ 0 _).imp fun h => Nat.ne_of_lt h
  · exact forEachLine_length_le U _ _ 0 _

/-- C8. Context window: the record of the line at index `i` of a text with `n` lines has
`current` = line `i`, `before` = the `min i 2` lines at indices `max 0 (i - 2) ..  i - 1`
and `after` = the `min 2 (n - 1 - i)` lines at indices `i + 1 .. min (n - 1) (i + 2)`; all
these indices are inside the document and differ from `i`. -/
theorem findMatchesInText_context_window (U : JSString → JSString) (text query : JSString) :
    ∃ rs, findMatchesInText U text query = some rs ∧
      ∀ r ∈ rs, ∃ i, i < (splitLF text).length ∧ r.line = i + 1 ∧
        r.context.current = (splitLF text)[i]? ∧
        r.context.before.length = min i 2 ∧
        (∀ k, k < min i 2 →
          r.context.before[k]? = (splitLF text)[max 0 (i - 2) + k]? ∧ max 0 (i - 2) + k < i) ∧
        r.context.after.length = min 2 ((splitLF text).length - 1 - i) ∧
        (∀ k, k < min 2 ((splitLF text).length - 1 - i) →
          r.context.after[k]? = (splitLF text)[i + 1 + k]? ∧
            i < i + 1 + k ∧ i + 1 + k ≤ min ((splitLF text).length - 1) (i + 2)) := by
  obtain ⟨rs, hrs, h⟩ := findMatchesInText_records U text query
  refine ⟨rs, hrs, ?_⟩
  intro r hr
  obtain ⟨j, ln, h1, h2, -, h4, -, -⟩ := h r hr
  have hj : j < (splitLF text).length := (List.getElem?_eq_some_iff.1 h1).1
  obtain ⟨c1, c2, c3⟩ := getLineContext_spec (splitLF text) j hj
  rw [h4]
  refine ⟨j, hj, h2, c1, ?_, ?_, ?_, ?_⟩
  · rw [c2, List.length_take, List.length_drop]
    omega
  · intro k hk
    refine ⟨?_, by omega⟩
    rw [c2, List.getElem?_take_of_lt hk, List.getElem?_drop]
    congr 1
    omega
  · rw [c3, List.length_take, List.length_drop]
    omega
  · intro k hk
    refine ⟨?_, by omega, by omega⟩
    rw [c3, List.getElem?_take_of_lt hk, List.getElem?_drop]

/-- Without the compile limit of the engine, `findMatchesInText` returns a list for every
text and query; the list is empty for the empty text and a non-empty query, and for every
text none of whose lines contains the query case-insensitively. -/
theorem findMatchesInText_total_and_empty (U : JSString → JSString) :
    (∀ text query, ∃ rs, findMatchesInText U text query = some rs) ∧
      (∀ query, query ≠ [] → findMatchesInText U [] query = some []) ∧
      ∀ text query,
        (∀ ln ∈ splitLF text, includes (canonStr U ln) (canonStr U query) = false) →
          findMatchesInText U text query = some [] := by
  have empty : ∀ text query,
      (∀ ln ∈ splitLF text, includes (canonStr U ln) (canonStr U query) = false) →
        findMatchesInText U text query = some [] := by
    intro text query h
    rw [findMatchesInText_eq, forEachLine_eq_nil U _ query _ 0 0 h]
  refine ⟨fun text query => ⟨_, findMatchesInText_eq U text query⟩, ?_, empty⟩
  intro query hq
  apply empty
  intro ln hln
  have : ln = [] := by simpa [splitLF, splitLFAux] using hln
  subst this
  cases query with
  | nil => exact absurd rfl hq
  | cons a q => rfl

/-! ## Lemmas on the regex matcher -/

theorem tryCounts_some (rest : JSString → Option PrefixMatch) (capture : Bool) (s : JSString)
    (lo : Nat) : ∀ (k : Nat) (m : PrefixMatch), tryCounts rest capture s lo k = some m →
      ∃ j m', lo ≤ j ∧ j ≤ k ∧ rest (s.drop j) = some m' ∧
        m = PrefixMatch.push capture (s.take j) m'
  | 0, m, h => by
    by_cases hlo : lo = 0
    · simp only [tryCounts, hlo, if_true, Option.map_eq_some'] at h
      obtain ⟨m', h1, h2⟩ := h
      exact ⟨0, m', by omega, le_refl _, by simpa using h1, by simpa using h2.symm⟩
    · simp [tryCounts, hlo] at h
  | k + 1, m, h => by
    by_cases hlt : k + 1 < lo
    · simp [tryCounts, hlt] at h
    · simp only [tryCounts, hlt, if_false] at h
      cases hr : rest (s.drop (k + 1)) with
      | some m' =>
        simp only [hr, Option.map_some', Option.some.injEq] at h
        exact ⟨k + 1, m', by omega, le_refl _, hr, h.symm⟩
      | none =>
        simp only [hr, Option.map_none'] at h
        obtain ⟨j, m', h1, h2, h3, h4⟩ := tryCounts_some rest capture s lo k m h
        exact ⟨j, m', h1, by omega, h3, h4⟩

theorem matchNodes_some (U : JSString → JSString) (ic : Bool) :
    ∀ (nodes : List Node) (s : JSString) (m : PrefixMatch),
      matchNodes U ic nodes s = some m →
        minLen nodes ≤ m.len ∧ m.len ≤ s.length ∧
          (nodes.any (fun n => n.capture) = true → m.cap.isSome = true)
  | [], s, m, h => by
    simp only [matchNodes, Option.some.injEq] at h
    subst h
    simp [minLen]
  | n :: ns, s, m, h => by
    have quantified : ∀ lo, lo ≤ (if n.quant = .star then 0 else 1) + 0 →
        (if n.quant = .star then 0 else 1) ≤ lo →
        tryCounts (matchNodes U ic ns) n.capture s lo
          (s.takeWhile (n.set.test U ic)).length = some m →
        minLen (n :: ns) ≤ m.len ∧ m.len ≤ s.length ∧
          ((n :: ns).any (fun n => n.capture) = true → m.cap.isSome = true) := by
      intro lo _ hlo ht
      obtain ⟨j, m', h1, h2, h3, h4⟩ := tryCounts_some _ _ _ _ _ _ ht
      obtain ⟨i1, i2, i3⟩ := matchNodes_some U ic ns _ m' h3
      have hk : (s.takeWhile (n.set.test U ic)).length ≤ s.length :=
        (List.takeWhile_sublist _).length_le
      rw [List.length_drop] at i2
      subst h4
      simp only [PrefixMatch.push, List.length_take, minLen, List.any_cons, Bool.or_eq_true]
      refine ⟨by omega, by omega, ?_⟩
      intro hc
      by_cases hn : n.capture = true
      · simp [hn]
      · simp only [hn, if_false, Bool.false_eq_true]
        exact i3 (hc.resolve_left hn)
    cases hq : n.quant with
    | one =>
      simp only [matchNodes, hq] at h
      cases s with
      | nil => simp at h
      | cons c cs =>
        by_cases ht : n.set.test U ic c = true
        · simp only [ht, if_true, Option.map_eq_some'] at h
          obtain ⟨m', h3, h4⟩ := h
          obtain ⟨i1, i2, i3⟩ := matchNodes_some U ic ns _ m' h3
          subst h4
          simp only [PrefixMatch.push, minLen, hq, List.length_cons, List.length_nil,
            List.any_cons, Bool.or_eq_true]
          refine ⟨by simp; omega, by omega, ?_⟩
          intro hc
          by_cases hn : n.capture = true
          · simp [hn]
          · simp only [hn, if_false, Bool.false_eq_true]
            exact i3 (hc.resolve_left hn)
        · simp [ht] at h
    | plus =>
      simp only [matchNodes, hq] at h
      exact quantified 1 (by simp [hq]) (by simp [hq]) h
    | star =>
      simp only [matchNodes, hq] at h
      exact quantified 0 (by simp) (by simp [hq]) h

theorem search_some (U : JSString → JSString) (ic : Bool) (nodes : List Node) :
    ∀ (s : JSString) (i : Nat) (m : MatchResult), search U ic nodes s i = some m →
      i ≤ m.index ∧ m.index + minLen nodes ≤ m.stop ∧ m.stop ≤ i + s.length ∧
        (nodes.any (fun n => n.capture) = true → m.group1.isSome = true)
  | [], i, m, h => by
    simp only [search, Option.map_eq_some'] at h
    obtain ⟨pm, h1, h2⟩ := h
    obtain ⟨i1, i2, i3⟩ := matchNodes_some U ic nodes _ pm h1
    subst h2
    simp only [List.length_nil] at i2 ⊢
    exact ⟨le_refl _, by omega, by omega, i3⟩
  | c :: cs, i, m, h => by
    cases hm : matchNodes U ic nodes (c :: cs) with
    | some pm =>
      simp only [search, hm, Option.some.injEq] at h
      obtain ⟨i1, i2, i3⟩ := matchNodes_some U ic nodes _ pm hm
      subst h
      exact ⟨le_refl _, by simp only; omega, by simp only; omega, i3⟩
    | none =>
      simp only [search, hm] at h
      obtain ⟨j1, j2, j3, j4⟩ := search_some U ic nodes cs (i + 1) m h
      simp only [List.length_cons]
      exact ⟨by omega, j2, by omega, j4⟩

theorem exec_global_none (U : JSString → JSString) (re re' : RegExp) (text : JSString)
    (hg : re.global = true) (h : re.exec U text = (none, re')) :
    re' = ⟨re.nodes, re.ignoreCase, true, 0⟩ := by
  simp only [RegExp.exec, hg, if_true] at h
  split at h
  · simp only [Prod.mk.injEq, true_and] at h
    exact h.symm
  · split at h
    · simp only [Prod.mk.injEq, true_and] at h
      exact h.symm
    · simp at h

theorem exec_global_some (U : JSString → JSString) (re re' : RegExp) (text : JSString)
    (m : MatchResult) (hg : re.global = true) (h : re.exec U text = (some m, re')) :
    re' = ⟨re.nodes, re.ignoreCase, true, m.stop⟩ ∧ re.lastIndex ≤ m.index ∧
      m.index + minLen re.nodes ≤ m.stop ∧ m.stop ≤ text.length ∧
      (re.nodes.any (fun n => n.capture) = true → m.group1.isSome = true) := by
  simp only [RegExp.exec, hg, if_true] at h
  split at h
  · simp at h
  · rename_i hlen
    split at h
    · simp at h
    · rename_i m' hs
      simp only [Prod.mk.injEq, Option.some.injEq] at h
      obtain ⟨h1, h2⟩ := h
      subst h1
      obtain ⟨j1, j2, j3, j4⟩ := search_some U re.ignoreCase re.nodes _ _ _ hs
      rw [List.length_drop] at j3
      exact ⟨h2.symm, j1, j2, by omega, j4⟩

/-! ## Lemmas on the pattern extractor -/

theorem Patterns.get_push (p : Patterns) (t t' : PatternType) (hit : PatternHit) :
    (p.push t hit).get t' = p.get t' ++ if t' = t then [hit] else [] := by
  cases t <;> cases t' <;> simp [Patterns.push, Patterns.get]

theorem whileExec_spec (H : Host) (query : JSString) (file : WorkspaceFile) (text : JSString)
    (type : PatternType) :
    ∀ (fuel : Nat) (re : RegExp) (patterns : Patterns),
      re.global = true → 1 ≤ minLen re.nodes → re.nodes.any (fun n => n.capture) = true →
      text.length + 1 - re.lastIndex < fuel →
      ∃ patterns', whileExec H query file text type fuel re patterns =
          some (false, ⟨re.nodes, re.ignoreCase, true, 0⟩, patterns') ∧
        ∀ t, patterns'.get t = patterns.get t ++
          if t = type then
            (((allMatches H.toUpperCase text fuel re).filterMap fun m => m.group1).filter
              fun name => includes (H.toLowerCase name) (H.toLowerCase query)).map fun name =>
                { name := name, file := H.basename file.fsPath, fullPath := file.fsPath }
          else []
  | 0, _, _, _, _, _, hfuel => absurd hfuel (Nat.not_lt_zero _)
  | fuel + 1, re, patterns, hg, hmin, hcap, hfuel => by
    rcases hx : re.exec H.toUpperCase text with ⟨o, re'⟩
    cases o with
    | none =>
      have e := exec_global_none _ _ _ _ hg hx
      subst e
      refine ⟨patterns, by simp [whileExec, hx], ?_⟩
      intro t
      simp [allMatches, hx]
    | some m =>
      obtain ⟨e1, e2, e3, e4, e5⟩ := exec_global_some _ _ _ _ _ hg hx
      obtain ⟨name, hname⟩ := Option.isSome_iff_exists.1 (e5 hcap)
      subst e1
      have hfuel' : text.length + 1 - m.stop < fuel := by omega
      have IH := fun p => whileExec_spec H query file text type fuel
        ⟨re.nodes, re.ignoreCase, true, m.stop⟩ p rfl hmin hcap hfuel'
      by_cases hp : includes (H.toLowerCase name) (H.toLowerCase query) = true
      · obtain ⟨p', h1, h2⟩ := IH (patterns.push type
          { name := name, file := H.basename file.fsPath, fullPath := file.fsPath })
        refine ⟨p', by simpa [whileExec, hx, hname, hp] using h1, ?_⟩
        intro t
        rw [h2, Patterns.get_push]
        by_cases ht : t = type
        · simp [ht, allMatches, hx, hname, hp]
        · simp [ht]
      · obtain ⟨p', h1, h2⟩ := IH patterns
        refine ⟨p', by simpa [whileExec, hx, hname, hp] using h1, ?_⟩
        intro t
        rw [h2]
        by_cases ht : t = type
        · simp [ht, allMatches, hx, hname, hp]
        · simp [ht]

theorem forEachPattern_spec (H : Host) (query : JSString) (file : WorkspaceFile)
    (text : JSString) :
    ∀ (sps : List SearchPattern) (patterns : Patterns), (∀ sp ∈ sps, GoodRule sp) →
      ∃ patterns', forEachPattern H query file text sps patterns = some (false, sps, patterns') ∧
        ∀ t, patterns'.get t = patterns.get t ++
          (sps.filter fun sp => sp.type = t).flatMap (hitsInText H query file text)
  | [], patterns, _ => ⟨patterns, rfl, by simp⟩
  | sp :: rest, patterns, hgood => by
    obtain ⟨g1, g2, g3, g4⟩ := hgood sp (by simp)
    obtain ⟨p1, h1, h2⟩ := whileExec_spec H query file text sp.type (text.length + 2) sp.regex
      patterns g1 g3 g4 (by omega)
    obtain ⟨p2, h3, h4⟩ := forEachPattern_spec H query file text rest p1
      (fun sp' hsp' => hgood sp' (by simp [hsp']))
    have hsp : ({ sp with regex := ⟨sp.regex.nodes, sp.regex.ignoreCase, true, 0⟩ } :
        SearchPattern) = sp := by
      cases sp with
      | mk type regex =>
        cases regex with
        | mk nodes ic g li =>
          simp only at g1 g2
          simp [g1, g2]
    refine ⟨p2, by simp [forEachPattern, h1, h3, hsp], ?_⟩
    intro t
    rw [h4, h2, List.append_assoc]
    congr 1
    by_cases ht : sp.type = t
    · simp [List.filter_cons, ht, hitsInText, captures]
    · have ht' : ¬ t = sp.type := fun e => ht e.symm
      simp [List.filter_cons, ht, ht']

theorem scanFile_spec (H : Host) (query : JSString) (sps : List SearchPattern)
    (patterns : Patterns) (file : WorkspaceFile) (hgood : ∀ sp ∈ sps, GoodRule sp) :
    ∃ patterns', scanFile H query sps patterns file = some (sps, patterns') ∧
      ∀ t, patterns'.get t = patterns.get t ++
        (sps.filter fun sp => sp.type = t).flatMap (hitsFor H query file) := by
  cases hd : file.document with
  | none => exact ⟨patterns, by simp [scanFile, hd], by simp [hitsFor, hd]⟩
  | some text =>
    by_cases hp : includes (H.toLowerCase text) (H.toLowerCase query) = true
    · obtain ⟨p', h1, h2⟩ := forEachPattern_spec H query file text sps patterns hgood
      refine ⟨p', by simp [scanFile, hd, hp, h1], ?_⟩
      intro t
      rw [h2]
      congr 1
      apply List.flatMap_congr
      intro sp _
      simp [hitsFor, hd, hp]
    · exact ⟨patterns, by simp [scanFile, hd, hp], by simp [hitsFor, hd, hp]⟩

theorem forFiles_spec (H : Host) (query : JSString) (sps : List SearchPattern)
    (hgood : ∀ sp ∈ sps, GoodRule sp) :
    ∀ (files : List WorkspaceFile) (patterns : Patterns),
      ∃ patterns', forFiles H query files sps patterns = some (sps, patterns') ∧
        ∀ t, patterns'.get t = patterns.get t ++ files.flatMap fun file =>
          (sps.filter fun sp => sp.type = t).flatMap (hitsFor H query file)
  | [], patterns => ⟨patterns, rfl, by simp⟩
  | file :: rest, patterns => by
    obtain ⟨p1, h1, h2⟩ := scanFile_spec H query sps patterns file hgood
    obtain ⟨p2, h3, h4⟩ := forFiles_spec H query sps hgood rest p1
    refine ⟨p2, by simp [forFiles, h1, h3], ?_⟩
    intro t
    rw [h4, h2, List.append_assoc]
    simp

theorem goodRule_searchPatterns : ∀ sp ∈ searchPatterns, GoodRule sp := by
  intro sp hsp
  simp only [searchPatterns, List.mem_cons, List.mem_singleton, List.not_mem_nil, or_false] at hsp
  rcases hsp with h | h | h | h | h <;> subst h <;>
    exact ⟨rfl, rfl, by decide, by decide⟩

theorem filter_searchPatterns : ∀ sp ∈ searchPatterns,
    (searchPatterns.filter fun x => x.type = sp.type) = [sp] := by
  intro sp hsp
  simp only [searchPatterns, List.mem_cons, List.mem_singleton, List.not_mem_nil, or_false] at hsp
  rcases hsp with h | h | h | h | h <;> subst h <;> rfl

theorem findCodePatterns_spec (H : Host) (query : JSString) (files : List WorkspaceFile) :
    ∃ ps, findCodePatterns H query true files = some ps ∧
      ∀ sp ∈ searchPatterns, ps.get sp.type = files.flatMap fun file => hitsFor H query file sp := by
  obtain ⟨ps, h1, h2⟩ := forFiles_spec H query searchPatterns goodRule_searchPatterns files
    Patterns.empty
  refine ⟨ps, by simp [findCodePatterns, h1], ?_⟩
  intro sp hsp
  rw [h2, filter_searchPatterns sp hsp]
  cases sp.type <;> simp [Patterns.get, Patterns.empty]

/-! ## Claims on the pattern extractor -/

/-- C10. The pattern filter is case-insensitive substring containment: `findCodePatterns`
finishes, and for every rule, every file whose document passes the whole-document check
and every identifier the rule captures in it, the hit for that identifier and file is in
the rule's category if and only if the lower-cased identifier contains the lower-cased
query; every hit of the category passes that test. -/
theorem findCodePatterns_filter_is_containment (H : Host) (query : JSString)
    (files : List WorkspaceFile) :
    ∃ ps, findCodePatterns H query true files = some ps ∧
      ∀ sp ∈ searchPatterns,
        (∀ hit ∈ ps.get sp.type,
          includes (H.toLowerCase hit.name) (H.toLowerCase query) = true) ∧
        ∀ file ∈ files, ∀ text, file.document = some text →
          includes (H.toLowerCase text) (H.toLowerCase query) = true →
          ∀ name ∈ captures H sp.regex text,
            ({ name := name, file := H.basename file.fsPath, fullPath := file.fsPath } :
                PatternHit) ∈ ps.get sp.type ↔
              includes (H.toLowerCase name) (H.toLowerCase query) = true := by
  obtain ⟨ps, h1, h2⟩ := findCodePatterns_spec H query files
  refine ⟨ps, h1, ?_⟩
  intro sp hsp
  rw [h2 sp hsp]
  have passes : ∀ hit ∈ files.flatMap (fun file => hitsFor H query file sp),
      includes (H.toLowerCase hit.name) (H.toLowerCase query) = true := by
    intro hit hhit
    obtain ⟨file, -, hf⟩ := List.mem_flatMap.1 hhit
    unfold hitsFor at hf
    split at hf
    · simp at hf
    · split at hf
      · simp only [hitsInText, List.mem_map, List.mem_filter] at hf
        obtain ⟨name, ⟨-, hn⟩, rfl⟩ := hf
        exact hn
      · simp at hf
  refine ⟨passes, ?_⟩
  intro file hfile text hdoc hpre name hname
  constructor
  · intro hhit
    exact passes _ hhit
  · intro hinc
    apply List.mem_flatMap.2
    refine ⟨file, hfile, ?_⟩
    simp only [hitsFor, hdoc, hpre, if_true, hitsInText, List.mem_map, List.mem_filter]
    exact ⟨name, ⟨hname, hinc⟩, rfl⟩

set_option maxRecDepth 100000 in
/-- C10 on the scenario file at the ASCII host: `getScore` is captured by the `functions`
rule and contains `score` without being equal to it, so it is a hit. -/
theorem findCodePatterns_filter_is_containment_witness :
    utf16 "getScore" ∈ captures asciiHost ⟨lits "function" ++
        [⟨.space, .plus, false⟩, ⟨.word, .plus, true⟩], false, true, 0⟩ scenarioText ∧
      asciiHost.toLowerCase (utf16 "getScore") ≠ asciiHost.toLowerCase scenarioQuery ∧
      ∃ ps, findCodePatterns asciiHost scenarioQuery true [scenarioFile] = some ps ∧
        ({ name := utf16 "getScore", file := utf16 "Score.lua",
           fullPath := utf16 "/ws/src/Score.lua" } : PatternHit) ∈ ps.functions := by
  refine ⟨by decide, by decide, ?_⟩
  obtain ⟨ps, h1, h2⟩ :=
    findCodePatterns_filter_is_containment asciiHost scenarioQuery [scenarioFile]
  exact ⟨ps, h1, ((h2 ⟨.functions, ⟨lits "function" ++
    [⟨.space, .plus, false⟩, ⟨.word, .plus, true⟩], false, true, 0⟩⟩ (by decide)).2
      scenarioFile (by decide) scenarioText rfl (by decide) (utf16 "getScore") (by decide)).2
        (by decide)⟩

/-! ## Further lemmas on strings -/

theorem startsWith_iff_prefixOf (s p : JSString) : startsWith s p = true ↔ p <+: s := by
  rw [startsWith_iff_take, List.prefix_iff_eq_take]
  constructor
  · intro h
    exact h.1.symm
  · intro h
    refine ⟨h.symm, ?_⟩
    have := congrArg List.length h
    rw [List.length_take] at this
    omega

theorem includes_iff_occurs (p : JSString) : ∀ s : JSString, includes s p = true ↔ p <:+: s
  | [] => by
    cases p <;> simp [includes]
  | c :: cs => by
    rw [includes, Bool.or_eq_true, startsWith_iff_prefixOf, includes_iff_occurs p cs,
      List.infix_cons_iff]

theorem includes_append (a s b p : JSString) (h : includes s p = true) :
    includes (a ++ s ++ b) p = true := by
  rw [includes_iff_occurs] at h ⊢
  exact h.trans (List.infix_append a s b)

/-! ## Lemmas on capture groups -/

theorem matchNodes_cap (U : JSString → JSString) (ic : Bool) :
    ∀ (nodes : List Node) (s : JSString) (m : PrefixMatch),
      matchNodes U ic nodes s = some m → ∀ name, m.cap = some name →
        (∃ a b, s = a ++ name ++ b) ∧
          (WordCapture nodes → name ≠ [] ∧ ∀ c ∈ name, isWordChar c = true)
  | [], s, m, h, name, hname => by
    simp only [matchNodes, Option.some.injEq] at h
    subst h
    simp at hname
  | n :: ns, s, m, h, name, hname => by
    have wtail : WordCapture (n :: ns) → WordCapture ns :=
      fun hw n' hn' => hw n' (by simp [hn'])
    have quantified : ∀ lo, (n.quant = .plus → 1 ≤ lo) →
        tryCounts (matchNodes U ic ns) n.capture s lo
          (s.takeWhile (n.set.test U ic)).length = some m →
        (∃ a b, s = a ++ name ++ b) ∧
          (WordCapture (n :: ns) → name ≠ [] ∧ ∀ c ∈ name, isWordChar c = true) := by
      intro lo hlo ht
      obtain ⟨j, m', h1, h2, h3, h4⟩ := tryCounts_some _ _ _ _ _ _ ht
      subst h4
      by_cases hn : n.capture = true
      · simp only [PrefixMatch.push, hn, if_true, Option.some.injEq] at hname
        subst hname
        refine ⟨⟨[], s.drop j, by simp⟩, ?_⟩
        intro hw
        obtain ⟨hset, hquant⟩ := hw n (by simp) hn
        have hk : (s.takeWhile (n.set.test U ic)).length ≤ s.length :=
          (List.takeWhile_sublist _).length_le
        have hj1 : 1 ≤ j := le_trans (hlo hquant) h1
        constructor
        · intro he
          have := congrArg List.length he
          rw [List.length_take] at this
          simp only [List.length_nil] at this
          omega
        · intro c hc
          obtain ⟨t, ht'⟩ := List.takeWhile_prefix (n.set.test U ic) (l := s)
          have htake : s.take j = (s.takeWhile (n.set.test U ic)).take j := by
            conv_lhs => rw [← ht']
            exact List.take_append_of_le_length h2
          rw [htake] at hc
          have := List.mem_takeWhile_imp (List.mem_of_mem_take hc)
          rw [hset] at this
          exact this
      · simp only [PrefixMatch.push, hn, if_false, Bool.false_eq_true] at hname
        obtain ⟨⟨a, b, hab⟩, hword⟩ := matchNodes_cap U ic ns _ m' h3 name hname
        refine ⟨⟨s.take j ++ a, b, ?_⟩, fun hw => hword (wtail hw)⟩
        conv_lhs => rw [← List.take_append_drop j s, hab]
        simp
    cases hq : n.quant with
    | one =>
      simp only [matchNodes, hq] at h
      cases s with
      | nil => simp at h
      | cons c cs =>
        by_cases ht : n.set.test U ic c = true
        · simp only [ht, if_true, Option.map_eq_some'] at h
          obtain ⟨m', h3, h4⟩ := h
          subst h4
          by_cases hn : n.capture = true
          · simp only [PrefixMatch.push, hn, if_true, Option.some.injEq] at hname
            subst hname
            refine ⟨⟨[], cs, by simp⟩, ?_⟩
            intro hw
            have := (hw n (by simp) hn).2
            rw [hq] at this
            cases this
          · simp only [PrefixMatch.push, hn, if_false, Bool.false_eq_true] at hname
            obtain ⟨⟨a, b, hab⟩, hword⟩ := matchNodes_cap U ic ns _ m' h3 name hname
            exact ⟨⟨c :: a, b, by simp [hab]⟩, fun hw => hword (wtail hw)⟩
        · simp [ht] at h
    | plus =>
      simp only [matchNodes, hq] at h
      exact quantified 1 (fun _ => le_refl _) h
    | star =>
      simp only [matchNodes, hq] at h
      exact quantified 0 (fun hp => by rw [hq] at hp; cases hp) h

theorem search_cap (U : JSString → JSString) (ic : Bool) (nodes : List Node) :
    ∀ (s : JSString) (i : Nat) (m : MatchResult), search U ic nodes s i = some m →
      ∀ name, m.group1 = some name →
        (∃ a b, s = a ++ name ++ b) ∧
          (WordCapture nodes → name ≠ [] ∧ ∀ c ∈ name, isWordChar c = true)
  | [], i, m, h, name, hname => by
    simp only [search, Option.map_eq_some'] at h
    obtain ⟨pm, h1, h2⟩ := h
    subst h2
    exact matchNodes_cap U ic nodes _ pm h1 name hname
  | c :: cs, i, m, h, name, hname => by
    cases hm : matchNodes U ic nodes (c :: cs) with
    | some pm =>
      simp only [search, hm, Option.some.injEq] at h
      subst h
      exact matchNodes_cap U ic nodes _ pm hm name hname
    | none =>
      simp only [search, hm] at h
      obtain ⟨⟨a, b, hab⟩, hword⟩ := search_cap U ic nodes cs (i + 1) m h name hname
      exact ⟨⟨c :: a, b, by simp [hab]⟩, hword⟩

theorem exec_fields (U : JSString → JSString) (re : RegExp) (text : JSString) :
    (re.exec U text).2.nodes = re.nodes ∧ (re.exec U text).2.ignoreCase = re.ignoreCase ∧
      (re.exec U text).2.global = re.global := by
  cases hg : re.global
  · have h0 : ¬ text.length < 0 := by omega
    simp only [RegExp.exec, hg, Bool.false_eq_true, if_false, h0]
    generalize search U re.ignoreCase re.nodes _ _ = o
    cases o <;> simp [hg]
  · simp only [RegExp.exec, hg, if_true]
    by_cases hlen : text.length < re.lastIndex
    · simp [hlen]
    · simp only [hlen, if_false]
      generalize search U re.ignoreCase re.nodes _ _ = o
      cases o <;> simp

theorem exec_some_search (U : JSString → JSString) (re re' : RegExp) (text : JSString)
    (m : MatchResult) (h : re.exec U text = (some m, re')) :
    ∃ start, search U re.ignoreCase re.nodes (text.drop start) start = some m := by
  refine ⟨if re.global then re.lastIndex else 0, ?_⟩
  simp only [RegExp.exec] at h
  generalize (if re.global = true then re.lastIndex else 0) = start at h ⊢
  by_cases hlen : text.length < start
  · simp [hlen] at h
  · simp only [hlen, if_false] at h
    cases hs : search U re.ignoreCase re.nodes (List.drop start text) start with
    | none => simp [hs] at h
    | some m' =>
      simp only [hs, Prod.mk.injEq, Option.some.injEq] at h
      rw [h.1]

theorem exec_cap (U : JSString → JSString) (re re' : RegExp) (text : JSString)
    (m : MatchResult) (h : re.exec U text = (some m, re')) :
    ∀ name, m.group1 = some name →
      (∃ a b, text = a ++ name ++ b) ∧
        (WordCapture re.nodes → name ≠ [] ∧ ∀ c ∈ name, isWordChar c = true) := by
  intro name hname
  obtain ⟨start, hs⟩ := exec_some_search U re re' text m h
  obtain ⟨⟨a, b, hab⟩, hword⟩ := search_cap U _ _ _ _ _ hs name hname
  refine ⟨⟨text.take start ++ a, b, ?_⟩, hword⟩
  conv_lhs => rw [← List.take_append_drop start text, hab]
  simp

theorem allMatches_cap (U : JSString → JSString) (text : JSString) :
    ∀ (fuel : Nat) (re : RegExp), ∀ m ∈ allMatches U text fuel re,
      ∀ name, m.group1 = some name →
        (∃ a b, text = a ++ name ++ b) ∧
          (WordCapture re.nodes → name ≠ [] ∧ ∀ c ∈ name, isWordChar c = true)
  | 0, _, m, hm => by simp [allMatches] at hm
  | fuel + 1, re, m, hm => by
    rcases hx : re.exec U text with ⟨o, re'⟩
    cases o with
    | none => simp [allMatches, hx] at hm
    | some m0 =>
      simp only [allMatches, hx, List.mem_cons] at hm
      rcases hm with hm | hm
      · subst hm
        exact exec_cap U re re' text m hx
      · have hn : re'.nodes = re.nodes := by
          have := (exec_fields U re text).1
          rw [hx] at this
          exact this
        intro name hname
        have := allMatches_cap U text fuel re' m hm name hname
        rw [hn] at this
        exact this

theorem captures_spec (H : Host) (re : RegExp) (text : JSString) :
    ∀ name ∈ captures H re text,
      (∃ a b, text = a ++ name ++ b) ∧
        (WordCapture re.nodes → name ≠ [] ∧ ∀ c ∈ name, isWordChar c = true) := by
  intro name hname
  simp only [captures, List.mem_filterMap] at hname
  obtain ⟨m, hm, hg⟩ := hname
  exact allMatches_cap H.toUpperCase text _ re m hm name hg

theorem wordCapture_searchPatterns : ∀ sp ∈ searchPatterns, WordCapture sp.regex.nodes := by
  intro sp hsp
  simp only [searchPatterns, List.mem_cons, List.mem_singleton, List.not_mem_nil, or_false] at hsp
  rcases hsp with h | h | h | h | h <;> subst h <;> (unfold WordCapture; decide)

theorem isWordChar_lt {c : Nat} (h : isWordChar c = true) : c < 128 := by
  simp only [isWordChar, Bool.or_eq_true, Bool.and_eq_true, decide_eq_true_eq, beq_iff_eq] at h
  omega

/-! ## The case table does not matter without the `i` flag -/

theorem test_caseSensitive (U U' : JSString → JSString) (set : CharSet) :
    set.test U false = set.test U' false := by
  funext c
  cases set <;> simp [CharSet.test]

theorem matchNodes_caseSensitive (U U' : JSString → JSString) :
    ∀ nodes : List Node, matchNodes U false nodes = matchNodes U' false nodes
  | [] => by
    funext s
    simp [matchNodes]
  | n :: ns => by
    funext s
    simp only [matchNodes, test_caseSensitive U U', matchNodes_caseSensitive U U' ns]

theorem search_caseSensitive (U U' : JSString → JSString) (nodes : List Node) :
    ∀ (s : JSString) (i : Nat), search U false nodes s i = search U' false nodes s i
  | [], i => by simp only [search, matchNodes_caseSensitive U U']
  | c :: cs, i => by
    simp only [search, matchNodes_caseSensitive U U', search_caseSensitive U U' nodes cs (i + 1)]

theorem exec_caseSensitive (U U' : JSString → JSString) (re : RegExp) (text : JSString)
    (hic : re.ignoreCase = false) : re.exec U text = re.exec U' text := by
  simp only [RegExp.exec, hic, search_caseSensitive U U']

theorem allMatches_caseSensitive (U U' : JSString → JSString) (text : JSString) :
    ∀ (fuel : Nat) (re : RegExp), re.ignoreCase = false →
      allMatches U text fuel re = allMatches U' text fuel re
  | 0, _, _ => rfl
  | fuel + 1, re, hic => by
    have hic' : (re.exec U' text).2.ignoreCase = false := by
      rw [(exec_fields U' re text).2.1, hic]
    simp only [allMatches, exec_caseSensitive U U' re text hic]
    rcases hx : re.exec U' text with ⟨o, re'⟩
    rw [hx] at hic'
    cases o with
    | none => rfl
    | some m => simp only [allMatches_caseSensitive U U' text fuel re' hic']

theorem captures_caseSensitive (H H' : Host) (re : RegExp) (text : JSString)
    (hic : re.ignoreCase = false) : captures H re text = captures H' re text := by
  simp only [captures, allMatches_caseSensitive H.toUpperCase H'.toUpperCase text _ re hic]

theorem ignoreCase_searchPatterns : ∀ sp ∈ searchPatterns, sp.regex.ignoreCase = false := by
  decide

/-! ## Lemmas on the whole-document check -/

theorem lower_ascii {H : Host} (hL : LowerFaithful H) (s : JSString) (hs : ∀ c ∈ s, c < 128) :
    H.toLowerCase s = asciiToLowerCase s := by
  obtain ⟨pre', post', h, h1, h2⟩ := hL [] s [] hs
  rw [h1 rfl, h2 rfl] at h
  simpa [asciiToLowerCase] using h

theorem lowerFaithful_asciiHost : LowerFaithful asciiHost := by
  intro pre mid post _
  refine ⟨pre.map asciiLower, post.map asciiLower, by simp [asciiHost, asciiToLowerCase], ?_, ?_⟩
  · intro h; simp [h]
  · intro h; simp [h]

theorem includes_lower_of_capture {H : Host} (hL : LowerFaithful H) (query text name : JSString)
    (hsub : ∃ a b, text = a ++ name ++ b) (hname : ∀ c ∈ name, c < 128)
    (hinc : includes (H.toLowerCase name) (H.toLowerCase query) = true) :
    includes (H.toLowerCase text) (H.toLowerCase query) = true := by
  obtain ⟨a, b, hab⟩ := hsub
  obtain ⟨pre', post', h, -, -⟩ := hL a name b hname
  rw [lower_ascii hL name hname] at hinc
  rw [hab, h]
  exact includes_append _ _ _ _ hinc

theorem forFiles_append (H : Host) (query : JSString) :
    ∀ (xs ys : List WorkspaceFile) (sps : List SearchPattern) (patterns : Patterns),
      forFiles H query (xs ++ ys) sps patterns =
        match forFiles H query xs sps patterns with
        | none => none
        | some (sps', patterns') => forFiles H query ys sps' patterns'
  | [], ys, sps, patterns => by simp [forFiles]
  | x :: xs, ys, sps, patterns => by
    simp only [List.cons_append, forFiles]
    cases scanFile H query sps patterns x with
    | none => rfl
    | some r => exact forFiles_append H query xs ys r.1 r.2

theorem hitsFor_names (H : Host) (hL : LowerFaithful H) (query : JSString)
    (file : WorkspaceFile) (text : JSString) (hdoc : file.document = some text)
    (sp : SearchPattern) (hsp : sp ∈ searchPatterns) :
    (hitsFor H query file sp).map (fun hit => hit.name) =
      (captures H sp.regex text).filter fun name =>
        includes (H.toLowerCase name) (H.toLowerCase query) := by
  by_cases hp : includes (H.toLowerCase text) (H.toLowerCase query) = true
  · simp [hitsFor, hdoc, hp, hitsInText, List.map_map, Function.comp_def]
  · simp only [hitsFor, hdoc, hp, if_false, Bool.false_eq_true, List.map_nil]
    symm
    rw [List.filter_eq_nil_iff]
    intro name hname hinc
    obtain ⟨hsub, hword⟩ := captures_spec H sp.regex text name hname
    have hw := (hword (wordCapture_searchPatterns sp hsp)).2
    exact hp (includes_lower_of_capture hL query text name hsub
      (fun c hc => isWordChar_lt (hw c hc)) hinc)

theorem hitsFor_names_ascii (H : Host) (hL : LowerFaithful H) (query : JSString)
    (hq : ∀ c ∈ query, c < 128) (file : WorkspaceFile) (text : JSString)
    (hdoc : file.document = some text) (sp : SearchPattern) (hsp : sp ∈ searchPatterns) :
    (hitsFor H query file sp).map (fun hit => hit.name) =
      (captures asciiHost sp.regex text).filter fun name =>
        includes (asciiToLowerCase name) (asciiToLowerCase query) := by
  rw [hitsFor_names H hL query file text hdoc sp hsp,
    captures_caseSensitive H asciiHost sp.regex text (ignoreCase_searchPatterns sp hsp),
    lower_ascii hL query hq]
  apply List.filter_congr
  intro name hname
  obtain ⟨-, hword⟩ := captures_spec asciiHost sp.regex text name hname
  have hw := (hword (wordCapture_searchPatterns sp hsp)).2
  rw [lower_ascii hL name (fun c hc => isWordChar_lt (hw c hc))]

theorem findCodePatterns_single (H : Host) (query : JSString) (file : WorkspaceFile) :
    ∃ ps, findCodePatterns H query true [file] = some ps ∧
      ∀ sp ∈ searchPatterns, ps.get sp.type = hitsFor H query file sp := by
  obtain ⟨ps, h1, h2⟩ := findCodePatterns_spec H query [file]
  refine ⟨ps, h1, ?_⟩
  intro sp hsp
  rw [h2 sp hsp]
  simp

theorem type_searchPatterns (t : PatternType) : ∃ sp ∈ searchPatterns, sp.type = t := by
  cases t
  · exact ⟨searchPatterns.get ⟨0, by decide⟩, List.get_mem _ _ _, rfl⟩
  · exact ⟨searchPatterns.get ⟨1, by decide⟩, List.get_mem _ _ _, rfl⟩
  · exact ⟨searchPatterns.get ⟨2, by decide⟩, List.get_mem _ _ _, rfl⟩
  · exact ⟨searchPatterns.get ⟨3, by decide⟩, List.get_mem _ _ _, rfl⟩
  · exact ⟨searchPatterns.get ⟨4, by decide⟩, List.get_mem _ _ _, rfl⟩

theorem allMatches_pairwise (U : JSString → JSString) (text : JSString) :
    ∀ (fuel : Nat) (re : RegExp), re.global = true →
      (∀ m ∈ allMatches U text fuel re, re.lastIndex ≤ m.index ∧ m.index ≤ m.stop) ∧
        (allMatches U text fuel re).Pairwise fun a b => a.stop ≤ b.index
  | 0, _, _ => by simp [allMatches]
  | fuel + 1, re, hg => by
    rcases hx : re.exec U text with ⟨o, re'⟩
    cases o with
    | none => simp [allMatches, hx]
    | some m0 =>
      obtain ⟨e1, e2, e3, -, -⟩ := exec_global_some _ _ _ _ _ hg hx
      subst e1
      obtain ⟨ih1, ih2⟩ := allMatches_pairwise U text fuel
        ⟨re.nodes, re.ignoreCase, true, m0.stop⟩ rfl
      simp only [allMatches, hx, List.mem_cons, List.pairwise_cons]
      refine ⟨?_, fun m hm => (ih1 m hm).1, ih2⟩
      intro m hm
      rcases hm with hm | hm
      · subst hm
        exact ⟨e2, by omega⟩
      · have := ih1 m hm
        simp only at this
        exact ⟨by omega, this.2⟩

theorem count_filter_filterMap (ms : List MatchResult) (pred : JSString → Bool)
    (name : JSString) :
    ((ms.filterMap fun m => m.group1).filter pred).count name =
      ms.countP fun m => decide (m.group1 = some name) && pred name := by
  induction ms with
  | nil => rfl
  | cons m ms ih =>
    cases hg : m.group1 with
    | none => simp [List.filterMap_cons, hg, List.countP_cons, ih]
    | some n =>
      by_cases hp : pred n = true
      · by_cases hn : n = name
        · subst hn
          simp [List.filterMap_cons, hg, List.filter_cons, hp, List.countP_cons, ih]
        · simp [List.filterMap_cons, hg, List.filter_cons, hp, List.countP_cons, ih, hn,
            List.count_cons]
      · by_cases hn : n = name
        · subst hn
          simp [List.filterMap_cons, hg, List.filter_cons, hp, List.countP_cons, ih]
        · simp [List.filterMap_cons, hg, List.filter_cons, hp, List.countP_cons, ih, hn]

/-! ## Further claims on the pattern extractor -/

/-- C11. Pattern extraction scoping: a document whose lower-cased text does not contain the
lower-cased query is not scanned. Its pass through the loop body leaves `patterns` and the
rules untouched, it contributes no hit for any rule, alone it gives five empty categories,
and removing it from any file list does not change the result. -/
theorem findCodePatterns_skips_document_without_query (H : Host) (query : JSString)
    (file : WorkspaceFile) (text : JSString) (hdoc : file.document = some text)
    (hpre : includes (H.toLowerCase text) (H.toLowerCase query) = false) :
    (∀ sps patterns, scanFile H query sps patterns file = some (sps, patterns)) ∧
      (∀ sp, hitsFor H query file sp = []) ∧
      findCodePatterns H query true [file] = some Patterns.empty ∧
      ∀ wf pre post, findCodePatterns H query wf (pre ++ file :: post) =
        findCodePatterns H query wf (pre ++ post) := by
  have hscan : ∀ sps patterns, scanFile H query sps patterns file = some (sps, patterns) := by
    intro sps patterns
    simp [scanFile, hdoc, hpre]
  refine ⟨hscan, ?_, ?_, ?_⟩
  · intro sp
    simp [hitsFor, hdoc, hpre]
  · simp [findCodePatterns, forFiles, hscan]
  · intro wf pre post
    cases wf with
    | false => rfl
    | true =>
      simp only [findCodePatterns, forFiles_append]
      cases forFiles H query pre searchPatterns Patterns.empty with
      | none => rfl
      | some r => simp [forFiles, hscan]

set_option maxRecDepth 100000 in
/-- C11 on the scenario file and the query `"health"`: the document declares a function
and a local, yet nothing is extracted. -/
theorem findCodePatterns_skips_document_without_query_witness :
    captures asciiHost (searchPatterns.get ⟨0, by decide⟩).regex scenarioText =
        [utf16 "getScore"] ∧
      captures asciiHost (searchPatterns.get ⟨1, by decide⟩).regex scenarioText =
        [utf16 "function", utf16 "score"] ∧
      includes (asciiHost.toLowerCase scenarioText) (asciiHost.toLowerCase (utf16 "health")) =
        false ∧
      findCodePatterns asciiHost (utf16 "health") true [scenarioFile] = some Patterns.empty :=
  ⟨by decide, by decide, by decide,
    (findCodePatterns_skips_document_without_query asciiHost (utf16 "health") scenarioFile
      scenarioText rfl (by decide)).2.2.1⟩

set_option maxRecDepth 100000 in
/-- C12. End-to-end scenario for the pattern extractor: on the single scenario document
and the query `"score"`, the hits of `variables` are named `score` only (`function`,
captured by `local function`, fails the filter), the hits of `functions` are named
`getScore` only, and `services`, `events` and `structures` are empty. -/
theorem findCodePatterns_scenario (H : Host) (hL : LowerFaithful H) (fsPath : JSString) :
    ∃ ps, findCodePatterns H scenarioQuery true [⟨fsPath, some scenarioText⟩] = some ps ∧
      ps.variables_.map (fun hit => hit.name) = [utf16 "score"] ∧
      utf16 "function" ∉ ps.variables_.map (fun hit => hit.name) ∧
      ps.functions.map (fun hit => hit.name) = [utf16 "getScore"] ∧
      ps.services = [] ∧ ps.events = [] ∧ ps.structures = [] := by
  obtain ⟨ps, h1, h2⟩ := findCodePatterns_single H scenarioQuery ⟨fsPath, some scenarioText⟩
  have names : ∀ sp ∈ searchPatterns, (ps.get sp.type).map (fun hit => hit.name) =
      (captures asciiHost sp.regex scenarioText).filter fun name =>
        includes (asciiToLowerCase name) (asciiToLowerCase scenarioQuery) := by
    intro sp hsp
    rw [h2 sp hsp]
    exact hitsFor_names_ascii H hL scenarioQuery (by decide) _ scenarioText rfl sp hsp
  have e0 := names (searchPatterns.get ⟨0, by decide⟩) (List.get_mem _ _ _)
  have e1 := names (searchPatterns.get ⟨1, by decide⟩) (List.get_mem _ _ _)
  have e2 := names (searchPatterns.get ⟨2, by decide⟩) (List.get_mem _ _ _)
  have e3 := names (searchPatterns.get ⟨3, by decide⟩) (List.get_mem _ _ _)
  have e4 := names (searchPatterns.get ⟨4, by decide⟩) (List.get_mem _ _ _)
  have v0 : ps.functions.map (fun hit => hit.name) = [utf16 "getScore"] :=
    e0.trans (by decide)
  have v1 : ps.variables_.map (fun hit => hit.name) = [utf16 "score"] :=
    e1.trans (by decide)
  have v2 : ps.services.map (fun hit => hit.name) = [] := e2.trans (by decide)
  have v3 : ps.events.map (fun hit => hit.name) = [] := e3.trans (by decide)
  have v4 : ps.structures.map (fun hit => hit.name) = [] := e4.trans (by decide)
  refine ⟨ps, h1, v1, ?_, v0, List.map_eq_nil_iff.1 v2, List.map_eq_nil_iff.1 v3,
    List.map_eq_nil_iff.1 v4⟩
  rw [v1]
  decide

/-- C12 at the ASCII host and the scenario file. -/
theorem findCodePatterns_scenario_witness :
    LowerFaithful asciiHost ∧
      ∃ ps, findCodePatterns asciiHost scenarioQuery true [scenarioFile] = some ps ∧
        ps.variables_.map (fun hit => hit.name) = [utf16 "score"] ∧
        utf16 "function" ∉ ps.variables_.map (fun hit => hit.name) ∧
        ps.functions.map (fun hit => hit.name) = [utf16 "getScore"] ∧
        ps.services = [] ∧ ps.events = [] ∧ ps.structures = [] :=
  ⟨lowerFaithful_asciiHost,
    findCodePatterns_scenario asciiHost lowerFaithful_asciiHost (utf16 "/ws/src/Score.lua")⟩

set_option maxRecDepth 100000 in
/-- C13. No de-duplication in extraction: for a single document and every rule, the
successive matches of the rule are non-overlapping and ordered left to right, the names of
the hits are, in that order, the captured identifiers of the matches that pass the query
filter, and so the number of hits with a given name is the number of matches that capture
that name and pass the filter. The document `"local score = 1\nlocal score = 2"` with
query `"score"` gives two `variables` hits named `score`. -/
theorem findCodePatterns_no_dedup (H : Host) (hL : LowerFaithful H) :
    (∀ query file text, file.document = some text → ∀ sp ∈ searchPatterns,
      ∃ ps, findCodePatterns H query true [file] = some ps ∧
        (allMatches H.toUpperCase text (text.length + 2) sp.regex).Pairwise
          (fun a b => a.index ≤ a.stop ∧ a.stop ≤ b.index) ∧
        (ps.get sp.type).map (fun hit => hit.name) =
          ((allMatches H.toUpperCase text (text.length + 2) sp.regex).filterMap
            fun m => m.group1).filter
              (fun name => includes (H.toLowerCase name) (H.toLowerCase query)) ∧
        ∀ name, (ps.get sp.type).countP (fun hit => decide (hit.name = name)) =
          (allMatches H.toUpperCase text (text.length + 2) sp.regex).countP (fun m =>
            decide (m.group1 = some name) &&
              includes (H.toLowerCase name) (H.toLowerCase query))) ∧
      ∀ fsPath, ∃ ps,
        findCodePatterns H scenarioQuery true [⟨fsPath, some twoLocalsText⟩] = some ps ∧
          ps.variables_.map (fun hit => hit.name) = [utf16 "score", utf16 "score"] := by
  constructor
  · intro query file text hdoc sp hsp
    obtain ⟨ps, h1, h2⟩ := findCodePatterns_single H query file
    have hnames := hitsFor_names H hL query file text hdoc sp hsp
    rw [← h2 sp hsp] at hnames
    have hg : sp.regex.global = true := (goodRule_searchPatterns sp hsp).1
    obtain ⟨p1, p2⟩ := allMatches_pairwise H.toUpperCase text (text.length + 2) sp.regex hg
    refine ⟨ps, h1, ?_, hnames, ?_⟩
    · rw [List.pairwise_iff_forall_sublist]
      intro a b hab
      have ha : a ∈ allMatches H.toUpperCase text (text.length + 2) sp.regex :=
        hab.subset (by simp)
      exact ⟨(p1 a ha).2, (List.pairwise_iff_forall_sublist.1 p2) hab⟩
    · intro name
      have hc : (ps.get sp.type).countP (fun hit => decide (hit.name = name)) =
          ((ps.get sp.type).map fun hit => hit.name).count name := by
        rw [List.count, List.countP_map]
        apply List.countP_congr
        intro x _
        simp [Function.comp]
      rw [hc, hnames]
      exact count_filter_filterMap _
        (fun name => includes (H.toLowerCase name) (H.toLowerCase query)) name
  · intro fsPath
    obtain ⟨ps, h1, h2⟩ := findCodePatterns_single H scenarioQuery ⟨fsPath, some twoLocalsText⟩
    refine ⟨ps, h1, ?_⟩
    have e1 := h2 (searchPatterns.get ⟨1, by decide⟩) (List.get_mem _ _ _)
    have e2 := hitsFor_names_ascii H hL scenarioQuery (by decide) ⟨fsPath, some twoLocalsText⟩
      twoLocalsText rfl (searchPatterns.get ⟨1, by decide⟩) (List.get_mem _ _ _)
    rw [← e1] at e2
    exact e2.trans (by decide)

set_option maxRecDepth 100000 in
/-- C13 at the ASCII host: the two `local score` declarations and the `variables` rule. -/
theorem findCodePatterns_no_dedup_witness :
    LowerFaithful asciiHost ∧
      ∃ ps, findCodePatterns asciiHost scenarioQuery true
          [⟨utf16 "/ws/a.lua", some twoLocalsText⟩] = some ps ∧
        (ps.get (searchPatterns.get ⟨1, by decide⟩).type).countP
            (fun hit => decide (hit.name = utf16 "score")) =
          (allMatches asciiHost.toUpperCase twoLocalsText (twoLocalsText.length + 2)
            (searchPatterns.get ⟨1, by decide⟩).regex).countP fun m =>
              decide (m.group1 = some (utf16 "score")) &&
                includes (asciiHost.toLowerCase (utf16 "score"))
                  (asciiHost.toLowerCase scenarioQuery) := by
  refine ⟨lowerFaithful_asciiHost, ?_⟩
  obtain ⟨ps, h1, -, -, h4⟩ := (findCodePatterns_no_dedup asciiHost lowerFaithful_asciiHost).1
    scenarioQuery ⟨utf16 "/ws/a.lua", some twoLocalsText⟩ twoLocalsText rfl
    (searchPatterns.get ⟨1, by decide⟩) (List.get_mem _ _ _)
  exact ⟨ps, h1, h4 (utf16 "score")⟩

/-- C14. Every hit produced by `findCodePatterns`, in every category and for every file
list and query, has a non-empty name made of word characters `[A-Za-z0-9_]` only. -/
theorem findCodePatterns_names_are_words (H : Host) (query : JSString) (wf : Bool)
    (files : List WorkspaceFile) :
    ∃ ps, findCodePatterns H query wf files = some ps ∧
      ∀ t, ∀ hit ∈ ps.get t, hit.name ≠ [] ∧ ∀ c ∈ hit.name, isWordChar c = true := by
  cases wf with
  | false =>
    refine ⟨Patterns.empty, rfl, ?_⟩
    intro t hit hhit
    cases t <;> simp [Patterns.get, Patterns.empty] at hhit
  | true =>
    obtain ⟨ps, h1, h2⟩ := findCodePatterns_spec H query files
    refine ⟨ps, h1, ?_⟩
    intro t hit hhit
    obtain ⟨sp, hsp, ht⟩ := type_searchPatterns t
    rw [← ht, h2 sp hsp] at hhit
    obtain ⟨file, -, hf⟩ := List.mem_flatMap.1 hhit
    unfold hitsFor at hf
    split at hf
    · simp at hf
    · rename_i text _
      split at hf
      · simp only [hitsInText, List.mem_map, List.mem_filter] at hf
        obtain ⟨name, ⟨hname, -⟩, rfl⟩ := hf
        exact (captures_spec H sp.regex text name hname).2 (wordCapture_searchPatterns sp hsp)
      · simp at hf

/-! ## Lemmas on counter objects -/

theorem orZero_some (n : Nat) : orZero (some n) = n := by
  cases n <;> rfl

theorem orZero_none : orZero none = 0 := rfl

theorem getProp_setProp (key : JSString) (value : Nat) :
    ∀ (o : Counter) (k : JSString),
      getProp (setProp o key value) k = if k = key then some value else getProp o k
  | [], k => by
    by_cases h : k = key
    · simp [setProp, getProp, h]
    · have h' : ¬ key = k := fun e => h e.symm
      simp [setProp, getProp, h, h']
  | (a, x) :: rest, k => by
    by_cases ha : a = key
    · by_cases h : k = key
      · simp [setProp, getProp, ha, h]
      · have h' : ¬ key = k := fun e => h e.symm
        simp [setProp, getProp, ha, h, h']
    · by_cases hk : a = k
      · have h : ¬ k = key := fun e => ha (hk.trans e)
        simp [setProp, getProp, ha, hk, h]
      · simp [setProp, getProp, ha, hk, getProp_setProp key value rest k]

theorem keys_setProp (key : JSString) (value : Nat) :
    ∀ o : Counter, (setProp o key value).map (fun e => e.1) =
      if key ∈ o.map (fun e => e.1) then o.map (fun e => e.1)
      else o.map (fun e => e.1) ++ [key]
  | [] => by simp [setProp]
  | (a, x) :: rest => by
    by_cases ha : a = key
    · simp [setProp, ha]
    · have ha' : ¬ key = a := fun e => ha e.symm
      simp only [setProp, ha, if_false, List.map_cons, List.mem_cons, ha', false_or,
        keys_setProp key value rest]
      split <;> simp

theorem sum_setProp (key : JSString) (value : Nat) :
    ∀ o : Counter, ((setProp o key value).map fun e => e.2).sum + orZero (getProp o key) =
      (o.map fun e => e.2).sum + value
  | [] => by simp [setProp, getProp, orZero]
  | (a, x) :: rest => by
    by_cases ha : a = key
    · simp [setProp, getProp, ha, orZero_some]
      omega
    · have := sum_setProp key value rest
      simp only [setProp, getProp, ha, if_false, List.map_cons, List.sum_cons]
      omega

theorem getProp_eq_none (o : Counter) (k : JSString) :
    getProp o k = none ↔ k ∉ o.map fun e => e.1 := by
  induction o with
  | nil => simp [getProp]
  | cons e rest ih =>
    obtain ⟨a, x⟩ := e
    by_cases ha : a = k
    · simp [getProp, ha]
    · have ha' : ¬ k = a := fun e => ha e.symm
      simp [getProp, ha, ha', ih]

theorem mem_iff_getProp (o : Counter) (hnd : (o.map fun e => e.1).Nodup) (k : JSString)
    (v : Nat) : (k, v) ∈ o ↔ getProp o k = some v := by
  induction o with
  | nil => simp [getProp]
  | cons e rest ih =>
    obtain ⟨a, x⟩ := e
    simp only [List.map_cons, List.nodup_cons] at hnd
    by_cases ha : a = k
    · subst ha
      simp only [getProp, if_true, Option.some.injEq, List.mem_cons, Prod.mk.injEq, true_and]
      constructor
      · rintro (h | h)
        · exact h.symm
        · exact absurd (List.mem_map_of_mem (fun e => e.1) h) hnd.1
      · intro h
        exact Or.inl h.symm
    · have ha' : ¬ k = a := fun e => ha e.symm
      simp [getProp, ha, ha', ih hnd.2]

theorem nodup_setProp (key : JSString) (value : Nat) (o : Counter)
    (hnd : (o.map fun e => e.1).Nodup) : ((setProp o key value).map fun e => e.1).Nodup := by
  rw [keys_setProp]
  split
  · exact hnd
  · rename_i h
    rw [List.nodup_append]
    refine ⟨hnd, by simp, ?_⟩
    intro a ha hb
    simp only [List.mem_singleton] at hb
    exact h (hb ▸ ha)

/-! ## Lemmas on `analyzeUsagePatterns` -/

theorem foldl_matches_length (l : List TextUsage) (acc : Nat) :
    l.foldl (fun sum file => sum + file.matches_.length) acc =
      acc + (l.map fun u => u.matches_.length).sum := by
  induction l generalizing acc with
  | nil => simp
  | cons u rest ih =>
    simp only [List.foldl_cons, ih, List.map_cons, List.sum_cons]
    omega

theorem forEachUsage_spec :
    ∀ (rest : List TextUsage) (o : Counter),
      (∀ u ∈ rest, isInheritedKey u.fileType = false) →
      ∃ o', forEachUsage rest o = some o' ∧
        (∀ ext, orZero (getProp o' ext) = orZero (getProp o ext) +
          ((rest.filter fun u => u.fileType = ext).map fun u => u.matches_.length).sum) ∧
        (∀ ext, getProp o' ext = none ↔
          getProp o ext = none ∧ ∀ u ∈ rest, u.fileType ≠ ext) ∧
        (o'.map fun e => e.2).sum =
          (o.map fun e => e.2).sum + (rest.map fun u => u.matches_.length).sum ∧
        ((o.map fun e => e.1).Nodup → (o'.map fun e => e.1).Nodup)
  | [], o, _ => ⟨o, rfl, by simp, by simp, by simp, id⟩
  | u :: rest, o, h => by
    have hu : isInheritedKey u.fileType = false := h u (by simp)
    obtain ⟨o', h1, h2, h3, h4, h5⟩ := forEachUsage_spec rest
      (setProp o u.fileType (orZero (getProp o u.fileType) + u.matches_.length))
      (fun u' hu' => h u' (by simp [hu']))
    refine ⟨o', by simp [forEachUsage, hu, h1], ?_, ?_, ?_, ?_⟩
    · intro ext
      rw [h2 ext, getProp_setProp]
      by_cases he : ext = u.fileType
      · subst he
        simp [orZero_some, List.filter_cons]
        omega
      · have he' : ¬ u.fileType = ext := fun e => he e.symm
        simp [he, he', List.filter_cons]
    · intro ext
      rw [h3 ext, getProp_setProp]
      by_cases he : ext = u.fileType
      · subst he
        simp
      · have he' : ¬ u.fileType = ext := fun e => he e.symm
        simp [he, he']
    · have := sum_setProp u.fileType (orZero (getProp o u.fileType) + u.matches_.length) o
      rw [h4]
      simp only [List.map_cons, List.sum_cons]
      omega
    · intro hnd
      exact h5 (nodup_setProp _ _ o hnd)

theorem isInheritedKey_of_isExtname (s : JSString) (h : isExtname s = true) :
    isInheritedKey s = false := by
  have key : ∀ k ∈ objectPrototypeKeys, isExtname k = false := by decide
  cases hi : isInheritedKey s with
  | false => rfl
  | true =>
    have hmem : s ∈ objectPrototypeKeys := by simpa [isInheritedKey] using hi
    rw [key s hmem] at h
    exact absurd h Bool.false_ne_true

/-! ## Claims on the usage analyzer -/

/-- C15. Aggregation: `totalUsages` is the number of references (0 for `null` or
`undefined`) plus the sum of `matches.length` over all entries of `textUsages`; with 3
references and two files of 2 and 5 matches it is 10. -/
theorem analyzeUsagePatterns_totalUsages (H : Host) :
    (∀ (references : Option (List Location)) (textUsages : List TextUsage)
        (searchTerm : JSString),
        (analyzeUsagePatterns H references textUsages searchTerm).totalUsages =
          (match references with
            | none => 0
            | some refs => refs.length) +
          (textUsages.map fun u => u.matches_.length).sum) ∧
      (analyzeUsagePatterns H (some [⟨[], 0, 0⟩, ⟨[], 1, 0⟩, ⟨[], 2, 0⟩])
        [⟨utf16 "/ws/a.lua", [recordOf 1 "x", recordOf 2 "x"], utf16 ".lua"⟩,
          ⟨utf16 "/ws/b.js", [recordOf 1 "x", recordOf 2 "x", recordOf 3 "x", recordOf 4 "x",
            recordOf 5 "x"], utf16 ".js"⟩] (utf16 "x")).totalUsages = 10 := by
  refine ⟨?_, rfl⟩
  intro references textUsages searchTerm
  show orZero (references.map List.length) +
    textUsages.foldl (fun sum file => sum + file.matches_.length) 0 = _
  rw [foldl_matches_length, Nat.zero_add]
  cases references with
  | none => rfl
  | some refs => simp [orZero_some]

/-- C16. File-type distribution: when no file type names an inherited property (no
result of `path.extname` does), `fileTypes[ext]` is the sum of `matches.length` over the
entries of type `ext`, it is absent when there is no such entry, no key occurs twice, and
the values add up to `totalUsages` minus the reference count. -/
theorem analyzeUsagePatterns_fileTypes (H : Host) (references : Option (List Location))
    (textUsages : List TextUsage) (searchTerm : JSString)
    (hkeys : ∀ u ∈ textUsages, isInheritedKey u.fileType = false) :
    (∀ s, isExtname s = true → isInheritedKey s = false) ∧
      ∃ ft, (analyzeUsagePatterns H references textUsages searchTerm).fileTypes = some ft ∧
        (∀ ext, (∃ u ∈ textUsages, u.fileType = ext) →
          getProp ft ext = some
            ((textUsages.filter fun u => u.fileType = ext).map fun u => u.matches_.length).sum) ∧
        (∀ ext, (¬ ∃ u ∈ textUsages, u.fileType = ext) → getProp ft ext = none) ∧
        (ft.map fun e => e.1).Nodup ∧
        (ft.map fun e => e.2).sum =
          (analyzeUsagePatterns H references textUsages searchTerm).totalUsages -
            (match references with
              | none => 0
              | some refs => refs.length) := by
  refine ⟨isInheritedKey_of_isExtname, ?_⟩
  obtain ⟨ft, h1, h2, h3, h4, h5⟩ := forEachUsage_spec textUsages [] hkeys
  refine ⟨ft, h1, ?_, ?_, h5 (by simp), ?_⟩
  · intro ext hex
    have hne : getProp ft ext ≠ none := by
      intro hn
      obtain ⟨u, hu, he⟩ := hex
      exact ((h3 ext).1 hn).2 u hu he
    cases hg : getProp ft ext with
    | none => exact absurd hg hne
    | some v =>
      have := h2 ext
      rw [hg, orZero_some] at this
      simp only [getProp, orZero, Nat.zero_add] at this
      rw [this]
  · intro ext hex
    rw [h3 ext]
    refine ⟨rfl, ?_⟩
    intro u hu he
    exact hex ⟨u, hu, he⟩
  · have ht : (analyzeUsagePatterns H references textUsages searchTerm).totalUsages =
        orZero (references.map List.length) +
          textUsages.foldl (fun sum file => sum + file.matches_.length) 0 := rfl
    rw [ht, foldl_matches_length, h4]
    cases references with
    | none => simp [orZero]
    | some refs => simp [orZero_some]

/-- C16 on three usages of types `.lua`, `.js`, `.lua`. -/
theorem analyzeUsagePatterns_fileTypes_witness :
    (∀ u ∈ [(⟨utf16 "/ws/a.lua", [recordOf 1 "x", recordOf 2 "x"], utf16 ".lua"⟩ : TextUsage),
        ⟨utf16 "/ws/b.js", [recordOf 1 "x"], utf16 ".js"⟩,
        ⟨utf16 "/ws/c.lua", [recordOf 7 "x"], utf16 ".lua"⟩],
        isInheritedKey u.fileType = false) ∧
      (analyzeUsagePatterns asciiHost none
        [⟨utf16 "/ws/a.lua", [recordOf 1 "x", recordOf 2 "x"], utf16 ".lua"⟩,
          ⟨utf16 "/ws/b.js", [recordOf 1 "x"], utf16 ".js"⟩,
          ⟨utf16 "/ws/c.lua", [recordOf 7 "x"], utf16 ".lua"⟩] (utf16 "x")).fileTypes =
        some [(utf16 ".lua", 3), (utf16 ".js", 1)] ∧
      ∃ ft, (analyzeUsagePatterns asciiHost none
        [⟨utf16 "/ws/a.lua", [recordOf 1 "x", recordOf 2 "x"], utf16 ".lua"⟩,
          ⟨utf16 "/ws/b.js", [recordOf 1 "x"], utf16 ".js"⟩,
          ⟨utf16 "/ws/c.lua", [recordOf 7 "x"], utf16 ".lua"⟩] (utf16 "x")).fileTypes =
          some ft ∧ (ft.map fun e => e.1).Nodup := by
  refine ⟨by decide, by decide, ?_⟩
  obtain ⟨ft, h1, -, -, h4, -⟩ := (analyzeUsagePatterns_fileTypes asciiHost none
    [⟨utf16 "/ws/a.lua", [recordOf 1 "x", recordOf 2 "x"], utf16 ".lua"⟩,
      ⟨utf16 "/ws/b.js", [recordOf 1 "x"], utf16 ".js"⟩,
      ⟨utf16 "/ws/c.lua", [recordOf 7 "x"], utf16 ".lua"⟩] (utf16 "x") (by decide)).2
  exact ⟨ft, h1, h4⟩

/-- C17. Threshold suggestions: the "No usages found" message is suggested exactly when
`totalUsages` is 0, the "High usage detected" message exactly when it exceeds 50, nothing
else is ever suggested, there is at most one suggestion, and none for 1 to 50 usages; 0,
51, 25 and the boundary 50 are worked out. -/
theorem analyzeUsagePatterns_suggestions (H : Host) :
    (∀ (references : Option (List Location)) (textUsages : List TextUsage)
        (searchTerm : JSString),
        (noUsagesMessage ∈ (analyzeUsagePatterns H references textUsages searchTerm).suggestions ↔
          (analyzeUsagePatterns H references textUsages searchTerm).totalUsages = 0) ∧
        (highUsageMessage ∈
            (analyzeUsagePatterns H references textUsages searchTerm).suggestions ↔
          50 < (analyzeUsagePatterns H references textUsages searchTerm).totalUsages) ∧
        (∀ s ∈ (analyzeUsagePatterns H references textUsages searchTerm).suggestions,
          s = noUsagesMessage ∨ s = highUsageMessage) ∧
        (analyzeUsagePatterns H references textUsages searchTerm).suggestions.length ≤ 1 ∧
        (1 ≤ (analyzeUsagePatterns H references textUsages searchTerm).totalUsages →
          (analyzeUsagePatterns H references textUsages searchTerm).totalUsages ≤ 50 →
          (analyzeUsagePatterns H references textUsages searchTerm).suggestions = [])) ∧
      (analyzeUsagePatterns H none [] (utf16 "x")).suggestions = [noUsagesMessage] ∧
      (analyzeUsagePatterns H (some (List.replicate 51 ⟨[], 0, 0⟩)) [] (utf16 "x")).suggestions =
        [highUsageMessage] ∧
      (analyzeUsagePatterns H (some (List.replicate 25 ⟨[], 0, 0⟩)) [] (utf16 "x")).suggestions =
        [] ∧
      (analyzeUsagePatterns H (some (List.replicate 50 ⟨[], 0, 0⟩)) [] (utf16 "x")).suggestions =
        [] := by
  refine ⟨?_, rfl, rfl, rfl, rfl⟩
  intro references textUsages searchTerm
  have hs : (analyzeUsagePatterns H references textUsages searchTerm).suggestions =
      if (analyzeUsagePatterns H references textUsages searchTerm).totalUsages = 0 then
        [noUsagesMessage]
      else if 50 < (analyzeUsagePatterns H references textUsages searchTerm).totalUsages then
        [highUsageMessage]
      else [] := rfl
  have hne : noUsagesMessage ≠ highUsageMessage := by decide
  rw [hs]
  generalize (analyzeUsagePatterns H references textUsages searchTerm).totalUsages = n
  by_cases h0 : n = 0
  · subst h0
    simp [hne, hne.symm]
  · by_cases h50 : 50 < n
    · refine ⟨?_, ?_, ?_, ?_, ?_⟩
      · simp [h0, h50, hne]
      · simp [h0, h50]
      · simp [h0, h50]
      · simp [h0, h50]
      · intro _ hle
        omega
    · simp [h0, h50]

/-- C17 on an input with 25 usages: between 1 and 50 there is no suggestion. -/
theorem analyzeUsagePatterns_suggestions_witness :
    1 ≤ (analyzeUsagePatterns asciiHost (some (List.replicate 25 ⟨[], 0, 0⟩)) []
        (utf16 "x")).totalUsages ∧
      (analyzeUsagePatterns asciiHost (some (List.replicate 25 ⟨[], 0, 0⟩)) []
        (utf16 "x")).totalUsages ≤ 50 ∧
      (analyzeUsagePatterns asciiHost (some (List.replicate 25 ⟨[], 0, 0⟩)) []
        (utf16 "x")).suggestions = [] :=
  ⟨by decide, by decide,
    ((analyzeUsagePatterns_suggestions asciiHost).1 (some (List.replicate 25 ⟨[], 0, 0⟩)) []
      (utf16 "x")).2.2.2.2 (by decide) (by decide)⟩

/-! ## Lemmas on `findCommonPatterns` -/

theorem forEachWord_getProp (context : JSString) :
    ∀ (ws : List JSString) (p : Counter) (w : JSString), ws.Nodup →
      getProp (forEachWord context ws p) w =
        if w ∈ ws ∧ includes context w = true then some (orZero (getProp p w) + 1)
        else getProp p w
  | [], p, w, _ => by simp [forEachWord]
  | a :: rest, p, w, hnd => by
    rw [List.nodup_cons] at hnd
    rw [forEachWord, forEachWord_getProp context rest _ w hnd.2]
    by_cases hwa : w = a
    · subst hwa
      by_cases hi : includes context w = true
      · simp [hnd.1, hi, getProp_setProp]
      · simp [hnd.1, hi]
    · by_cases hi : includes context a = true
      · simp [hwa, hi, getProp_setProp]
      · simp [hwa, hi]

theorem forEachWord_keys (context : JSString) :
    ∀ (ws : List JSString) (p : Counter),
      (forEachWord context ws p).map (fun e => e.1) =
        (ws.filter fun word => includes context word).foldl
          (fun seen w => if w ∈ seen then seen else seen ++ [w]) (p.map fun e => e.1)
  | [], p => by simp [forEachWord]
  | a :: rest, p => by
    rw [forEachWord, forEachWord_keys context rest]
    by_cases hi : includes context a = true
    · simp [hi, List.filter_cons, keys_setProp]
    · simp [hi, List.filter_cons]

theorem forEachWord_nodup (context : JSString) :
    ∀ (ws : List JSString) (p : Counter), (p.map fun e => e.1).Nodup →
      ((forEachWord context ws p).map fun e => e.1).Nodup
  | [], _, h => h
  | a :: rest, p, h => by
    rw [forEachWord]
    apply forEachWord_nodup context rest
    split
    · exact nodup_setProp _ _ p h
    · exact h

theorem forEachContext_spec :
    ∀ (cs : List JSString) (p : Counter),
      (∀ w, orZero (getProp (forEachContext cs p) w) = orZero (getProp p w) +
        if w ∈ commonWords then cs.countP (fun c => includes c w) else 0) ∧
      (∀ w, getProp (forEachContext cs p) w = none ↔
        getProp p w = none ∧ (w ∈ commonWords → cs.countP (fun c => includes c w) = 0)) ∧
      (forEachContext cs p).map (fun e => e.1) =
        (occurrences cs).foldl (fun seen w => if w ∈ seen then seen else seen ++ [w])
          (p.map fun e => e.1) ∧
      ((p.map fun e => e.1).Nodup → ((forEachContext cs p).map fun e => e.1).Nodup)
  | [], p => by simp [forEachContext, occurrences]
  | c :: cs, p => by
    obtain ⟨h1, h2, h3, h4⟩ := forEachContext_spec cs (forEachWord c commonWords p)
    have hnd : commonWords.Nodup := by decide
    refine ⟨?_, ?_, ?_, ?_⟩
    · intro w
      rw [forEachContext, h1 w, forEachWord_getProp c commonWords p w hnd]
      by_cases hw : w ∈ commonWords
      · by_cases hi : includes c w = true
        · simp [hw, hi, orZero_some, List.countP_cons]
          omega
        · simp [hw, hi, List.countP_cons]
      · simp [hw]
    · intro w
      rw [forEachContext, h2 w, forEachWord_getProp c commonWords p w hnd]
      by_cases hw : w ∈ commonWords
      · by_cases hi : includes c w = true
        · simp [hw, hi, List.countP_cons]
        · simp [hw, hi, List.countP_cons]
      · simp [hw]
    · rw [forEachContext, h3, forEachWord_keys]
      simp [occurrences, List.foldl_append]
    · intro hp
      exact h4 (forEachWord_nodup c commonWords p hp)

theorem tally_spec (contexts : List JSString) :
    ((forEachContext contexts []).map fun e => e.1).Nodup ∧
      (forEachContext contexts []).map (fun e => e.1) =
        firstEncounterOrder (occurrences contexts) ∧
      ∀ w n, (w, n) ∈ forEachContext contexts [] ↔
        w ∈ commonWords ∧ n = contexts.countP (fun c => includes c w) ∧ 1 ≤ n := by
  obtain ⟨h1, h2, h3, h4⟩ := forEachContext_spec contexts []
  have hnd := h4 (by simp)
  refine ⟨hnd, by simpa [firstEncounterOrder] using h3, ?_⟩
  intro w n
  rw [mem_iff_getProp _ hnd]
  have e1 := h1 w
  have e2 := h2 w
  simp only [getProp, orZero_none, Nat.zero_add, true_and] at e1 e2
  constructor
  · intro hg
    rw [hg, orZero_some] at e1
    have hne : ¬ (w ∈ commonWords → contexts.countP (fun c => includes c w) = 0) := by
      intro hc
      have := e2.2 hc
      rw [hg] at this
      cases this
    by_cases hw : w ∈ commonWords
    · simp only [hw, if_true] at e1
      refine ⟨hw, e1, ?_⟩
      have : contexts.countP (fun c => includes c w) ≠ 0 := fun h0 => hne fun _ => h0
      omega
    · exact absurd (fun h => absurd h hw) hne
  · rintro ⟨hw, hn, hpos⟩
    cases hg : getProp (forEachContext contexts []) w with
    | none =>
      have := e2.1 hg hw
      omega
    | some v =>
      rw [hg, orZero_some] at e1
      simp only [hw, if_true] at e1
      rw [e1, hn]

theorem slice_zero {α : Type} (xs : List α) (n : Nat) : slice xs 0 (n : Int) = xs.take n := by
  by_cases h : n ≤ xs.length
  · have := slice_nat xs 0 n (Nat.zero_le _) h
    simpa using this
  · have h1 : ¬ ((n : Int) < 0) := by omega
    have h2 : min (n : Int) (xs.length : Int) = (xs.length : Int) := by omega
    simp only [slice, lt_self_iff_false, if_false, h1, h2]
    have h3 : (min (0 : Int) (xs.length : Int)).toNat = 0 := by omega
    have h4 : ((xs.length : Int) - min (0 : Int) (xs.length : Int)).toNat = xs.length := by omega
    rw [h3, h4, List.drop_zero, List.take_length, List.take_of_length_le (by omega)]

theorem findCommonPatterns_eq (contexts : List JSString) :
    findCommonPatterns contexts =
      (((forEachContext contexts []).insertionSort countGE).take 5).map fun e =>
        { pattern := e.1, count := e.2 } := by
  have := slice_zero ((forEachContext contexts []).insertionSort countGE) 5
  simp only [findCommonPatterns, sortByCountDesc]
  rw [← this]
  rfl

theorem sorted_sortByCountDesc (l : Counter) : (l.insertionSort countGE).Sorted countGE := by
  haveI : IsTotal (JSString × Nat) countGE := ⟨fun a b => Nat.le_total b.2 a.2⟩
  haveI : IsTrans (JSString × Nat) countGE := ⟨fun _ _ _ hab hbc => Nat.le_trans hbc hab⟩
  exact List.sorted_insertionSort countGE l

theorem insertionSort_filter_count (k : Nat) (l : Counter) :
    (l.insertionSort countGE).filter (fun e => decide (e.2 = k)) =
      l.filter fun e => decide (e.2 = k) := by
  have hsub : List.Sublist (l.filter fun e => decide (e.2 = k)) (l.insertionSort countGE) := by
    apply List.sublist_insertionSort
    · rw [List.pairwise_iff_forall_sublist]
      intro a b hab
      have ha : a ∈ l.filter (fun e => decide (e.2 = k)) := hab.subset (by simp)
      have hb : b ∈ l.filter (fun e => decide (e.2 = k)) := hab.subset (by simp)
      simp only [List.mem_filter, decide_eq_true_eq] at ha hb
      show b.2 ≤ a.2
      omega
    · exact List.filter_sublist l
  have hsub' := hsub.filter (fun e => decide (e.2 = k))
  simp only [List.filter_filter, Bool.and_self] at hsub'
  have hlen := ((List.perm_insertionSort countGE l).filter (fun e => decide (e.2 = k))).length_eq
  exact (hsub'.eq_of_length hlen.symm).symm

/-! ## Claims on `findCommonPatterns` and the insight summary -/

set_option maxRecDepth 100000 in
/-- C18. Top-5 cap: `findCommonPatterns` returns at most 5 entries; their keywords are
pairwise distinct words of the vocabulary, each with a count of at least 1 that is the
number of contexts containing the keyword; a vocabulary keyword that is not returned never
occurs in more contexts than a returned one; a context with all 8 keywords gives exactly
5 entries. -/
theorem findCommonPatterns_top_five (contexts : List JSString) :
    (findCommonPatterns contexts).length ≤ 5 ∧
      ((findCommonPatterns contexts).map fun e => e.pattern).Nodup ∧
      (∀ e ∈ findCommonPatterns contexts, e.pattern ∈ commonWords ∧ 1 ≤ e.count ∧
        e.count = contexts.countP fun c => includes c e.pattern) ∧
      (∀ w ∈ commonWords, w ∉ (findCommonPatterns contexts).map (fun e => e.pattern) →
        ∀ e ∈ findCommonPatterns contexts,
          contexts.countP (fun c => includes c w) ≤ e.count) ∧
      (findCommonPatterns
        [utf16 "local function f() if x then for i while return end"]).length = 5 := by
  obtain ⟨t1, -, t3⟩ := tally_spec contexts
  have hperm := List.perm_insertionSort countGE (forEachContext contexts [])
  have hsorted := sorted_sortByCountDesc (forEachContext contexts [])
  have hmem : ∀ e ∈ findCommonPatterns contexts,
      (e.pattern, e.count) ∈ ((forEachContext contexts []).insertionSort countGE).take 5 := by
    intro e he
    rw [findCommonPatterns_eq, List.mem_map] at he
    obtain ⟨x, hx, rfl⟩ := he
    exact hx
  refine ⟨?_, ?_, ?_, ?_, by decide⟩
  · rw [findCommonPatterns_eq, List.length_map, List.length_take]
    exact Nat.min_le_left _ _
  · rw [findCommonPatterns_eq, List.map_map]
    have hsub : List.Sublist
        ((((forEachContext contexts []).insertionSort countGE).take 5).map fun e => e.1)
        (((forEachContext contexts []).insertionSort countGE).map fun e => e.1) :=
      (List.take_sublist 5 _).map _
    exact List.Nodup.sublist hsub (((hperm.map fun e => e.1).nodup_iff).2 t1)
  · intro e he
    have h1 := hperm.mem_iff.1 (List.mem_of_mem_take (hmem e he))
    obtain ⟨a, b, c⟩ := (t3 e.pattern e.count).1 h1
    exact ⟨a, c, b⟩
  · intro w hw hout e he
    by_cases h0 : contexts.countP (fun c => includes c w) = 0
    · rw [h0]
      exact Nat.zero_le _
    · have hT : (w, contexts.countP (fun c => includes c w)) ∈ forEachContext contexts [] :=
        (t3 _ _).2 ⟨hw, rfl, by omega⟩
      have hS := hperm.mem_iff.2 hT
      rw [← List.take_append_drop 5 ((forEachContext contexts []).insertionSort countGE),
        List.mem_append] at hS
      rcases hS with hS | hS
      · exfalso
        apply hout
        rw [findCommonPatterns_eq, List.map_map]
        exact List.mem_map.2 ⟨_, hS, rfl⟩
      · exact hsorted.rel_of_mem_take_of_mem_drop (hmem e he) hS

/-- C19, counterexample. For the contexts `"end"`, `"function"` the two entries have equal
counts and `end` comes first, although `function` precedes `end` in the vocabulary. -/
theorem findCommonPatterns_ties_not_in_vocabulary_order :
    findCommonPatterns [utf16 "end", utf16 "function"] =
        [⟨utf16 "end", 1⟩, ⟨utf16 "function", 1⟩] ∧
      commonWords.indexOf (utf16 "function") < commonWords.indexOf (utf16 "end") := by
  decide

/-- C19, amended. The entries of `findCommonPatterns` are in non-increasing order of
count, and the entries with a given count are, in order, the first of the keywords with
that count in the order in which the keywords are first encountered when the contexts are
scanned in order and, within a context, the vocabulary in order. -/
theorem findCommonPatterns_order (contexts : List JSString) :
    ((findCommonPatterns contexts).map fun e => e.count).Pairwise (fun a b => b ≤ a) ∧
      (firstEncounterOrder (occurrences contexts)).Nodup ∧
      ∀ k, ((findCommonPatterns contexts).filter fun e => decide (e.count = k)).map
          (fun e => e.pattern) <+:
        (firstEncounterOrder (occurrences contexts)).filter fun w =>
          decide (contexts.countP (fun c => includes c w) = k) := by
  obtain ⟨t1, t2, t3⟩ := tally_spec contexts
  have hsorted := sorted_sortByCountDesc (forEachContext contexts [])
  refine ⟨?_, t2 ▸ t1, ?_⟩
  · rw [findCommonPatterns_eq, List.map_map, List.pairwise_map]
    exact List.Pairwise.sublist (List.take_sublist 5 _) hsorted
  · intro k
    have e1 : ((findCommonPatterns contexts).filter fun e => decide (e.count = k)).map
        (fun e => e.pattern) =
        ((((forEachContext contexts []).insertionSort countGE).take 5).filter
          fun e => decide (e.2 = k)).map fun e => e.1 := by
      rw [findCommonPatterns_eq, List.filter_map, List.map_map]
      rfl
    have e2 : (firstEncounterOrder (occurrences contexts)).filter (fun w =>
        decide (contexts.countP (fun c => includes c w) = k)) =
        ((forEachContext contexts []).filter fun e => decide (e.2 = k)).map fun e => e.1 := by
      rw [← t2, List.filter_map]
      congr 1
      apply List.filter_congr
      intro x hx
      have := ((t3 x.1 x.2).1 hx).2.1
      simp only [Function.comp]
      rw [this]
    rw [e1, e2, ← insertionSort_filter_count k (forEachContext contexts [])]
    exact ((List.take_prefix 5 _).filter _).map _

/-! ## Lemmas on the insight generator -/

theorem startsWith_append_self (p x : JSString) : startsWith (p ++ x) p = true :=
  (startsWith_iff_prefixOf _ _).2 (List.prefix_append p x)

theorem generateAIInsights_fileResults (query : JSString) (symbols : Option (List JSString))
    (fileResults : List FileResult) (patterns : Patterns) :
    generateAIInsights query symbols (.fileResults fileResults) patterns = none :=
  rfl

theorem generateAIInsights_analysis (query : JSString) (symbols : Option (List JSString))
    (textAnalysis : TextAnalysis) (patterns : Patterns) :
    ∃ insights, generateAIInsights query symbols (.analysis textAnalysis) patterns =
        some insights ∧
      insights.summary =
        utf16 "Found " ++ templateValue textAnalysis.summary.totalMatches ++
          utf16 " matches across " ++ templateValue textAnalysis.summary.matchingFiles ++
          utf16 " files" ∧
      insights.recommendations =
        ((if 10 < patterns.functions.length then [modularizationMessage] else []) ++
          if 0 < patterns.services.length then
            [servicesInUse ++
              join (utf16 ", ") (uniqueInOrder (patterns.services.map fun s => s.name) [])]
          else []) ∧
      insights.opportunities =
        ((if greaterThan textAnalysis.summary.matchingFiles 5 then [coreComponentMessage]
          else []) ++
          if 0 < patterns.events.length then [eventDrivenMessage] else []) := by
  refine ⟨_, rfl, rfl, ?_, rfl⟩
  show (if 0 < patterns.functions.length ∧ 10 < patterns.functions.length then
      [modularizationMessage] else []) ++ _ = _
  congr 1
  by_cases h : 10 < patterns.functions.length
  · have h0 : 0 < patterns.functions.length := by omega
    simp [h, h0]
  · simp [h]

theorem modularization_gate (p : Patterns) :
    modularizationMessage ∈
        ((if 10 < p.functions.length then [modularizationMessage] else []) ++
          if 0 < p.services.length then
            [servicesInUse ++
              join (utf16 ", ") (uniqueInOrder (p.services.map fun s => s.name) [])]
          else []) ↔
      10 < p.functions.length := by
  have hmod : startsWith modularizationMessage servicesInUse = false := by decide
  by_cases hf : 10 < p.functions.length
  · simp [hf]
  · by_cases hs : 0 < p.services.length
    · simp only [hf, hs, if_false, if_true, List.nil_append, List.mem_singleton, iff_false]
      intro he
      have := startsWith_append_self servicesInUse
        (join (utf16 ", ") (uniqueInOrder (p.services.map fun s => s.name) []))
      rw [← he, hmod] at this
      exact Bool.false_ne_true this
    · simp [hf, hs]

theorem services_gate (p : Patterns) :
    (∃ e ∈ ((if 10 < p.functions.length then [modularizationMessage] else []) ++
          if 0 < p.services.length then
            [servicesInUse ++
              join (utf16 ", ") (uniqueInOrder (p.services.map fun s => s.name) [])]
          else []),
        startsWith e servicesInUse = true) ↔
      0 < p.services.length := by
  have hmod : startsWith modularizationMessage servicesInUse = false := by decide
  by_cases hs : 0 < p.services.length
  · simp only [hs, if_true, iff_true]
    exact ⟨servicesInUse ++
        join (utf16 ", ") (uniqueInOrder (p.services.map fun s => s.name) []),
      List.mem_append_right _ (List.mem_singleton_self _), startsWith_append_self _ _⟩
  · by_cases hf : 10 < p.functions.length
    · simp [hf, hs, hmod]
    · simp [hf, hs]

theorem greaterThan_iff (x : Option Nat) (n : Nat) :
    greaterThan x n = true ↔ ∃ v, x = some v ∧ n < v := by
  cases x with
  | none => simp [greaterThan]
  | some v => simp [greaterThan]

theorem uniqueInOrder_eq_foldl :
    ∀ (xs seen : List JSString), uniqueInOrder xs seen =
      xs.foldl (fun seen w => if w ∈ seen then seen else seen ++ [w]) seen
  | [], _ => rfl
  | x :: xs, seen => by
    rw [uniqueInOrder, uniqueInOrder_eq_foldl xs, List.foldl_cons]

theorem uniqueInOrder_snoc (ys : List JSString) (y : JSString) (seen : List JSString) :
    uniqueInOrder (ys ++ [y]) seen =
      if y ∈ uniqueInOrder ys seen then uniqueInOrder ys seen
      else uniqueInOrder ys seen ++ [y] := by
  simp only [uniqueInOrder_eq_foldl, List.foldl_append, List.foldl_cons, List.foldl_nil]

theorem firstIndexOf_append_of_mem (a : JSString) (l₂ : List JSString) :
    ∀ l₁ : List JSString, a ∈ l₁ → firstIndexOf a (l₁ ++ l₂) = firstIndexOf a l₁
  | [], h => by simp at h
  | x :: xs, h => by
    by_cases hx : x = a
    · simp [firstIndexOf, hx]
    · have hxs : a ∈ xs := by
        rcases List.mem_cons.1 h with e | e
        · exact absurd e.symm hx
        · exact e
      simp [firstIndexOf, hx, firstIndexOf_append_of_mem a l₂ xs hxs]

theorem firstIndexOf_append_of_not_mem (a : JSString) (l₂ : List JSString) :
    ∀ l₁ : List JSString, a ∉ l₁ →
      firstIndexOf a (l₁ ++ l₂) = l₁.length + firstIndexOf a l₂
  | [], _ => by simp
  | x :: xs, h => by
    have hx : ¬ x = a := fun e => h (by simp [e])
    have hxs : a ∉ xs := fun e => h (by simp [e])
    have ih := firstIndexOf_append_of_not_mem a l₂ xs hxs
    show firstIndexOf a (x :: (xs ++ l₂)) = _
    simp only [firstIndexOf, hx, if_false, List.length_cons, ih]
    omega

theorem firstIndexOf_lt_length (a : JSString) :
    ∀ l : List JSString, a ∈ l → firstIndexOf a l < l.length
  | [], h => by simp at h
  | x :: xs, h => by
    by_cases hx : x = a
    · simp [firstIndexOf, hx]
    · have hxs : a ∈ xs := by
        rcases List.mem_cons.1 h with e | e
        · exact absurd e.symm hx
        · exact e
      have := firstIndexOf_lt_length a xs hxs
      simp only [firstIndexOf, hx, if_false, List.length_cons]
      omega

theorem uniqueInOrder_spec (names : List JSString) :
    (∀ x, x ∈ uniqueInOrder names [] ↔ x ∈ names) ∧
      (uniqueInOrder names []).Pairwise
        fun a b => firstIndexOf a names < firstIndexOf b names := by
  induction names using List.reverseRecOn with
  | nil => simp [uniqueInOrder]
  | append_singleton ys y ih =>
    obtain ⟨hmem, hpw⟩ := ih
    rw [uniqueInOrder_snoc]
    have keep : ∀ a, a ∈ uniqueInOrder ys [] →
        firstIndexOf a (ys ++ [y]) = firstIndexOf a ys :=
      fun a ha => firstIndexOf_append_of_mem a [y] ys ((hmem a).1 ha)
    have hpw' : (uniqueInOrder ys []).Pairwise
        fun a b => firstIndexOf a (ys ++ [y]) < firstIndexOf b (ys ++ [y]) := by
      apply hpw.imp_of_mem
      intro a b ha hb hab
      rw [keep a ha, keep b hb]
      exact hab
    by_cases hy : y ∈ uniqueInOrder ys []
    · simp only [hy, if_true]
      refine ⟨?_, hpw'⟩
      intro x
      rw [hmem x, List.mem_append, List.mem_singleton]
      constructor
      · exact Or.inl
      · rintro (h | h)
        · exact h
        · rw [h]
          exact (hmem y).1 hy
    · simp only [hy, if_false]
      refine ⟨?_, ?_⟩
      · intro x
        simp only [List.mem_append, List.mem_singleton, hmem x]
      · rw [List.pairwise_append]
        refine ⟨hpw', by simp, ?_⟩
        intro a ha b hb
        rw [List.mem_singleton] at hb
        subst hb
        have hyn : b ∉ ys := fun h => hy ((hmem b).2 h)
        rw [keep a ha, firstIndexOf_append_of_not_mem b [b] ys hyn]
        have := firstIndexOf_lt_length a ys ((hmem a).1 ha)
        simp only [firstIndexOf, if_true]
        omega

/-! ## Claims on the insight generator -/

set_option maxRecDepth 100000 in
/-- C20, code bug. `performSemanticSearch` hands the array of `performFileContentSearch`
to `generateAIInsights` as `textAnalysis`. An array has no `summary`, so the template
literal of the summary line throws and no insights are returned, for every workspace,
symbol list and query. On an object with a `summary` the line is `"Found "`, the number
of matches, `" matches across "`, the number of matching files and `" files"`;
`performEnhancedSearch`, which passes the object of `analyzeTextDocuments`, gets
`"Found 2 matches across 1 files"` on the scenario file. -/
theorem performSemanticSearch_no_summary (H : Host) (workspaceFolder : Bool)
    (luaFiles : List WorkspaceFile) (symbols : Option (List JSString))
    (searchQuery : JSString) :
    performSemanticSearch H workspaceFolder luaFiles symbols searchQuery = none ∧
      (∀ fileResults patterns,
        generateAIInsights searchQuery symbols (.fileResults fileResults) patterns = none) ∧
      (∀ (textAnalysis : TextAnalysis) (patterns : Patterns),
        (generateAIInsights searchQuery symbols (.analysis textAnalysis) patterns).map
            (fun insights => insights.summary) =
          some (utf16 "Found " ++ templateValue textAnalysis.summary.totalMatches ++
            utf16 " matches across " ++ templateValue textAnalysis.summary.matchingFiles ++
            utf16 " files")) ∧
      performSemanticSearch asciiHost true [scenarioFile] none scenarioQuery = none ∧
      (performEnhancedSearch asciiHost true [scenarioFile] none scenarioQuery).map
          (fun insights => insights.summary) =
        some (utf16 "Found 2 matches across 1 files") := by
  have hnone : ∀ (H : Host) wf files syms q,
      performSemanticSearch H wf files syms q = none := by
    intro H wf files syms q
    simp only [performSemanticSearch]
    split <;> rfl
  refine ⟨hnone _ _ _ _ _, fun _ _ => rfl, fun _ _ => rfl, hnone _ _ _ _ _, ?_⟩
  decide

/-- C21, code bug. On the array that `performSemanticSearch` passes as `textAnalysis` the
call throws before either gate is reached, whatever the counts: with eleven function hits
and a service hit no recommendation is returned. On an object with a `summary` the gates
are the claimed ones: the recommendations are the modularization message when there are
more than 10 function hits (not at 10), followed by the "Services in use: ..." entry when
there is at least one service hit, and nothing else, and each gate follows the count of
its own category only. -/
theorem generateAIInsights_recommendations_need_summary (query : JSString)
    (symbols : Option (List JSString)) (patterns : Patterns) :
    (∀ fileResults,
        generateAIInsights query symbols (.fileResults fileResults) patterns = none) ∧
      (generateAIInsights scenarioQuery none
          (.fileResults (performFileContentSearch asciiHost true [scenarioFile] scenarioQuery))
          elevenFunctions = none ∧
        elevenFunctions.functions.length = 11 ∧ elevenFunctions.services.length = 1) ∧
      ∀ textAnalysis : TextAnalysis,
        ∃ insights,
          generateAIInsights query symbols (.analysis textAnalysis) patterns = some insights ∧
          insights.recommendations =
            ((if 10 < patterns.functions.length then [modularizationMessage] else []) ++
              if 0 < patterns.services.length then
                [servicesInUse ++
                  join (utf16 ", ")
                    (uniqueInOrder (patterns.services.map fun s => s.name) [])]
              else []) ∧
          (modularizationMessage ∈ insights.recommendations ↔
            10 < patterns.functions.length) ∧
          (patterns.functions.length = 10 →
            modularizationMessage ∉ insights.recommendations) ∧
          ((∃ e ∈ insights.recommendations, startsWith e servicesInUse = true) ↔
            0 < patterns.services.length) ∧
          (∀ e ∈ insights.recommendations,
            e = modularizationMessage ∨ startsWith e servicesInUse = true) ∧
          ∀ query' symbols' (textAnalysis' : TextAnalysis) (patterns' : Patterns) insights',
            generateAIInsights query' symbols' (.analysis textAnalysis') patterns' =
                some insights' →
              (patterns'.functions.length = patterns.functions.length →
                (modularizationMessage ∈ insights'.recommendations ↔
                  modularizationMessage ∈ insights.recommendations)) ∧
              (patterns'.services.length = patterns.services.length →
                ((∃ e ∈ insights'.recommendations, startsWith e servicesInUse = true) ↔
                  ∃ e ∈ insights.recommendations, startsWith e servicesInUse = true)) := by
  refine ⟨fun _ => rfl, ⟨rfl, rfl, rfl⟩, ?_⟩
  intro textAnalysis
  obtain ⟨insights, hins, -, hr, -⟩ :=
    generateAIInsights_analysis query symbols textAnalysis patterns
  refine ⟨insights, hins, hr, ?_, ?_, ?_, ?_, ?_⟩
  · rw [hr]
    exact modularization_gate patterns
  · intro h10 hin
    rw [hr] at hin
    have := (modularization_gate patterns).1 hin
    omega
  · rw [hr]
    exact services_gate patterns
  · intro e he
    rw [hr, List.mem_append] at he
    rcases he with he | he
    · left
      split at he
      · simpa using he
      · simp at he
    · right
      split at he
      · rw [List.mem_singleton] at he
        rw [he]
        exact startsWith_append_self _ _
      · simp at he
  · intro query' symbols' textAnalysis' patterns' insights' h'
    obtain ⟨ins2, hins2, -, hr2, -⟩ :=
      generateAIInsights_analysis query' symbols' textAnalysis' patterns'
    rw [hins2] at h'
    cases h'
    rw [hr, hr2]
    constructor
    · intro h
      rw [modularization_gate, modularization_gate, h]
    · intro h
      rw [services_gate, services_gate, h]

/-- C22. Service list de-duplication: for a non-empty list of service hits, and an object
with a `summary` as `textAnalysis`, the call returns insights whose recommendations hold
the entry `"Services in use: "` followed by names joined with `", "`, and it is the only
entry with that head; the names are exactly the names of the service hits, each once,
ordered by their first occurrence in the hit list. -/
theorem generateAIInsights_services_list (query : JSString)
    (symbols : Option (List JSString)) (textAnalysis : TextAnalysis) (patterns : Patterns)
    (hne : patterns.services ≠ []) :
    ∃ insights,
      generateAIInsights query symbols (.analysis textAnalysis) patterns = some insights ∧
      ∃ names : List JSString,
        servicesInUse ++ join (utf16 ", ") names ∈ insights.recommendations ∧
          (∀ e ∈ insights.recommendations,
            startsWith e servicesInUse = true →
              e = servicesInUse ++ join (utf16 ", ") names) ∧
          join (utf16 ", ") names = List.intercalate (utf16 ", ") names ∧
          (∀ x, x ∈ names ↔ ∃ hit ∈ patterns.services, hit.name = x) ∧
          names.Nodup ∧
          names.Pairwise fun a b =>
            firstIndexOf a (patterns.services.map fun s => s.name) <
              firstIndexOf b (patterns.services.map fun s => s.name) := by
  have hmod : startsWith modularizationMessage servicesInUse = false := by decide
  have hs : 0 < patterns.services.length := List.length_pos.2 hne
  obtain ⟨hmem, hpw⟩ := uniqueInOrder_spec (patterns.services.map fun s => s.name)
  have hjoin : ∀ xs : List JSString,
      join (utf16 ", ") xs = List.intercalate (utf16 ", ") xs := by
    intro xs
    induction xs with
    | nil => rfl
    | cons x rest ih =>
      cases rest with
      | nil => simp [join, List.intercalate]
      | cons y rest =>
        rw [join, ih]
        simp [List.intercalate, List.intersperse]
  obtain ⟨insights, hins, -, hr, -⟩ :=
    generateAIInsights_analysis query symbols textAnalysis patterns
  refine ⟨insights, hins, uniqueInOrder (patterns.services.map fun s => s.name) [], ?_, ?_,
    hjoin _, ?_, ?_, hpw⟩
  · rw [hr]
    simp [hs]
  · intro e he hst
    rw [hr, List.mem_append] at he
    rcases he with he | he
    · split at he
      · rw [List.mem_singleton] at he
        rw [he, hmod] at hst
        exact absurd hst Bool.false_ne_true
      · simp at he
    · simpa [hs] using he
  · intro x
    rw [hmem x, List.mem_map]
  · exact hpw.imp fun h => fun e => by rw [e] at h; exact Nat.lt_irrefl _ h

/-- C22 on the service hits `Players`, `RunService`, `Players`: the entry reads
`"Services in use: Players, RunService"`. -/
theorem generateAIInsights_services_list_witness :
    (generateAIInsights [] none (.analysis ⟨[], ⟨some 1, some 1, some 3⟩⟩)
        ⟨[], [], [⟨utf16 "Players", utf16 "a.lua", utf16 "/ws/a.lua"⟩,
          ⟨utf16 "RunService", utf16 "a.lua", utf16 "/ws/a.lua"⟩,
          ⟨utf16 "Players", utf16 "a.lua", utf16 "/ws/a.lua"⟩], [], []⟩).map
          (fun insights => insights.recommendations) =
        some [utf16 "Services in use: Players, RunService"] ∧
      ∃ insights,
        generateAIInsights [] none (.analysis ⟨[], ⟨some 1, some 1, some 3⟩⟩)
            ⟨[], [], [⟨utf16 "Players", utf16 "a.lua", utf16 "/ws/a.lua"⟩,
              ⟨utf16 "RunService", utf16 "a.lua", utf16 "/ws/a.lua"⟩,
              ⟨utf16 "Players", utf16 "a.lua", utf16 "/ws/a.lua"⟩], [], []⟩ = some insights ∧
          ∃ names : List JSString,
            servicesInUse ++ join (utf16 ", ") names ∈ insights.recommendations ∧
              names.Nodup := by
  refine ⟨by decide, ?_⟩
  obtain ⟨insights, hins, names, h1, -, -, -, h5, -⟩ := generateAIInsights_services_list []
    none ⟨[], ⟨some 1, some 1, some 3⟩⟩
    ⟨[], [], [⟨utf16 "Players", utf16 "a.lua", utf16 "/ws/a.lua"⟩,
      ⟨utf16 "RunService", utf16 "a.lua", utf16 "/ws/a.lua"⟩,
      ⟨utf16 "Players", utf16 "a.lua", utf16 "/ws/a.lua"⟩], [], []⟩ (by decide)
  exact ⟨insights, hins, names, h1, h5⟩

/-- C23, code bug. On the array that `performSemanticSearch` passes as `textAnalysis` the
call throws at the summary line, before the read of `summary.matchingFiles` that would
throw as well, so no opportunity is returned even with an event hit. On an object with a
`summary` the gates are the claimed ones: the opportunities are the core-component message
when `summary.matchingFiles` is a number above 5 (not at 5, not for an undefined count),
followed by the event-driven message when there is at least one event hit, and nothing
else. -/
theorem generateAIInsights_opportunities_need_summary (query : JSString)
    (symbols : Option (List JSString)) (patterns : Patterns) :
    (∀ fileResults,
        generateAIInsights query symbols (.fileResults fileResults) patterns = none) ∧
      (generateAIInsights scenarioQuery none
          (.fileResults (performFileContentSearch asciiHost true [scenarioFile] scenarioQuery))
          elevenFunctions = none ∧
        elevenFunctions.events.length = 1) ∧
      ∀ textAnalysis : TextAnalysis,
        ∃ insights,
          generateAIInsights query symbols (.analysis textAnalysis) patterns = some insights ∧
          insights.opportunities =
            ((if greaterThan textAnalysis.summary.matchingFiles 5 then [coreComponentMessage]
              else []) ++
              if 0 < patterns.events.length then [eventDrivenMessage] else []) ∧
          (coreComponentMessage ∈ insights.opportunities ↔
            ∃ n, textAnalysis.summary.matchingFiles = some n ∧ 5 < n) ∧
          (textAnalysis.summary.matchingFiles = some 5 →
            coreComponentMessage ∉ insights.opportunities) ∧
          (eventDrivenMessage ∈ insights.opportunities ↔ 0 < patterns.events.length) ∧
          ∀ e ∈ insights.opportunities, e = coreComponentMessage ∨ e = eventDrivenMessage := by
  refine ⟨fun _ => rfl, ⟨rfl, rfl⟩, ?_⟩
  intro textAnalysis
  obtain ⟨insights, hins, -, -, ho⟩ :=
    generateAIInsights_analysis query symbols textAnalysis patterns
  have hne : coreComponentMessage ≠ eventDrivenMessage := by decide
  have gate1 : coreComponentMessage ∈ insights.opportunities ↔
      ∃ n, textAnalysis.summary.matchingFiles = some n ∧ 5 < n := by
    rw [ho, ← greaterThan_iff]
    by_cases hg : greaterThan textAnalysis.summary.matchingFiles 5 = true
    · simp [hg]
    · by_cases he : 0 < patterns.events.length
      · simp [hg, he, hne]
      · simp [hg, he]
  refine ⟨insights, hins, ho, gate1, ?_, ?_, ?_⟩
  · intro h5 hin
    obtain ⟨n, hn, hlt⟩ := gate1.1 hin
    rw [h5] at hn
    cases hn
    omega
  · rw [ho]
    by_cases hg : greaterThan textAnalysis.summary.matchingFiles 5 = true
    · by_cases he : 0 < patterns.events.length
      · simp [hg, he]
      · simp [hg, he, hne.symm]
    · by_cases he : 0 < patterns.events.length
      · simp [hg, he]
      · simp [hg, he]
  · intro e he
    rw [ho, List.mem_append] at he
    rcases he with he | he
    · left
      split at he
      · simpa using he
      · simp at he
    · right
      split at he
      · simpa using he
      · simp at he

/-! ## Lemmas on the per-file scan loops -/

theorem filter_readable_cons_none (file : WorkspaceFile) (rest : List WorkspaceFile)
    (h : file.document = none) : (file :: rest).filter readable = rest.filter readable := by
  simp [List.filter_cons, readable, h]

theorem filter_readable_cons_some (file : WorkspaceFile) (rest : List WorkspaceFile)
    (text : JSString) (h : file.document = some text) :
    (file :: rest).filter readable = file :: rest.filter readable := by
  simp [List.filter_cons, readable, h]

theorem filter_readable_insert (front back : List WorkspaceFile) (bad : WorkspaceFile)
    (h : bad.document = none) :
    (front ++ bad :: back).filter readable = (front ++ back).filter readable := by
  simp [List.filter_append, filter_readable_cons_none bad back h]

theorem contentSearchLoop_filter (H : Host) (query : JSString) :
    ∀ (files : List WorkspaceFile) (results : List FileResult),
      contentSearchLoop H query (files.filter readable) results =
        contentSearchLoop H query files results
  | [], _ => rfl
  | file :: rest, results => by
    cases hd : file.document with
    | none =>
      rw [filter_readable_cons_none file rest hd]
      simp only [contentSearchLoop, hd]
      exact contentSearchLoop_filter H query rest results
    | some text =>
      rw [filter_readable_cons_some file rest text hd]
      simp only [contentSearchLoop, hd]
      cases findMatchesInText H.toUpperCase text query with
      | none => exact contentSearchLoop_filter H query rest results
      | some found =>
        simp only
        split
        · exact contentSearchLoop_filter H query rest _
        · exact contentSearchLoop_filter H query rest results

theorem textUsagesLoop_filter (H : Host) (extname : JSString → JSString)
    (searchTerm : JSString) :
    ∀ (files : List WorkspaceFile) (usages : List TextUsage),
      textUsagesLoop H extname searchTerm (files.filter readable) usages =
        textUsagesLoop H extname searchTerm files usages
  | [], _ => rfl
  | file :: rest, usages => by
    cases hd : file.document with
    | none =>
      rw [filter_readable_cons_none file rest hd]
      simp only [textUsagesLoop, hd]
      exact textUsagesLoop_filter H extname searchTerm rest usages
    | some text =>
      rw [filter_readable_cons_some file rest text hd]
      simp only [textUsagesLoop, hd]
      cases findMatchesInText H.toUpperCase text searchTerm with
      | none => exact textUsagesLoop_filter H extname searchTerm rest usages
      | some found =>
        simp only
        split
        · exact textUsagesLoop_filter H extname searchTerm rest _
        · exact textUsagesLoop_filter H extname searchTerm rest usages

theorem textDocumentsLoop_filter (H : Host) (query : JSString) :
    ∀ (files : List WorkspaceFile) (analysis : TextAnalysis),
      textDocumentsLoop H query (files.filter readable) analysis =
        textDocumentsLoop H query files analysis
  | [], _ => rfl
  | file :: rest, analysis => by
    cases hd : file.document with
    | none =>
      rw [filter_readable_cons_none file rest hd]
      simp only [textDocumentsLoop, hd]
      exact textDocumentsLoop_filter H query rest analysis
    | some text =>
      rw [filter_readable_cons_some file rest text hd]
      simp only [textDocumentsLoop, hd]
      cases findMatchesInText H.toUpperCase text query with
      | none => exact textDocumentsLoop_filter H query rest analysis
      | some found =>
        simp only
        split
        · exact textDocumentsLoop_filter H query rest _
        · exact textDocumentsLoop_filter H query rest analysis

theorem forFiles_filter (H : Host) (query : JSString) :
    ∀ (files : List WorkspaceFile) (sps : List SearchPattern) (patterns : Patterns),
      forFiles H query (files.filter readable) sps patterns =
        forFiles H query files sps patterns
  | [], _, _ => rfl
  | file :: rest, sps, patterns => by
    cases hd : file.document with
    | none =>
      rw [filter_readable_cons_none file rest hd]
      have hscan : scanFile H query sps patterns file = some (sps, patterns) := by
        simp [scanFile, hd]
      simp only [forFiles, hscan]
      exact forFiles_filter H query rest sps patterns
    | some text =>
      rw [filter_readable_cons_some file rest text hd]
      simp only [forFiles]
      cases scanFile H query sps patterns file with
      | none => rfl
      | some r => exact forFiles_filter H query rest r.1 r.2

theorem findMatchesInText_length_le (U : JSString → JSString) (text query : JSString)
    (found : List MatchRecord) (h : findMatchesInText U text query = some found) :
    found.length ≤ (splitLF text).length := by
  rw [findMatchesInText_eq] at h
  simp only [Option.some.injEq] at h
  rw [← h]
  exact forEachLine_length_le U _ _ 0 _

theorem textDocumentsLoop_spec (H : Host) (query : JSString) :
    ∀ rest : List WorkspaceFile, ∃ entries : List FileEntry,
      (∀ e ∈ entries, 1 ≤ e.matches_ ∧ e.matches_ ≤ e.lines) ∧
      List.Sublist (entries.map fun e => e.path) (rest.map fun f => f.fsPath) ∧
      ∀ analysis : TextAnalysis,
        (textDocumentsLoop H query rest analysis).files = analysis.files ++ entries ∧
        (textDocumentsLoop H query rest analysis).summary.totalFiles =
          analysis.summary.totalFiles ∧
        (textDocumentsLoop H query rest analysis).summary.matchingFiles =
          analysis.summary.matchingFiles.map (fun n => n + entries.length) ∧
        (textDocumentsLoop H query rest analysis).summary.totalMatches =
          analysis.summary.totalMatches.map
            (fun n => n + (entries.map fun e => e.matches_).sum)
  | [] => ⟨[], by simp, by simp, fun analysis => by
      cases h1 : analysis.summary.matchingFiles <;> cases h2 : analysis.summary.totalMatches <;>
        simp [textDocumentsLoop, h1, h2]⟩
  | file :: rest => by
    obtain ⟨entries, i1, i2, i3⟩ := textDocumentsLoop_spec H query rest
    have skip : (∀ analysis, textDocumentsLoop H query (file :: rest) analysis =
        textDocumentsLoop H query rest analysis) →
        ∃ entries : List FileEntry,
          (∀ e ∈ entries, 1 ≤ e.matches_ ∧ e.matches_ ≤ e.lines) ∧
          List.Sublist (entries.map fun e => e.path) ((file :: rest).map fun f => f.fsPath) ∧
          ∀ analysis : TextAnalysis,
            (textDocumentsLoop H query (file :: rest) analysis).files =
              analysis.files ++ entries ∧
            (textDocumentsLoop H query (file :: rest) analysis).summary.totalFiles =
              analysis.summary.totalFiles ∧
            (textDocumentsLoop H query (file :: rest) analysis).summary.matchingFiles =
              analysis.summary.matchingFiles.map (fun n => n + entries.length) ∧
            (textDocumentsLoop H query (file :: rest) analysis).summary.totalMatches =
              analysis.summary.totalMatches.map
                (fun n => n + (entries.map fun e => e.matches_).sum) := by
      intro h
      refine ⟨entries, i1, ?_, ?_⟩
      · exact List.Sublist.cons _ i2
      · intro analysis
        rw [h analysis]
        exact i3 analysis
    cases hd : file.document with
    | none =>
      apply skip
      intro analysis
      simp only [textDocumentsLoop, hd]
    | some text =>
      cases hf : findMatchesInText H.toUpperCase text query with
      | none =>
        apply skip
        intro analysis
        simp only [textDocumentsLoop, hd, hf]
      | some found =>
        by_cases hpos : 0 < found.length
        · refine ⟨(⟨file.fsPath, H.basename file.fsPath, found.length, text.length,
            (splitLF text).length⟩ : FileEntry) :: entries, ?_, ?_, ?_⟩
          · intro e he
            rcases List.mem_cons.1 he with he | he
            · subst he
              exact ⟨hpos, findMatchesInText_length_le _ _ _ _ hf⟩
            · exact i1 e he
          · simp only [List.map_cons]
            exact List.Sublist.cons₂ _ i2
          · intro analysis
            simp only [textDocumentsLoop, hd, hf, hpos, if_true]
            obtain ⟨j1, j2, j3, j4⟩ := i3
              ⟨analysis.files ++ [⟨file.fsPath, H.basename file.fsPath, found.length,
                  text.length, (splitLF text).length⟩],
                ⟨analysis.summary.totalFiles,
                  analysis.summary.matchingFiles.map fun n => n + 1,
                  analysis.summary.totalMatches.map fun n => n + found.length⟩⟩
            refine ⟨?_, j2, ?_, ?_⟩
            · rw [j1]
              simp
            · rw [j3]
              cases analysis.summary.matchingFiles with
              | none => rfl
              | some n =>
                simp only [Option.map_some', List.length_cons, Option.some.injEq]
                omega
            · rw [j4]
              cases analysis.summary.totalMatches with
              | none => rfl
              | some n =>
                simp only [Option.map_some', List.map_cons, List.sum_cons, Option.some.injEq]
                omega
        · apply skip
          intro analysis
          simp only [textDocumentsLoop, hd, hf, hpos, if_false]

theorem length_le_sum_matches :
    ∀ entries : List FileEntry, (∀ e ∈ entries, 1 ≤ e.matches_) →
      entries.length ≤ (entries.map fun e => e.matches_).sum
  | [], _ => by simp
  | e :: rest, h => by
    have h1 := h e (by simp)
    have h2 := length_le_sum_matches rest fun e' he' => h e' (by simp [he'])
    simp only [List.length_cons, List.map_cons, List.sum_cons]
    omega

theorem analyzeTextDocuments_spec (H : Host) (luaFiles : List WorkspaceFile)
    (query : JSString) :
    ∃ entries : List FileEntry,
      (∀ e ∈ entries, 1 ≤ e.matches_ ∧ e.matches_ ≤ e.lines) ∧
      List.Sublist (entries.map fun e => e.path) (luaFiles.map fun f => f.fsPath) ∧
      (∀ total : Option Nat,
        (textDocumentsLoop H query luaFiles ⟨[], ⟨total, some 0, some 0⟩⟩).files = entries ∧
        (textDocumentsLoop H query luaFiles ⟨[], ⟨total, some 0, some 0⟩⟩).summary.totalFiles =
          total ∧
        (textDocumentsLoop H query luaFiles ⟨[], ⟨total, some 0, some 0⟩⟩).summary.matchingFiles =
          some entries.length ∧
        (textDocumentsLoop H query luaFiles ⟨[], ⟨total, some 0, some 0⟩⟩).summary.totalMatches =
          some (entries.map fun e => e.matches_).sum) := by
  obtain ⟨entries, i1, i2, i3⟩ := textDocumentsLoop_spec H query luaFiles
  refine ⟨entries, i1, i2, ?_⟩
  intro total'
  obtain ⟨j1, j2, j3, j4⟩ := i3 ⟨[], ⟨total', some 0, some 0⟩⟩
  refine ⟨by simpa using j1, j2, ?_, ?_⟩
  · rw [j3]
    simp
  · rw [j4]
    simp

/-! ## Claims on the per-file scan loops -/

/-- C24. Unreadable documents are skipped, not fatal: for `performFileContentSearch`,
`findTextUsages`, the `files`, `matchingFiles` and `totalMatches` of
`analyzeTextDocuments`, and `findCodePatterns`, the result over a list of files is the
result over the list without the files that cannot be opened; in particular an unreadable
file anywhere in the list changes nothing for the files before and after it. -/
theorem scan_loops_skip_unreadable (H : Host) (extname : JSString → JSString) (wf : Bool)
    (query : JSString) :
    (∀ files : List WorkspaceFile,
      performFileContentSearch H wf (files.filter readable) query =
          performFileContentSearch H wf files query ∧
        findTextUsages H extname wf (files.filter readable) query =
          findTextUsages H extname wf files query ∧
        (analyzeTextDocuments H wf (files.filter readable) query).files =
          (analyzeTextDocuments H wf files query).files ∧
        (analyzeTextDocuments H wf (files.filter readable) query).summary.matchingFiles =
          (analyzeTextDocuments H wf files query).summary.matchingFiles ∧
        (analyzeTextDocuments H wf (files.filter readable) query).summary.totalMatches =
          (analyzeTextDocuments H wf files query).summary.totalMatches ∧
        findCodePatterns H query wf (files.filter readable) =
          findCodePatterns H query wf files) ∧
      ∀ (front back : List WorkspaceFile) (bad : WorkspaceFile), bad.document = none →
        performFileContentSearch H wf (front ++ bad :: back) query =
            performFileContentSearch H wf (front ++ back) query ∧
          findTextUsages H extname wf (front ++ bad :: back) query =
            findTextUsages H extname wf (front ++ back) query ∧
          (analyzeTextDocuments H wf (front ++ bad :: back) query).files =
            (analyzeTextDocuments H wf (front ++ back) query).files ∧
          (analyzeTextDocuments H wf (front ++ bad :: back) query).summary.matchingFiles =
            (analyzeTextDocuments H wf (front ++ back) query).summary.matchingFiles ∧
          (analyzeTextDocuments H wf (front ++ bad :: back) query).summary.totalMatches =
            (analyzeTextDocuments H wf (front ++ back) query).summary.totalMatches ∧
          findCodePatterns H query wf (front ++ bad :: back) =
            findCodePatterns H query wf (front ++ back) := by
  have main : ∀ files : List WorkspaceFile,
      performFileContentSearch H wf (files.filter readable) query =
          performFileContentSearch H wf files query ∧
        findTextUsages H extname wf (files.filter readable) query =
          findTextUsages H extname wf files query ∧
        (analyzeTextDocuments H wf (files.filter readable) query).files =
          (analyzeTextDocuments H wf files query).files ∧
        (analyzeTextDocuments H wf (files.filter readable) query).summary.matchingFiles =
          (analyzeTextDocuments H wf files query).summary.matchingFiles ∧
        (analyzeTextDocuments H wf (files.filter readable) query).summary.totalMatches =
          (analyzeTextDocuments H wf files query).summary.totalMatches ∧
        findCodePatterns H query wf (files.filter readable) =
          findCodePatterns H query wf files := by
    intro files
    cases wf with
    | false => exact ⟨rfl, rfl, rfl, rfl, rfl, rfl⟩
    | true =>
      obtain ⟨entries, -, -, i3⟩ := analyzeTextDocuments_spec H files query
      obtain ⟨a1, -, a3, a4⟩ := i3 (some (files.filter readable).length)
      obtain ⟨b1, -, b3, b4⟩ := i3 (some files.length)
      have hloop : ∀ total, textDocumentsLoop H query (files.filter readable)
          ⟨[], ⟨total, some 0, some 0⟩⟩ =
          textDocumentsLoop H query files ⟨[], ⟨total, some 0, some 0⟩⟩ :=
        fun total => textDocumentsLoop_filter H query files _
      refine ⟨?_, ?_, ?_, ?_, ?_, ?_⟩
      · simp only [performFileContentSearch, Bool.not_true, Bool.false_eq_true, if_false]
        exact contentSearchLoop_filter H query files []
      · simp only [findTextUsages, Bool.not_true, Bool.false_eq_true, if_false]
        exact textUsagesLoop_filter H extname query files []
      · simp only [analyzeTextDocuments, Bool.not_true, Bool.false_eq_true, if_false]
        rw [hloop, a1, b1]
      · simp only [analyzeTextDocuments, Bool.not_true, Bool.false_eq_true, if_false]
        rw [hloop, a3, b3]
      · simp only [analyzeTextDocuments, Bool.not_true, Bool.false_eq_true, if_false]
        rw [hloop, a4, b4]
      · simp only [findCodePatterns, Bool.not_true, Bool.false_eq_true, if_false]
        rw [forFiles_filter]
  refine ⟨main, ?_⟩
  intro front back bad hbad
  obtain ⟨p1, p2, p3, p4, p5, p6⟩ := main (front ++ bad :: back)
  obtain ⟨q1, q2, q3, q4, q5, q6⟩ := main (front ++ back)
  rw [filter_readable_insert front back bad hbad] at p1 p2 p3 p4 p5 p6
  exact ⟨p1.symm.trans q1, p2.symm.trans q2, p3.symm.trans q3, p4.symm.trans q4,
    p5.symm.trans q5, p6.symm.trans q6⟩

set_option maxRecDepth 100000 in
/-- C24 on the scenario file between two files that cannot be opened. -/
theorem scan_loops_skip_unreadable_witness :
    (⟨utf16 "/ws/bad.lua", none⟩ : WorkspaceFile).document = none ∧
      performFileContentSearch asciiHost true
          ([scenarioFile] ++ ⟨utf16 "/ws/bad.lua", none⟩ :: [⟨utf16 "/ws/c.lua",
            some twoLocalsText⟩]) scenarioQuery =
        performFileContentSearch asciiHost true
          ([scenarioFile] ++ [⟨utf16 "/ws/c.lua", some twoLocalsText⟩]) scenarioQuery ∧
      (performFileContentSearch asciiHost true
          ([scenarioFile] ++ ⟨utf16 "/ws/bad.lua", none⟩ :: [⟨utf16 "/ws/c.lua",
            some twoLocalsText⟩]) scenarioQuery).map (fun r => r.fileName) =
        [utf16 "Score.lua", utf16 "c.lua"] :=
  ⟨rfl, ((scan_loops_skip_unreadable asciiHost (fun p => p) true scenarioQuery).2
    [scenarioFile] [⟨utf16 "/ws/c.lua", some twoLocalsText⟩] ⟨utf16 "/ws/bad.lua", none⟩
    rfl).1, by decide⟩

/-- C29. Summary consistency of `analyzeTextDocuments` with a workspace folder open:
`matchingFiles` is the number of listed files and at most `totalFiles`, which is the
number of files scanned; `totalMatches` is the sum of the `matches` of the listed files;
every listed file has at least one match and at most as many matches as lines, so
`totalMatches` is at least `matchingFiles`; the listed paths follow the input order.
Without a workspace folder no document is listed or scanned and `summary` is `{}`. -/
theorem analyzeTextDocuments_summary_consistent (H : Host) (luaFiles : List WorkspaceFile)
    (query : JSString) :
    (analyzeTextDocuments H true luaFiles query).summary.matchingFiles =
        some (analyzeTextDocuments H true luaFiles query).files.length ∧
      (analyzeTextDocuments H true luaFiles query).summary.totalFiles =
        some luaFiles.length ∧
      (analyzeTextDocuments H true luaFiles query).files.length ≤ luaFiles.length ∧
      (analyzeTextDocuments H true luaFiles query).summary.totalMatches =
        some ((analyzeTextDocuments H true luaFiles query).files.map fun e => e.matches_).sum ∧
      (∀ e ∈ (analyzeTextDocuments H true luaFiles query).files,
        1 ≤ e.matches_ ∧ e.matches_ ≤ e.lines) ∧
      (analyzeTextDocuments H true luaFiles query).files.length ≤
        ((analyzeTextDocuments H true luaFiles query).files.map fun e => e.matches_).sum ∧
      List.Sublist ((analyzeTextDocuments H true luaFiles query).files.map fun e => e.path)
        (luaFiles.map fun f => f.fsPath) ∧
      analyzeTextDocuments H false luaFiles query =
        { files := [], summary := ⟨none, none, none⟩ } := by
  refine and_assoc.1 (and_assoc.1 (and_assoc.1 (and_assoc.1 (and_assoc.1 (and_assoc.1
    ⟨?_, rfl⟩)))))
  simp only [and_assoc]
  obtain ⟨entries, i1, i2, i3⟩ := analyzeTextDocuments_spec H luaFiles query
  obtain ⟨a1, a2, a3, a4⟩ := i3 (some luaFiles.length)
  have hdef : analyzeTextDocuments H true luaFiles query =
      textDocumentsLoop H query luaFiles ⟨[], ⟨some luaFiles.length, some 0, some 0⟩⟩ := rfl
  rw [hdef, a1, a2, a3, a4]
  refine ⟨rfl, rfl, ?_, rfl, i1, length_le_sum_matches entries fun e he => (i1 e he).1, i2⟩
  have := i2.length_le
  simpa using this

/-! ## Claims on keyword counting -/

theorem findCommonPatterns_mem (contexts : List JSString) :
    ∀ e ∈ findCommonPatterns contexts, e.pattern ∈ commonWords ∧
      e.count = contexts.countP (fun c => includes c e.pattern) ∧ 1 ≤ e.count := by
  intro e he
  obtain ⟨-, -, t3⟩ := tally_spec contexts
  rw [findCommonPatterns_eq, List.mem_map] at he
  obtain ⟨x, hx, rfl⟩ := he
  have h1 := (List.perm_insertionSort countGE (forEachContext contexts [])).mem_iff.1
    (List.mem_of_mem_take hx)
  exact (t3 x.1 x.2).1 h1

theorem countOccurrences_pos (w : JSString) :
    ∀ s : JSString, includes s w = true → 1 ≤ countOccurrences w s
  | [], h => by
    cases w with
    | nil => simp [countOccurrences, startsWith]
    | cons a w => simp [includes] at h
  | c :: cs, h => by
    by_cases hs : startsWith (c :: cs) w = true
    · simp [countOccurrences, hs]
    · have hs' : startsWith (c :: cs) w = false := by simpa using hs
      simp only [includes, hs', Bool.false_or] at h
      have := countOccurrences_pos w cs h
      simp only [countOccurrences]
      omega

theorem countP_le_sum_occurrences (w : JSString) :
    ∀ lines : List JSString,
      lines.countP (fun ln => includes ln w) ≤ (lines.map (countOccurrences w)).sum
  | [] => by simp
  | ln :: rest => by
    have ih := countP_le_sum_occurrences w rest
    by_cases h : includes ln w = true
    · have := countOccurrences_pos w ln h
      simp only [List.countP_cons, h, if_true, List.map_cons, List.sum_cons]
      omega
    · simp only [List.countP_cons, h, if_false, Bool.false_eq_true, List.map_cons,
        List.sum_cons]
      omega

/-- C26, counterexample. One matched line `"END end"`: the keyword `end` occurs twice in
the lower-cased line, and the count reported for it is 1. -/
theorem analyzeUsagePatterns_count_not_occurrences :
    (analyzeUsagePatterns asciiHost none
        [⟨utf16 "/ws/a.lua", [recordOf 1 "END end"], utf16 ".lua"⟩] (utf16 "end")).patterns =
        [⟨utf16 "end", 1⟩] ∧
      countOccurrences (utf16 "end") (asciiHost.toLowerCase (utf16 "END end")) = 2 := by
  decide

/-- C26, amended. For every keyword returned in `patterns` by `analyzeUsagePatterns`, the
count is the number of lower-cased matched lines that contain the keyword, a line counting
once however often the keyword occurs in it; so the count is at most the total number of
occurrences. -/
theorem analyzeUsagePatterns_counts_lines (H : Host) (references : Option (List Location))
    (textUsages : List TextUsage) (searchTerm : JSString) :
    ∀ e ∈ (analyzeUsagePatterns H references textUsages searchTerm).patterns,
      e.pattern ∈ commonWords ∧
        e.count = (((textUsages.flatMap fun usage => usage.matches_).map
          fun m => H.toLowerCase m.text).countP fun ln => includes ln e.pattern) ∧
        e.count ≤ (((textUsages.flatMap fun usage => usage.matches_).map
          fun m => H.toLowerCase m.text).map (countOccurrences e.pattern)).sum := by
  intro e he
  have he' : e ∈ findCommonPatterns ((textUsages.flatMap fun usage => usage.matches_).map
      fun m => H.toLowerCase m.text) := he
  obtain ⟨h1, h2, -⟩ := findCommonPatterns_mem _ e he'
  refine ⟨h1, h2, ?_⟩
  rw [h2]
  exact countP_le_sum_occurrences _ _

/-- C26, amended, on the matched line `"END end"`: the entry for `end` has count 1, the
number of lines containing it, below the 2 occurrences. -/
theorem analyzeUsagePatterns_counts_lines_witness :
    (⟨utf16 "end", 1⟩ : CommonPattern) ∈ (analyzeUsagePatterns asciiHost none
        [⟨utf16 "/ws/a.lua", [recordOf 1 "END end"], utf16 ".lua"⟩] (utf16 "end")).patterns ∧
      (⟨utf16 "end", 1⟩ : CommonPattern).count =
        ((([⟨utf16 "/ws/a.lua", [recordOf 1 "END end"], utf16 ".lua"⟩] : List TextUsage).flatMap
          fun usage => usage.matches_).map
            fun m => asciiHost.toLowerCase m.text).countP
              fun ln => includes ln (⟨utf16 "end", 1⟩ : CommonPattern).pattern :=
  ⟨by decide, (analyzeUsagePatterns_counts_lines asciiHost none
    [⟨utf16 "/ws/a.lua", [recordOf 1 "END end"], utf16 ".lua"⟩] (utf16 "end")
    ⟨utf16 "end", 1⟩ (by decide)).2.1⟩

/-! ## Lemmas on termination and on the unchecked extraction -/

theorem whileExec_mono (H : Host) (query : JSString) (file : WorkspaceFile) (text : JSString)
    (type : PatternType) :
    ∀ (fuel : Nat) (re : RegExp) (patterns : Patterns) (r : Bool × RegExp × Patterns),
      whileExec H query file text type fuel re patterns = some r →
        whileExec H query file text type (fuel + 1) re patterns = some r
  | 0, _, _, _, h => by simp [whileExec] at h
  | fuel + 1, re, patterns, r, h => by
    rw [whileExec] at h ⊢
    rcases hx : re.exec H.toUpperCase text with ⟨o, re'⟩
    rw [hx] at h
    cases o with
    | none => exact h
    | some m =>
      simp only at h ⊢
      cases hg : m.group1 with
      | none =>
        rw [hg] at h
        exact h
      | some name =>
        rw [hg] at h
        simp only at h ⊢
        split
        · rename_i hp
          rw [if_pos hp] at h
          exact whileExec_mono H query file text type fuel re' _ r h
        · rename_i hp
          rw [if_neg hp] at h
          exact whileExec_mono H query file text type fuel re' _ r h

theorem whileExec_enough_fuel (H : Host) (query : JSString) (file : WorkspaceFile)
    (text : JSString) (sp : SearchPattern) (hgood : GoodRule sp) (patterns : Patterns) :
    ∃ ps, ∀ fuel, text.length + 2 ≤ fuel →
      whileExec H query file text sp.type fuel sp.regex patterns = some (false, sp.regex, ps) := by
  obtain ⟨g1, g2, g3, g4⟩ := hgood
  obtain ⟨ps, h1, -⟩ := whileExec_spec H query file text sp.type (text.length + 2) sp.regex
    patterns g1 g3 g4 (by omega)
  have hre : (⟨sp.regex.nodes, sp.regex.ignoreCase, true, 0⟩ : RegExp) = sp.regex := by
    cases hr : sp.regex with
    | mk nodes ic g li =>
      rw [hr] at g1 g2
      simp only at g1 g2
      simp [g1, g2]
  rw [hre] at h1
  refine ⟨ps, ?_⟩
  have step : ∀ k, whileExec H query file text sp.type (text.length + 2 + k) sp.regex patterns =
      some (false, sp.regex, ps) := by
    intro k
    induction k with
    | zero => exact h1
    | succ k ih => exact whileExec_mono H query file text sp.type _ _ _ _ ih
  intro fuel hfuel
  have := step (fuel - (text.length + 2))
  rwa [Nat.add_sub_cancel' hfuel] at this

theorem allMatches_progress (U : JSString → JSString) (text : JSString) :
    ∀ (fuel : Nat) (re : RegExp), re.global = true → 1 ≤ minLen re.nodes →
      ∀ m ∈ allMatches U text fuel re, m.index < m.stop ∧ m.stop ≤ text.length
  | 0, _, _, _, m, hm => by simp [allMatches] at hm
  | fuel + 1, re, hg, hmin, m, hm => by
    rcases hx : re.exec U text with ⟨o, re'⟩
    cases o with
    | none => simp [allMatches, hx] at hm
    | some m0 =>
      obtain ⟨e1, -, e3, e4, -⟩ := exec_global_some _ _ _ _ _ hg hx
      subst e1
      simp only [allMatches, hx, List.mem_cons] at hm
      rcases hm with hm | hm
      · subst hm
        exact ⟨by omega, e4⟩
      · exact allMatches_progress U text fuel ⟨re.nodes, re.ignoreCase, true, m0.stop⟩ rfl hmin
          m hm

theorem Patterns.ext_get (p q : Patterns) (h : ∀ t, p.get t = q.get t) : p = q := by
  have h1 := h .functions
  have h2 := h .variables_
  have h3 := h .services
  have h4 := h .events
  have h5 := h .structures
  cases p
  cases q
  simp only [Patterns.get] at h1 h2 h3 h4 h5
  simp [h1, h2, h3, h4, h5]

theorem hitsInText_eq_nil (H : Host) (hL : LowerFaithful H) (query : JSString)
    (file : WorkspaceFile) (text : JSString)
    (hp : includes (H.toLowerCase text) (H.toLowerCase query) = false)
    (sp : SearchPattern) (hsp : sp ∈ searchPatterns) : hitsInText H query file text sp = [] := by
  simp only [hitsInText, List.map_eq_nil_iff, List.filter_eq_nil_iff]
  intro name hname hinc
  obtain ⟨hsub, hword⟩ := captures_spec H sp.regex text name hname
  have hw := (hword (wordCapture_searchPatterns sp hsp)).2
  have := includes_lower_of_capture hL query text name hsub
    (fun c hc => isWordChar_lt (hw c hc)) hinc
  rw [hp] at this
  exact Bool.false_ne_true this

theorem scanFileUnchecked_eq (H : Host) (hL : LowerFaithful H) (query : JSString)
    (patterns : Patterns) (file : WorkspaceFile) :
    scanFileUnchecked H query searchPatterns patterns file =
      scanFile H query searchPatterns patterns file := by
  cases hd : file.document with
  | none => simp [scanFileUnchecked, scanFile, hd]
  | some text =>
    by_cases hp : includes (H.toLowerCase text) (H.toLowerCase query) = true
    · simp [scanFileUnchecked, scanFile, hd, hp]
    · have hp' : includes (H.toLowerCase text) (H.toLowerCase query) = false := by
        simpa using hp
      obtain ⟨ps, h1, h2⟩ := forEachPattern_spec H query file text searchPatterns patterns
        goodRule_searchPatterns
      have hps : ps = patterns := by
        apply Patterns.ext_get
        intro t
        rw [h2 t]
        have : ((searchPatterns.filter fun sp => sp.type = t).flatMap
            (hitsInText H query file text)) = [] := by
          rw [List.flatMap_eq_nil_iff]
          intro sp hsp
          exact hitsInText_eq_nil H hL query file text hp' sp (List.mem_of_mem_filter hsp)
        rw [this, List.append_nil]
      simp [scanFileUnchecked, scanFile, hd, hp', h1, hps]

theorem forFilesUnchecked_eq (H : Host) (hL : LowerFaithful H) (query : JSString) :
    ∀ (files : List WorkspaceFile) (patterns : Patterns),
      forFilesUnchecked H query files searchPatterns patterns =
        forFiles H query files searchPatterns patterns
  | [], _ => rfl
  | file :: rest, patterns => by
    obtain ⟨ps, h1, -⟩ := scanFile_spec H query searchPatterns patterns file
      goodRule_searchPatterns
    simp only [forFilesUnchecked, forFiles, scanFileUnchecked_eq H hL, h1]
    exact forFilesUnchecked_eq H hL query rest ps

/-! ## Claims on termination and on the whole-document check -/

/-- C27. Extraction is total: `findCodePatterns` returns a `patterns` object, with its
five arrays, for every query and file list; after any list of files the five rules are
unchanged, so every document is scanned from position 0; for each rule the
`while (regex.exec(text))` loop ends, on every text, with the same result for every fuel
from `text.length + 2` on, because each match consumes at least one code unit, ends inside
the text and starts no earlier than the previous match ended. -/
theorem findCodePatterns_total (H : Host) (query : JSString) :
    (∀ wf files, ∃ ps, findCodePatterns H query wf files = some ps ∧
        ps = ⟨ps.functions, ps.variables_, ps.services, ps.events, ps.structures⟩) ∧
      (∀ files patterns, ∃ ps,
        forFiles H query files searchPatterns patterns = some (searchPatterns, ps)) ∧
      ∀ sp ∈ searchPatterns, sp.regex.lastIndex = 0 ∧ 1 ≤ minLen sp.regex.nodes ∧
        (∀ file text patterns, ∃ ps, ∀ fuel, text.length + 2 ≤ fuel →
          whileExec H query file text sp.type fuel sp.regex patterns =
            some (false, sp.regex, ps)) ∧
        ∀ text fuel,
          (∀ m ∈ allMatches H.toUpperCase text fuel sp.regex,
            m.index < m.stop ∧ m.stop ≤ text.length) ∧
          (allMatches H.toUpperCase text fuel sp.regex).Pairwise
            fun a b => a.stop ≤ b.index := by
  refine ⟨?_, ?_, ?_⟩
  · intro wf files
    cases wf with
    | false => exact ⟨Patterns.empty, rfl, rfl⟩
    | true =>
      obtain ⟨ps, h1, -⟩ := findCodePatterns_spec H query files
      exact ⟨ps, h1, rfl⟩
  · intro files patterns
    obtain ⟨ps, h1, -⟩ := forFiles_spec H query searchPatterns goodRule_searchPatterns files
      patterns
    exact ⟨ps, h1⟩
  · intro sp hsp
    obtain ⟨g1, g2, g3, g4⟩ := goodRule_searchPatterns sp hsp
    refine ⟨g2, g3, ?_, ?_⟩
    · intro file text patterns
      exact whileExec_enough_fuel H query file text sp ⟨g1, g2, g3, g4⟩ patterns
    · intro text fuel
      exact ⟨allMatches_progress H.toUpperCase text fuel sp.regex g1 g3,
        (allMatches_pairwise H.toUpperCase text fuel sp.regex g1).2⟩

/-- C27 at the ASCII host: the `functions` rule on the scenario document, with fuel 1000. -/
theorem findCodePatterns_total_witness :
    searchPatterns.get ⟨0, by decide⟩ ∈ searchPatterns ∧
      scenarioText.length + 2 ≤ 1000 ∧
      ∃ ps, whileExec asciiHost scenarioQuery scenarioFile scenarioText
        (searchPatterns.get ⟨0, by decide⟩).type 1000
        (searchPatterns.get ⟨0, by decide⟩).regex Patterns.empty =
          some (false, (searchPatterns.get ⟨0, by decide⟩).regex, ps) := by
  refine ⟨List.get_mem _ _ _, by decide, ?_⟩
  obtain ⟨ps, h⟩ := ((findCodePatterns_total asciiHost scenarioQuery).2.2
    (searchPatterns.get ⟨0, by decide⟩) (List.get_mem _ _ _)).2.2.1 scenarioFile scenarioText
    Patterns.empty
  exact ⟨ps, h 1000 (by decide)⟩

/-- C28. The whole-document check is redundant: with a host that lower-cases ASCII the
ASCII way and independently of the neighbours, `findCodePatterns` returns what the
extraction without the check `text.toLowerCase().includes(query.toLowerCase())` returns,
for every query and file list. -/
theorem findCodePatterns_prefilter_redundant (H : Host) (hL : LowerFaithful H)
    (query : JSString) (wf : Bool) (files : List WorkspaceFile) :
    findCodePatternsUnchecked H query wf files = findCodePatterns H query wf files ∧
      ∃ ps, findCodePatterns H query wf files = some ps := by
  constructor
  · cases wf with
    | false => rfl
    | true =>
      simp only [findCodePatternsUnchecked, findCodePatterns, forFilesUnchecked_eq H hL]
  · cases wf with
    | false => exact ⟨Patterns.empty, rfl⟩
    | true =>
      obtain ⟨ps, h1, -⟩ := findCodePatterns_spec H query files
      exact ⟨ps, h1⟩

/-- C28 at the ASCII host: the scenario file with the query `"health"`, which the check
rejects, and with the query `"score"`, which it lets through. -/
theorem findCodePatterns_prefilter_redundant_witness :
    LowerFaithful asciiHost ∧
      findCodePatternsUnchecked asciiHost (utf16 "health") true [scenarioFile] =
        findCodePatterns asciiHost (utf16 "health") true [scenarioFile] ∧
      findCodePatternsUnchecked asciiHost scenarioQuery true [scenarioFile] =
        findCodePatterns asciiHost scenarioQuery true [scenarioFile] :=
  ⟨lowerFaithful_asciiHost,
    (findCodePatterns_prefilter_redundant asciiHost lowerFaithful_asciiHost (utf16 "health")
      true [scenarioFile]).1,
    (findCodePatterns_prefilter_redundant asciiHost lowerFaithful_asciiHost scenarioQuery
      true [scenarioFile]).1⟩

/-! ## Lemmas on the service-name validator -/

theorem tryCountsAt_iff (rest : Nat → JSString → Bool) (pos : Nat) (s : JSString) (lo : Nat) :
    ∀ k : Nat, tryCountsAt rest pos s lo k = true ↔
      ∃ j, lo ≤ j ∧ j ≤ k ∧ rest (pos + j) (s.drop j) = true
  | 0 => by
    simp only [tryCountsAt, Bool.and_eq_true, decide_eq_true_eq]
    constructor
    · rintro ⟨h0, h⟩
      exact ⟨0, by omega, le_refl _, by simpa using h⟩
    · rintro ⟨j, h1, h2, h3⟩
      have hj : j = 0 := by omega
      subst hj
      exact ⟨by omega, by simpa using h3⟩
  | k + 1 => by
    by_cases hlt : k + 1 < lo
    · simp only [tryCountsAt, hlt, if_true, Bool.false_eq_true, false_iff]
      rintro ⟨j, h1, h2, -⟩
      omega
    · simp only [tryCountsAt, hlt, if_false, Bool.or_eq_true, tryCountsAt_iff rest pos s lo k]
      constructor
      · rintro (h | ⟨j, h1, h2, h3⟩)
        · exact ⟨k + 1, by omega, le_refl _, h⟩
        · exact ⟨j, h1, by omega, h3⟩
      · rintro ⟨j, h1, h2, h3⟩
        by_cases hj : j = k + 1
        · subst hj
          exact Or.inl h3
        · exact Or.inr ⟨j, h1, by omega, h3⟩

theorem testFrom_lineStart (items : List Item) :
    ∀ (s : JSString) (pos : Nat), 1 ≤ pos → testFrom (.lineStart :: items) pos s = false
  | [], pos, h => by
    have : ¬ pos = 0 := by omega
    simp [testFrom, matchItems, this]
  | c :: cs, pos, h => by
    have : ¬ pos = 0 := by omega
    simp [testFrom, matchItems, this, testFrom_lineStart items cs (pos + 1) (by omega)]

theorem serviceNamePattern_test (value : JSString) :
    testFrom serviceNamePattern 0 value = true ↔
      ∃ c rest, value = c :: rest ∧ (65 ≤ c ∧ c ≤ 90) ∧
        ∀ d ∈ rest, (97 ≤ d ∧ d ≤ 122) ∨ (65 ≤ d ∧ d ≤ 90) ∨ (48 ≤ d ∧ d ≤ 57) := by
  have halnum : ∀ d, inRanges [(97, 122), (65, 90), (48, 57)] d = true ↔
      (97 ≤ d ∧ d ≤ 122) ∨ (65 ≤ d ∧ d ≤ 90) ∨ (48 ≤ d ∧ d ≤ 57) := by
    intro d
    simp [inRanges]
  cases value with
  | nil => simp [serviceNamePattern, testFrom, matchItems]
  | cons c rest =>
    have htail : tryCountsAt (matchItems [.lineEnd]) 1 rest 0
        (rest.takeWhile (inRanges [(97, 122), (65, 90), (48, 57)])).length = true ↔
        ∀ d ∈ rest, inRanges [(97, 122), (65, 90), (48, 57)] d = true := by
      rw [tryCountsAt_iff, ← List.takeWhile_eq_self_iff]
      have hk : (rest.takeWhile (inRanges [(97, 122), (65, 90), (48, 57)])).length ≤
          rest.length := (List.takeWhile_sublist _).length_le
      constructor
      · rintro ⟨j, -, h2, h3⟩
        simp only [matchItems, Bool.and_true, List.isEmpty_iff, List.drop_eq_nil_iff] at h3
        exact (List.takeWhile_sublist _).eq_of_length (by omega)
      · intro h
        refine ⟨rest.length, Nat.zero_le _, by rw [h], ?_⟩
        simp [matchItems]
    have hfirst : inRanges [(65, 90)] c = true ↔ 65 ≤ c ∧ c ≤ 90 := by
      simp [inRanges]
    have hmain : testFrom serviceNamePattern 0 (c :: rest) =
        (inRanges [(65, 90)] c && tryCountsAt (matchItems [.lineEnd]) 1 rest 0
          (rest.takeWhile (inRanges [(97, 122), (65, 90), (48, 57)])).length) := by
      show (matchItems serviceNamePattern 0 (c :: rest) ||
        testFrom serviceNamePattern (0 + 1) rest) = _
      rw [show serviceNamePattern = .lineStart :: serviceNamePattern.tail from rfl,
        testFrom_lineStart _ rest (0 + 1) (by omega), Bool.or_false]
      rfl
    rw [hmain, Bool.and_eq_true, htail, hfirst]
    simp only [List.cons.injEq]
    constructor
    · rintro ⟨h1, h2⟩
      exact ⟨c, rest, ⟨rfl, rfl⟩, h1, fun d hd => (halnum d).1 (h2 d hd)⟩
    · rintro ⟨c', rest', ⟨rfl, rfl⟩, h1, h2⟩
      exact ⟨h1, fun d hd => (halnum d).2 (h2 d hd)⟩

/-! ## Claim on the service-name validator -/

set_option maxRecDepth 100000 in
/-- C30. The `validateInput` callback of `createRobloxService` returns `null` exactly when
the value is a string with a first code unit in `A`-`Z` followed only by code units in
`a`-`z`, `A`-`Z` or `0`-`9`; for every other value it returns the message
`Service name must start with uppercase letter and be alphanumeric`. The empty string,
`undefined`, a lower-case first letter, an underscore, a space and a non-ASCII letter are
each answered with the message. -/
theorem validateInput_accepts_iff (value : Option JSString) :
    (validateInput value = none ↔
        ∃ c rest, value = some (c :: rest) ∧ (65 ≤ c ∧ c ≤ 90) ∧
          ∀ d ∈ rest, (97 ≤ d ∧ d ≤ 122) ∨ (65 ≤ d ∧ d ≤ 90) ∨ (48 ≤ d ∧ d ≤ 57)) ∧
      (validateInput value = none ∨ validateInput value = some serviceNameError) ∧
      validateInput (some (utf16 "PlayerService")) = none ∧
      validateInput (some (utf16 "")) = some serviceNameError ∧
      validateInput none = some serviceNameError ∧
      validateInput (some (utf16 "playerService")) = some serviceNameError ∧
      validateInput (some (utf16 "Player_Service")) = some serviceNameError ∧
      validateInput (some (utf16 "Player Service")) = some serviceNameError ∧
      validateInput (some (utf16 "Pé")) = some serviceNameError := by
  refine ⟨?_, ?_, by decide, by decide, rfl, by decide, by decide, by decide, by decide⟩
  · cases value with
    | none => simp [validateInput]
    | some v =>
      rw [← (show _ ↔ (∃ c rest, some v = some (c :: rest) ∧ (65 ≤ c ∧ c ≤ 90) ∧
          ∀ d ∈ rest, (97 ≤ d ∧ d ≤ 122) ∨ (65 ≤ d ∧ d ≤ 90) ∨ (48 ≤ d ∧ d ≤ 57)) from
        (serviceNamePattern_test v).trans (by simp only [Option.some.injEq]))]
      cases htest : testFrom serviceNamePattern 0 v with
      | false => simp [validateInput, htest]
      | true =>
        have hne : v.isEmpty = false := by
          obtain ⟨c, rest, rfl, -⟩ := (serviceNamePattern_test v).1 htest
          rfl
        simp [validateInput, htest, hne]
  · cases value with
    | none => exact Or.inr rfl
    | some v =>
      simp only [validateInput]
      split
      · exact Or.inr rfl
      · exact Or.inl rfl

/-! ## Lemmas on the matcher on the heap -/

theorem execAt_last (limit : Nat) (U : JSString → JSString) (pre : Heap) (re : RegExp)
    (S : JSString) :
    execAt limit U pre.length S (pre ++ [re]) =
      if limit < re.nodes.length then (none, pre ++ [re])
      else (some (re.exec U S).1, pre ++ [(re.exec U S).2]) := by
  simp [execAt, List.getElem?_concat_length]

theorem forEachLineOn_last (limit : Nat) (U : JSString → JSString) (lines : List JSString)
    (pre : Heap) :
    ∀ (rest : List JSString) (index : Nat) (re : RegExp),
      ∃ re', re'.nodes = re.nodes ∧
        forEachLineOn limit U lines pre.length rest index (pre ++ [re]) =
          (if limit < re.nodes.length ∧ rest ≠ [] then none
            else some (forEachLine U lines rest index re), pre ++ [re'])
  | [], index, re => ⟨re, rfl, by simp [forEachLineOn, forEachLine]⟩
  | line :: rest, index, re => by
    by_cases hl : limit < re.nodes.length
    · refine ⟨re, rfl, ?_⟩
      simp [forEachLineOn, execAt_last, hl]
    · obtain ⟨re', hn, ih⟩ :=
        forEachLineOn_last limit U lines pre rest (index + 1) (re.exec U line).2
      have hn2 : (re.exec U line).2.nodes = re.nodes := (exec_fields U re line).1
      have hl' : ¬ limit < (re.exec U line).2.nodes.length := by
        rw [hn2]
        exact hl
      refine ⟨re', by rw [hn, hn2], ?_⟩
      rw [forEachLineOn, execAt_last, if_neg hl]
      simp only [hl', false_and, if_false] at ih
      simp only [hl, false_and, if_false]
      rcases hx : re.exec U line with ⟨m, re2⟩
      rw [hx] at ih
      cases m with
      | none => simp only [ih, forEachLine, hx]
      | some m => simp only [ih, forEachLine, hx]

theorem findMatchesInTextOn_eq (limit : Nat) (U : JSString → JSString) (text query : JSString)
    (heap : Heap) :
    ∃ re, findMatchesInTextOn limit U text query heap =
      (if limit < query.length then none else findMatchesInText U text query,
        heap ++ [re]) := by
  obtain ⟨re', -, h⟩ :=
    forEachLineOn_last limit U (splitLF text) heap (splitLF text) 0 (litRegExp query 0)
  refine ⟨re', ?_⟩
  have hne : splitLF text ≠ [] := splitLFAux_ne_nil text []
  have hlen : (litRegExp query 0).nodes.length = query.length := by simp [litRegExp]
  simp only [findMatchesInTextOn, allocRegExpGI, newRegExpGI_escapeRegExp, h, hlen,
    findMatchesInText_eq, hne, ne_eq, not_false_eq_true, and_true]

theorem findMatchesInTextOn_fst (limit : Nat) (U : JSString → JSString)
    (text query : JSString) (heap : Heap) :
    (findMatchesInTextOn limit U text query heap).1 =
      if limit < query.length then none else findMatchesInText U text query := by
  obtain ⟨re, h⟩ := findMatchesInTextOn_eq limit U text query heap
  rw [h]

theorem callsOn_fst (limit : Nat) (U : JSString → JSString) :
    ∀ (calls : List (JSString × JSString)) (heap : Heap),
      (callsOn limit U calls heap).1 =
        calls.map fun call => (findMatchesInTextOn limit U call.1 call.2 []).1
  | [], _ => rfl
  | call :: rest, heap => by
    simp only [callsOn, List.map_cons, callsOn_fst limit U rest]
    rw [findMatchesInTextOn_fst, findMatchesInTextOn_fst]

/-! ## Claims on totality and statelessness of the matcher -/

/-- C9, counterexample. On V8 a query of 32768 letters `a`, which is not empty, makes
`findMatchesInText("", query)` throw: the first `exec` refuses the pattern as too large. -/
theorem findMatchesInTextOn_long_query_throws :
    (List.replicate 32768 97 : JSString) ≠ [] ∧
      (findMatchesInTextOn maxLiteralRun asciiToUpperCase [] (List.replicate 32768 97) []).1 =
        none := by
  constructor
  · intro h
    have hlen := congrArg List.length h
    rw [List.length_replicate, List.length_nil] at hlen
    exact absurd hlen (by decide)
  · have hlt : maxLiteralRun < 32768 := by decide
    rw [findMatchesInTextOn_fst, List.length_replicate, if_pos hlt]

/-- C9, amended. On an engine that compiles literal patterns of up to `limit` code units
(32767 on V8), and whatever `RegExp` objects exist already: for every text and every query
of at most `limit` code units `findMatchesInText` returns a list, metacharacters in the
query included; the list is empty for the empty text and a non-empty query, and for every
text none of whose lines contains the query case-insensitively. A longer query makes the
call throw. -/
theorem findMatchesInTextOn_total_within_limit (limit : Nat) (U : JSString → JSString)
    (heap : Heap) :
    (∀ text query, query.length ≤ limit →
        ∃ rs, (findMatchesInTextOn limit U text query heap).1 = some rs) ∧
      (∀ query, query ≠ [] → query.length ≤ limit →
        (findMatchesInTextOn limit U [] query heap).1 = some []) ∧
      (∀ text query, query.length ≤ limit →
        (∀ ln ∈ splitLF text, includes (canonStr U ln) (canonStr U query) = false) →
          (findMatchesInTextOn limit U text query heap).1 = some []) ∧
      ∀ text query, limit < query.length →
        (findMatchesInTextOn limit U text query heap).1 = none := by
  obtain ⟨h1, h2, h3⟩ := findMatchesInText_total_and_empty U
  refine ⟨?_, ?_, ?_, ?_⟩
  · intro text query hq
    obtain ⟨rs, hrs⟩ := h1 text query
    exact ⟨rs, by rw [findMatchesInTextOn_fst, if_neg (by omega), hrs]⟩
  · intro query hne hq
    rw [findMatchesInTextOn_fst, if_neg (by omega), h2 query hne]
  · intro text query hq hno
    rw [findMatchesInTextOn_fst, if_neg (by omega), h3 text query hno]
  · intro text query hq
    rw [findMatchesInTextOn_fst, if_pos hq]

/-- C9, amended, on V8 with the ASCII case table: the query `"(x"` on the empty text and
on a text without it. -/
theorem findMatchesInTextOn_total_within_limit_witness :
    utf16 "(x" ≠ [] ∧ (utf16 "(x").length ≤ maxLiteralRun ∧
      (findMatchesInTextOn maxLiteralRun asciiToUpperCase [] (utf16 "(x") []).1 = some [] ∧
      (∀ ln ∈ splitLF (utf16 "ab\n(y"),
        includes (canonStr asciiToUpperCase ln) (canonStr asciiToUpperCase (utf16 "(x")) = false) ∧
      (findMatchesInTextOn maxLiteralRun asciiToUpperCase (utf16 "ab\n(y") (utf16 "(x") []).1 =
        some [] :=
  ⟨by decide, by decide,
    (findMatchesInTextOn_total_within_limit maxLiteralRun asciiToUpperCase []).2.1 (utf16 "(x")
      (by decide) (by decide),
    by decide,
    (findMatchesInTextOn_total_within_limit maxLiteralRun asciiToUpperCase []).2.2.1
      (utf16 "ab\n(y") (utf16 "(x") (by decide) (by decide)⟩

set_option maxRecDepth 100000 in
/-- C25. Statelessness of the matcher, with the `RegExp` objects on a heap that each call
hands to the next: the result of `findMatchesInText(text, query)` is the same on every
heap; the call leaves every object that existed before as it was and adds only its own
`RegExp`; so in any sequence of calls each result is the one the call gives on the empty
heap, and two calls with the same arguments after any earlier calls give the same result
twice. The line loop itself does read the state: run on the object that a call on
`"a score"` leaves behind (`lastIndex` 7) it finds nothing in `"score"`, while the call on
`"score"` on the heap holding that object finds its record. -/
theorem findMatchesInTextOn_stateless (limit : Nat) (U : JSString → JSString)
    (text query : JSString) :
    (∀ heap, (findMatchesInTextOn limit U text query heap).1 =
        (findMatchesInTextOn limit U text query []).1) ∧
      (∀ heap, ∃ re, (findMatchesInTextOn limit U text query heap).2 = heap ++ [re]) ∧
      (∀ calls heap, (callsOn limit U calls heap).1 =
        calls.map fun call => (findMatchesInTextOn limit U call.1 call.2 []).1) ∧
      (∀ earlier heap,
        (callsOn limit U (earlier ++ [(text, query), (text, query)]) heap).1.drop
            earlier.length =
          [(findMatchesInTextOn limit U text query []).1,
            (findMatchesInTextOn limit U text query []).1]) ∧
      ((callsOn maxLiteralRun asciiToUpperCase [(utf16 "a score", utf16 "score")] []).2 =
          [litRegExp (utf16 "score") 7] ∧
        (forEachLineOn maxLiteralRun asciiToUpperCase [utf16 "score"] 0 [utf16 "score"] 0
          [litRegExp (utf16 "score") 7]).1 = some [] ∧
        positions (findMatchesInTextOn maxLiteralRun asciiToUpperCase (utf16 "score")
          (utf16 "score") [litRegExp (utf16 "score") 7]).1 = some [(1, 0)]) := by
  refine ⟨?_, ?_, callsOn_fst limit U, ?_, by decide⟩
  · intro heap
    rw [findMatchesInTextOn_fst, findMatchesInTextOn_fst]
  · intro heap
    obtain ⟨re, h⟩ := findMatchesInTextOn_eq limit U text query heap
    exact ⟨re, by rw [h]⟩
  · intro earlier heap
    rw [callsOn_fst, List.map_append, List.drop_left' (by simp)]
    rfl

end Shindary
